import Mathlib

/-!
# Image model of the Thumb reassembler

A shallow embedding of `src/imagemodel.cpp`: the recursive control-flow
follower `ImageModel::disassembleAddress`, its entry point
`ImageModel::addEntry`, and the emitter `ImageModel::makeCode`.

Conventions.
* `zu64` values are natural numbers; sums and differences of addresses are
  reduced modulo `2 ^ 64` (`add64`, `sub64`), because the source computes
  `start_addr - base`, `base - addr` and `ldr_data - 1` on unsigned 64-bit
  integers. File offsets, sweep indices and instruction counts stay far below
  `2 ^ 64` and are plain naturals.
* The decoder (Capstone), the hexadecimal formatter `HEX`, `cs_reg_name`, the
  default-constructed `RefElem` and the result of reading past the end of the
  image are not defined in `src/`; they are fields of `Env`, so every theorem
  holds for all of them.
* The recursion of the follower is driven by a fuel argument; `Outcome.nofuel`
  is returned when the fuel is used up. The runs that return are also given
  as a relation, `Runs`, on which the invariants are proved by induction.
* The concrete scenarios run on `thumbEnv`, an environment with a decoder for
  a subset of the Thumb encodings.
* The states in which the iterations of the decode loop start are observed
  through `RunsLog`, the relation `Runs` with a log; termination is proved on
  `run` itself: from some fuel on the outcome is not `Outcome.nofuel`.
-/

namespace Reassemble

/-! ## Data model -/

/-- Modelled from the spec: the label kinds of `imagemodel.h` (absent from
`src/`), in priority order `NAMED < CALL < JUMP < SWITCH < LNONE`. -/
inductive labeltype where
  | NAMED
  | CALL
  | JUMP
  | SWITCH
  | LNONE
  deriving DecidableEq, Repr

/-- Ordinal of a label kind, the number the source compares with `<=`. -/
def labeltype.ord : labeltype → Nat
  | .NAMED => 0
  | .CALL => 1
  | .JUMP => 2
  | .SWITCH => 3
  | .LNONE => 4

/-- Modelled from the spec: the reference kinds `CODE`, `DATA`, `RAW`. -/
inductive reftype where
  | CODE
  | DATA
  | RAW
  deriving DecidableEq, Repr

/-- Modelled from the spec: the render formats `F_STRING`, `F_TARGET`. -/
inductive fmttype where
  | F_STRING
  | F_TARGET
  deriving DecidableEq, Repr

/-- Modelled from the spec: the flag bit `THUMBFUNC` of `RefElem.flags`. -/
def THUMBFUNC : Nat := 1

/-- The `Label` argument of `disassembleAddress`: `{ type, str }`. -/
structure Label where
  type : labeltype
  str : String
  deriving DecidableEq, Repr

/-- Modelled from the spec: the record `RefElem` (section 3.5). The field
`ctype` of the source is written once and never read; it is left out. -/
structure RefElem where
  type : reftype
  size : Nat
  ltype : labeltype
  label : String
  ftype : fmttype
  str : String
  suffix : String
  target : Nat
  flags : Nat
  deriving DecidableEq, Repr

/-! ## 64-bit arithmetic -/

/-- Unsigned 64-bit addition. -/
def add64 (a b : Nat) : Nat := (a + b) % 2 ^ 64

/-- Unsigned 64-bit subtraction `a - b`, wrapping around below zero. -/
def sub64 (a b : Nat) : Nat := (a % 2 ^ 64 + (2 ^ 64 - b % 2 ^ 64)) % 2 ^ 64

/-- Conversion of a signed operand (`imm`, `mem.disp`) to `zu64`. -/
def ofInt64 (i : Int) : Nat := (i % 2 ^ 64).toNat

/-! ## The reference database -/

/-- Modelled from the spec: the RefDB `refs`, a mapping from file offset to
`RefElem` (the container type is not in `src/`). `add` stores the element at
the offset (replacing an element already stored there), and an index-style
lookup `refs[k]` of an offset that is no key yields a default-constructed
element, which an assignment through it stores. -/
def RefDB : Type := Nat → Option RefElem

namespace RefDB

/-- The database with no key. -/
def empty : RefDB := fun _ => none

/-- The lookup `refs.contains(k)`. -/
def contains (r : RefDB) (k : Nat) : Bool := (r k).isSome

/-- The insertion `refs.add(k, e)`. -/
def add (r : RefDB) (k : Nat) (e : RefElem) : RefDB :=
  fun j => if j = k then some e else r j

/-- The value read through `refs[k]` or `refs.get(k)`. -/
def index (dflt : RefElem) (r : RefDB) (k : Nat) : RefElem := (r k).getD dflt

/-- An assignment through `refs[k]`, `refs.get(k)` or the pointer `tins`:
the element at `k` is replaced by `f` of it. -/
def modify (dflt : RefElem) (r : RefDB) (k : Nat) (f : RefElem → RefElem) : RefDB :=
  r.add k (f (r.index dflt k))

end RefDB

/-! ## Decoded instructions -/

/-- Registers as the follower distinguishes them. -/
inductive arm_reg where
  | INVALID
  | R (n : Nat)
  | SP
  | LR
  | PC
  deriving DecidableEq, Repr

/-- Operand kinds of a decoded instruction. -/
inductive arm_op_type where
  | INVALID
  | REG
  | IMM
  | MEM
  deriving DecidableEq, Repr

/-- One operand `insn->detail->arm.operands[i]`. -/
structure cs_arm_op where
  type : arm_op_type
  reg : arm_reg
  imm : Int
  mem_base : arm_reg
  mem_disp : Int
  deriving DecidableEq, Repr

/-- Condition code of an instruction: `ARM_CC_AL` or a real condition. -/
inductive arm_cc where
  | AL
  | COND (n : Nat)
  deriving DecidableEq, Repr

/-- The instruction classes the follower dispatches on (`insn->id`). -/
inductive arm_insn where
  | B
  | CBZ
  | CBNZ
  | BX
  | POP
  | BL
  | BLX
  | TBB
  | LDR
  | OTHER
  deriving DecidableEq, Repr

/-- A decoded instruction `cs_insn`; `op_count` is the length of `operands`. -/
structure cs_insn where
  id : arm_insn
  size : Nat
  mnemonic : String
  op_str : String
  cc : arm_cc
  operands : List cs_arm_op
  deriving DecidableEq, Repr

/-- The operand `operands[i]`; an index past `op_count` reads a blank operand. -/
def cs_insn.op (insn : cs_insn) (i : Nat) : cs_arm_op :=
  insn.operands.getD i ⟨.INVALID, .INVALID, 0, .INVALID, 0⟩

/-! ## Environment -/

/-- What one `ImageModel` is parameterised by. `base` and `image` are the
fields set by `loadImage` (bytes are numbers below 256). `decode bytes addr`
is `cs_disasm_iter` on the bytes from the current offset to the end of the
image, at address `addr`. `HEX` is the macro of that name, `reg_name` is
`cs_reg_name`, and `dflt` is a default-constructed `RefElem`: the value of
every field the source does not assign. `oob_byte k` and `oob_word pos` are
what `image[k]` and `image.readleu32()` yield outside the image, which the
source does not test for. -/
structure Env where
  base : Nat
  image : List Nat
  decode : List Nat → Nat → Option cs_insn
  HEX : Nat → String
  reg_name : arm_reg → String
  dflt : RefElem
  oob_byte : Nat → Nat
  oob_word : Nat → Nat

/-- The byte `image[k]`. -/
def Env.byte (env : Env) (k : Nat) : Nat :=
  if k < env.image.length then env.image.getD k 0 else env.oob_byte k

/-- The word read by `image.seek(pos); image.readleu32()`. -/
def Env.readleu32 (env : Env) (pos : Nat) : Nat :=
  if pos + 4 ≤ env.image.length then
    env.image.getD pos 0 + 256 * env.image.getD (pos + 1) 0
      + 65536 * env.image.getD (pos + 2) 0 + 16777216 * env.image.getD (pos + 3) 0
  else env.oob_word pos

/-! ## The control-flow follower -/

/-- How a run of the follower ends: it returns `total` with the database
`refs`, or a `zassert` fails, or the fuel of the model is used up. -/
inductive Outcome where
  | done (refs : RefDB) (total : Nat)
  | aborted
  | nofuel

/-- The three loops of `disassembleAddress`: a call of the function itself,
the `while(true)` decode loop with its local variables, and the `for` loop
that scans a TBB table. -/
inductive Task where
  | enter (start_addr : Nat) (label : Label)
  | loop (start_addr : Nat) (label : Label) (offset total : Nat)
      (ldr_reg : arm_reg) (ldr_addr ldr_data : Nat)
  | table (offset size i min total : Nat)

/-- The record `instr` built at lines 79-92: a `CODE` element that carries the
caller's label only when it is the first instruction of the call. -/
def newInstr (env : Env) (insn : cs_insn) (start_addr : Nat) (label : Label)
    (offset : Nat) : RefElem :=
  { env.dflt with
    type := .CODE
    size := insn.size
    str := insn.mnemonic ++ " " ++ insn.op_str
    ftype := .F_STRING
    ltype := if add64 env.base offset = start_addr then label.type else .LNONE
    label := if add64 env.base offset = start_addr then label.str else env.dflt.label }

/-- The assignments through `tins` of the B, CBZ/CBNZ and BL cases. -/
def setTarget (target : Nat) (str : String) (t : RefElem) : RefElem :=
  { t with ftype := .F_TARGET, target := target, str := str }

/-- The assignments through `tins` of the BX, BLX and LDR cases. -/
def setComment (target : Nat) (t : RefElem) : RefElem :=
  { t with ftype := .F_TARGET, target := target, str := t.str ++ " /* ", suffix := " */ " }

/-- The assignments to `refs[ldr_addr]` of the BX and BLX cases. -/
def setWord (target : Nat) (d : RefElem) : RefElem :=
  { d with ftype := .F_TARGET, str := ".word ", target := target }

/-- The assignment `refs[..].flags |= THUMBFUNC`. -/
def setThumb (e : RefElem) : RefElem :=
  { e with flags := e.flags ||| THUMBFUNC }

/-- The assignments to `ltype` and `label` at lines 41-42. -/
def setLabel (label : Label) (e : RefElem) : RefElem :=
  { e with ltype := label.type, label := label.str }

/-- The record `data` built at lines 281-285. -/
def newData (env : Env) (laddr ldr_data : Nat) : RefElem :=
  { env.dflt with
    type := .DATA
    size := 4
    str := ".word 0x" ++ env.HEX ldr_data
    label := "data_" ++ env.HEX laddr }

/-- The Thumb program counter `(base + offset + 4) & ~3` of line 259. -/
def thumbPc (env : Env) (offset : Nat) : Nat :=
  add64 (add64 env.base offset) 4 - add64 (add64 env.base offset) 4 % 4

/-- The address `base + offset + insn->size + i` of the TBB scan. -/
def tableAddr (env : Env) (offset size i : Nat) : Nat :=
  (env.base + offset + size + i) % 2 ^ 64

/-- The case target `boff` of line 231. -/
def tableTarget (env : Env) (offset size i : Nat) : Nat :=
  (env.base + offset + size + env.byte (offset + size + i) * 2) % 2 ^ 64

/-- The call `cs_disasm_iter(handle, &iptr, &isize, &iaddr, insn)` of line 73
when the loop is at `offset`: the decoder sees the bytes from `offset` to the
end of the image and the address `base + offset`. -/
def decodeAt (env : Env) (offset : Nat) : Option cs_insn :=
  env.decode (env.image.drop offset) (add64 env.base offset)

/-- The test of the POP case: some operand is the register PC. -/
def popsPc (insn : cs_insn) : Bool :=
  insn.operands.any fun o => decide (o.type = .REG) && decide (o.reg = .PC)

/-- The follower `ImageModel::disassembleAddress` (lines 34-316), one
equation per loop. -/
def run (env : Env) : Nat → Task → RefDB → Outcome
  | 0, _, _ => .nofuel
  | fuel + 1, .enter start_addr label, refs =>
    if refs.contains (sub64 start_addr env.base) then
      if label.type.ord ≤ (refs.index env.dflt (sub64 start_addr env.base)).ltype.ord then
        .done (refs.modify env.dflt (sub64 start_addr env.base) (setLabel label)) 0
      else
        .done refs 0
    else if env.base > start_addr then
      .done refs 0
    else if sub64 start_addr env.base ≥ env.image.length then
      .done refs 0
    else
      run env fuel (.loop start_addr label (sub64 start_addr env.base) 0 .INVALID 0 0) refs
  | fuel + 1, .loop start_addr label offset total ldr_reg ldr_addr ldr_data, refs =>
    match decodeAt env offset with
    | none => .done refs total
    | some insn =>
      if refs.contains offset then
        .done refs total
      else
        let refs1 := refs.add offset (newInstr env insn start_addr label offset)
        match insn.id with
        | .B =>
          if insn.operands.length = 1 ∧ (insn.op 0).type = .IMM then
            let jaddr := ofInt64 (insn.op 0).imm
            let refs2 := refs1.modify env.dflt offset (setTarget jaddr (insn.mnemonic ++ " "))
            match run env fuel (.enter jaddr ⟨.JUMP, "jump_" ++ env.HEX jaddr⟩) refs2 with
            | .done refs3 n =>
              if insn.cc = .AL then
                .done refs3 (total + n + 1)
              else
                run env fuel (.loop start_addr label (offset + insn.size) (total + n + 1)
                  .INVALID ldr_addr ldr_data) refs3
            | .aborted => .aborted
            | .nofuel => .nofuel
          else
            .aborted
        | .CBZ | .CBNZ =>
          let addr := ofInt64 (insn.op 1).imm
          let refs2 := refs1.modify env.dflt offset
            (setTarget addr (insn.mnemonic ++ " " ++ env.reg_name (insn.op 0).reg ++ ", "))
          match run env fuel (.enter addr ⟨.JUMP, "jump_" ++ env.HEX addr⟩) refs2 with
          | .done refs3 n =>
            run env fuel (.loop start_addr label (offset + insn.size) (total + n + 1)
              .INVALID ldr_addr ldr_data) refs3
          | .aborted => .aborted
          | .nofuel => .nofuel
        | .BX =>
          if ldr_reg ≠ .INVALID ∧ (insn.op 0).reg = ldr_reg then
            let addr := ldr_data - ldr_data % 2
            let refs2 := refs1.modify env.dflt offset (setComment addr)
            let refs3 := refs2.modify env.dflt ldr_addr (setWord addr)
            match run env fuel (.enter addr ⟨.JUMP, "jump_" ++ env.HEX addr⟩) refs3 with
            | .done refs4 n =>
              .done (refs4.modify env.dflt (sub64 env.base addr) setThumb) (total + n + 1)
            | .aborted => .aborted
            | .nofuel => .nofuel
          else
            .done refs1 (total + 1)
        | .POP =>
          if popsPc insn then
            .done refs1 (total + 1)
          else
            run env fuel (.loop start_addr label (offset + insn.size) (total + 1)
              .INVALID ldr_addr ldr_data) refs1
        | .BL =>
          if insn.operands.length = 1 ∧ (insn.op 0).type = .IMM then
            let addr := ofInt64 (insn.op 0).imm
            let refs2 := refs1.modify env.dflt offset (setTarget addr (insn.mnemonic ++ " "))
            match run env fuel (.enter addr ⟨.CALL, "call_" ++ env.HEX addr⟩) refs2 with
            | .done refs3 n =>
              run env fuel (.loop start_addr label (offset + insn.size) (total + n + 1)
                .INVALID ldr_addr ldr_data) refs3
            | .aborted => .aborted
            | .nofuel => .nofuel
          else
            .aborted
        | .BLX =>
          if ldr_reg ≠ .INVALID ∧ (insn.op 0).reg = ldr_reg then
            let addr := sub64 ldr_data 1
            let refs2 := refs1.modify env.dflt offset (setComment addr)
            let refs3 := refs2.modify env.dflt ldr_addr (setWord addr)
            match run env fuel (.enter addr ⟨.CALL, "call_" ++ env.HEX addr⟩) refs3 with
            | .done refs4 n =>
              run env fuel (.loop start_addr label (offset + insn.size) (total + n + 1)
                .INVALID ldr_addr ldr_data)
                (refs4.modify env.dflt (sub64 env.base addr) setThumb)
            | .aborted => .aborted
            | .nofuel => .nofuel
          else
            run env fuel (.loop start_addr label (offset + insn.size) (total + 1)
              .INVALID ldr_addr ldr_data) refs1
        | .TBB =>
          if insn.operands.length = 1 ∧ (insn.op 0).type = .MEM ∧ (insn.op 0).mem_base = .PC then
            run env fuel (.table offset insn.size 0 (2 ^ 64 - 1) total) refs1
          else
            .done refs1 total
        | .LDR =>
          if insn.operands.length = 2 ∧ (insn.op 1).type = .MEM ∧ (insn.op 1).mem_base = .PC then
            let laddr := add64 (thumbPc env offset) (ofInt64 (insn.op 1).mem_disp)
            let refs2 := refs1.modify env.dflt offset (setComment laddr)
            let refs3 := refs2.add (sub64 laddr env.base)
              (newData env laddr (env.readleu32 (sub64 laddr env.base)))
            run env fuel (.loop start_addr label (offset + insn.size) (total + 1)
              (insn.op 0).reg (sub64 laddr env.base) (env.readleu32 (sub64 laddr env.base))) refs3
          else
            run env fuel (.loop start_addr label (offset + insn.size) (total + 1)
              .INVALID ldr_addr ldr_data) refs1
        | .OTHER =>
          run env fuel (.loop start_addr label (offset + insn.size) (total + 1)
            .INVALID ldr_addr ldr_data) refs1
  | fuel + 1, .table offset size i min total, refs =>
    if tableAddr env offset size i < min then
      if tableTarget env offset size i > tableAddr env offset size i then
        match run env fuel
            (.enter (tableTarget env offset size i)
              ⟨.SWITCH, "switch_" ++ env.HEX (tableTarget env offset size i)⟩) refs with
        | .done refs1 n =>
          run env fuel (.table offset size (i + 1) (tableTarget env offset size i) (total + n)) refs1
        | .aborted => .aborted
        | .nofuel => .nofuel
      else
        .done refs total
    else
      .done refs total

/-- The function `ImageModel::disassembleAddress(start_addr, label)` run on the
database `refs`. -/
def disassembleAddress (env : Env) (fuel : Nat) (refs : RefDB) (start_addr : Nat)
    (label : Label) : Outcome :=
  run env fuel (.enter start_addr label) refs

/-- The function `ImageModel::addEntry(start_addr, name)` (lines 28-32). -/
def addEntry (env : Env) (fuel : Nat) (refs : RefDB) (start_addr : Nat)
    (name : String) : Outcome :=
  disassembleAddress env fuel refs start_addr
    ⟨.NAMED, if name = "" then "loc_" ++ env.HEX start_addr else name⟩

/-- The database an outcome carries, when the run returned. -/
def Outcome.refs? : Outcome → Option RefDB
  | .done refs _ => some refs
  | _ => none

/-- The element an outcome's database stores at offset `k`: `none` when the
run did not return, `some none` when `k` is no key. -/
def Outcome.entry (o : Outcome) (k : Nat) : Option (Option RefElem) :=
  o.refs?.map fun refs => refs k

/-! ## A concrete environment

A decoder for a small subset of the Thumb encodings, with Capstone's operand
layout, and an upper-case hexadecimal formatter. They instantiate `Env` in the
concrete scenarios below. -/

/-- Upper-case hexadecimal digit. -/
def hexDigit (d : Nat) : Char :=
  match d with
  | 0 => '0' | 1 => '1' | 2 => '2' | 3 => '3' | 4 => '4' | 5 => '5' | 6 => '6' | 7 => '7'
  | 8 => '8' | 9 => '9' | 10 => 'A' | 11 => 'B' | 12 => 'C' | 13 => 'D' | 14 => 'E'
  | _ => 'F'

/-- Digits of `n` in base 16, most significant first, in front of `acc`. -/
def hexDigits : Nat → Nat → List Char → List Char
  | 0, _, acc => acc
  | fuel + 1, n, acc =>
    if n < 16 then hexDigit n :: acc
    else hexDigits fuel (n / 16) (hexDigit (n % 16) :: acc)

/-- Upper-case hexadecimal rendering without padding, as in `jump_1A2C`. -/
def hexUpper (n : Nat) : String := String.mk (hexDigits 16 n [])

/-- Register number of an encoding field. -/
def regOf (n : Nat) : arm_reg :=
  if n = 15 then .PC else if n = 14 then .LR else if n = 13 then .SP else .R n

/-- Register names. -/
def regName : arm_reg → String
  | .INVALID => ""
  | .R n => "r" ++ hexUpper n
  | .SP => "sp"
  | .LR => "lr"
  | .PC => "pc"

/-- A register operand. -/
def opReg (r : arm_reg) : cs_arm_op := ⟨.REG, r, 0, .INVALID, 0⟩

/-- An immediate operand. -/
def opImm (i : Int) : cs_arm_op := ⟨.IMM, .INVALID, i, .INVALID, 0⟩

/-- A memory operand `[base, #disp]`. -/
def opMem (b : arm_reg) (d : Int) : cs_arm_op := ⟨.MEM, .INVALID, 0, b, d⟩

/-- Branch displacement of a `bits`-wide field `v` counting halfwords. -/
def branchDisp (bits v : Nat) : Int :=
  if v < 2 ^ (bits - 1) then (2 * v : Nat) else (2 * v : Nat) - (2 ^ (bits + 1) : Nat)

/-- The 16-bit encodings `hw` at address `addr`: NOP, MOVS immediate, PUSH with
LR, POP with PC, BX, BLX, LDR literal, B, conditional B, CBZ and CBNZ. Of a
register list only LR, respectively PC, is rendered and listed as operand. -/
def thumb16 (hw addr : Nat) : Option cs_insn :=
  if hw = 0xBF00 then
    some ⟨.OTHER, 2, "nop", "", .AL, []⟩
  else if hw / 2048 = 4 then
    some ⟨.OTHER, 2, "movs", regName (.R (hw / 256 % 8)) ++ ", #0x" ++ hexUpper (hw % 256),
      .AL, [opReg (.R (hw / 256 % 8)), opImm (hw % 256 : Nat)]⟩
  else if hw / 256 = 0xB5 then
    some ⟨.OTHER, 2, "push", "{lr}", .AL, [opReg .LR]⟩
  else if hw / 256 = 0xBD then
    some ⟨.POP, 2, "pop", "{pc}", .AL, [opReg .PC]⟩
  else if hw / 128 = 0x8E then
    some ⟨.BX, 2, "bx", regName (regOf (hw / 8 % 16)), .AL, [opReg (regOf (hw / 8 % 16))]⟩
  else if hw / 128 = 0x8F then
    some ⟨.BLX, 2, "blx", regName (regOf (hw / 8 % 16)), .AL, [opReg (regOf (hw / 8 % 16))]⟩
  else if hw / 2048 = 9 then
    some ⟨.LDR, 2, "ldr", regName (.R (hw / 256 % 8)) ++ ", [pc, #0x" ++ hexUpper (hw % 256 * 4) ++ "]",
      .AL, [opReg (.R (hw / 256 % 8)), opMem .PC (hw % 256 * 4 : Nat)]⟩
  else if hw / 2048 = 0x1C then
    some ⟨.B, 2, "b", "#0x" ++ hexUpper (ofInt64 (addr + 4 + branchDisp 11 (hw % 2048))),
      .AL, [opImm (addr + 4 + branchDisp 11 (hw % 2048))]⟩
  else if hw / 4096 = 0xD ∧ hw / 256 % 16 < 14 then
    some ⟨.B, 2, "b", "#0x" ++ hexUpper (ofInt64 (addr + 4 + branchDisp 8 (hw % 256))),
      .COND (hw / 256 % 16), [opImm (addr + 4 + branchDisp 8 (hw % 256))]⟩
  else if hw / 256 = 0xB1 ∨ hw / 256 = 0xB3 then
    some ⟨.CBZ, 2, "cbz", "", .AL,
      [opReg (.R (hw % 8)), opImm (addr + 4 + 2 * (hw / 512 % 2 * 32 + hw / 8 % 32) : Nat)]⟩
  else if hw / 256 = 0xB9 ∨ hw / 256 = 0xBB then
    some ⟨.CBNZ, 2, "cbnz", "", .AL,
      [opReg (.R (hw % 8)), opImm (addr + 4 + 2 * (hw / 512 % 2 * 32 + hw / 8 % 32) : Nat)]⟩
  else
    none

/-- The 32-bit encodings `hw1 hw2` at address `addr`: `TBB [pc, Rm]`, `BL` with
a non-negative displacement, and `LDR.W Rt, [Rn, #imm12]`. -/
def thumb32 (hw1 hw2 addr : Nat) : Option cs_insn :=
  if hw1 = 0xE8DF ∧ hw2 / 16 = 0xF00 then
    some ⟨.TBB, 4, "tbb", "[pc, " ++ regName (regOf (hw2 % 16)) ++ "]", .AL, [opMem .PC 0]⟩
  else if hw1 / 1024 = 0x3C ∧ hw2 / 2048 = 0x1F then
    some ⟨.BL, 4, "bl", "#0x" ++ hexUpper (addr + 4 + hw1 % 1024 * 4096 + hw2 % 2048 * 2),
      .AL, [opImm (addr + 4 + hw1 % 1024 * 4096 + hw2 % 2048 * 2 : Nat)]⟩
  else if hw1 / 16 = 0xF8D then
    some ⟨.LDR, 4, "ldr.w",
      regName (regOf (hw2 / 4096)) ++ ", [" ++ regName (regOf (hw1 % 16)) ++ ", #0x"
        ++ hexUpper (hw2 % 4096) ++ "]",
      .AL, [opReg (regOf (hw2 / 4096)), opMem (regOf (hw1 % 16)) (hw2 % 4096 : Nat)]⟩
  else
    none

/-- Decoder for the subset: little-endian halfwords, 32-bit encodings when the
first halfword is `0xE8..` or above. -/
def thumbDecode : List Nat → Nat → Option cs_insn
  | b0 :: b1 :: rest, addr =>
    if (b0 + 256 * b1) / 2048 < 0x1D then
      thumb16 (b0 + 256 * b1) addr
    else
      match rest with
      | b2 :: b3 :: _ => thumb32 (b0 + 256 * b1) (b2 + 256 * b3) addr
      | _ => none
  | _, _ => none

/-- A default-constructed `RefElem` with every scalar zero and no label kind. -/
def blankElem : RefElem :=
  { type := .CODE, size := 0, ltype := .LNONE, label := "", ftype := .F_STRING,
    str := "", suffix := "", target := 0, flags := 0 }

/-- The environment of the concrete scenarios: the image `image` loaded at
`base`, decoded by `thumbDecode`. -/
def thumbEnv (base : Nat) (image : List Nat) : Env :=
  { base := base, image := image, decode := thumbDecode, HEX := hexUpper,
    reg_name := regName, dflt := blankElem, oob_byte := fun _ => 0, oob_word := fun _ => 0 }

/-! ## The emitter -/

/-- The four writes at lines 320-323. -/
def asmHeader : String :=
  ".syntax unified\n" ++ ".cpu cortex-m3\n" ++ ".text\n" ++ ".thumb\n\n"

/-- The `for` loop of `ImageModel::makeCode` (lines 327-405) from index `i`
with the previous kind `prev` and the text `asem` written so far. The result
is `some ""` when emission is abandoned (`return ZBinary()`), and `none` when
the fuel of the model is used up. -/
def makeCodeLoop (env : Env) (refs : RefDB) : Nat → Nat → reftype → String → Option String
  | 0, _, _, _ => none
  | fuel + 1, i, prev, asem =>
    if i < env.image.length then
      if refs.contains i then
        let ref := refs.index env.dflt i
        let asem1 := if prev ≠ ref.type then asem ++ "\n" else asem
        let asem2 := if ref.flags &&& THUMBFUNC ≠ 0 then asem1 ++ ".thumb_func\n" else asem1
        let asem3 := if ref.label ≠ "" then asem2 ++ ref.label ++ ":\n" else asem2
        match ref.ftype with
        | .F_STRING =>
          makeCodeLoop env refs fuel (i + ref.size) ref.type (asem3 ++ "    " ++ ref.str ++ "\n")
        | .F_TARGET =>
          if refs.contains (sub64 ref.target env.base) then
            if (refs.index env.dflt (sub64 ref.target env.base)).label = "" then
              some ""
            else
              makeCodeLoop env refs fuel (i + ref.size) ref.type
                (asem3 ++ "    "
                  ++ (ref.str ++ (refs.index env.dflt (sub64 ref.target env.base)).label
                    ++ ref.suffix)
                  ++ "\n")
          else
            some ""
      else
        makeCodeLoop env refs fuel (i + 1) .RAW
          ((if prev = .CODE ∨ prev = .DATA then asem ++ "\n" else asem)
            ++ ".byte " ++ ("0x" ++ env.HEX (env.byte i)) ++ "\n")
    else
      some asem

/-- The function `ImageModel::makeCode` (lines 318-407). -/
def makeCode (env : Env) (refs : RefDB) (fuel : Nat) : Option String :=
  makeCodeLoop env refs fuel 0 .DATA asmHeader

/-! ## The reference emitter of the specification -/

/-- One rendered unit of the listing: the bytes `[offset, offset + size)` of
the image and the text that renders them. -/
structure EmitUnit where
  offset : Nat
  size : Nat
  text : String
  deriving DecidableEq, Repr

/-- Spec 4.4: an `F_TARGET` whose target is no key, or a key with an empty
label, makes emission fail. -/
def unresolved (env : Env) (refs : RefDB) (r : RefElem) : Prop :=
  r.ftype = .F_TARGET ∧
    (refs (sub64 r.target env.base) = none ∨
      ∃ t, refs (sub64 r.target env.base) = some t ∧ t.label = "")

instance (env : Env) (refs : RefDB) (r : RefElem) : Decidable (unresolved env refs r) := by
  unfold unresolved
  cases h : refs (sub64 r.target env.base) with
  | none => exact decidable_of_iff (r.ftype = .F_TARGET) (by simp)
  | some t => exact decidable_of_iff (r.ftype = .F_TARGET ∧ t.label = "") (by simp)

/-- Spec 4.4: the instruction text, `str` for `F_STRING` and
`str + label_of(target - base) + suffix` for `F_TARGET`. -/
def specText (env : Env) (refs : RefDB) (r : RefElem) : String :=
  match r.ftype with
  | .F_STRING => r.str
  | .F_TARGET =>
    r.str ++ ((refs (sub64 r.target env.base)).map fun t => t.label).getD "" ++ r.suffix

/-- Spec 4.4: the lines of a RefDB record `r` met with previous kind `prev`. -/
def specRefText (env : Env) (refs : RefDB) (prev : reftype) (r : RefElem) : String :=
  (if prev ≠ r.type then "\n" else "")
    ++ ((if r.flags &&& THUMBFUNC ≠ 0 then ".thumb_func\n" else "")
      ++ ((if r.label ≠ "" then r.label ++ ":\n" else "")
        ++ ("    " ++ specText env refs r ++ "\n")))

/-- Spec 4.4: the lines of the uncovered byte at `i` met with previous kind
`prev`. -/
def specByteText (env : Env) (prev : reftype) (i : Nat) : String :=
  (if prev = .CODE ∨ prev = .DATA then "\n" else "")
    ++ (".byte 0x" ++ env.HEX (env.byte i) ++ "\n")

/-- Spec 4.4: the sweep from `i` with previous kind `prev`, as the list of
rendered units; `none` when a target is unresolved (or the fuel is used up). -/
def specSweep (env : Env) (refs : RefDB) : Nat → Nat → reftype → Option (List EmitUnit)
  | 0, _, _ => none
  | fuel + 1, i, prev =>
    if i < env.image.length then
      match refs i with
      | some r =>
        if unresolved env refs r then none
        else
          (specSweep env refs fuel (i + r.size) r.type).map
            fun us => ⟨i, r.size, specRefText env refs prev r⟩ :: us
      | none =>
        (specSweep env refs fuel (i + 1) .RAW).map
          fun us => ⟨i, 1, specByteText env prev i⟩ :: us
    else
      some []

/-- Concatenation of texts. -/
def concatTexts : List String → String
  | [] => ""
  | t :: ts => t ++ concatTexts ts

/-- The offsets the emitter's sweep visits after `i`, as long as every record
it meets can be rendered: `SweptFrom env refs i j` when the sweep at `i` gets
to `j`. -/
inductive SweptFrom (env : Env) (refs : RefDB) : Nat → Nat → Prop where
  | here (i : Nat) : SweptFrom env refs i i
  | ref (i j : Nat) (r : RefElem) : i < env.image.length → refs i = some r →
      ¬ unresolved env refs r → SweptFrom env refs (i + r.size) j → SweptFrom env refs i j
  | raw (i j : Nat) : i < env.image.length → refs i = none →
      SweptFrom env refs (i + 1) j → SweptFrom env refs i j

/-! ## Sequences of entries -/

/-- A sequence of `addEntry` calls, each run to its return; `none` when one of
them does not return. -/
def addEntries (env : Env) (fuel : Nat) : RefDB → List (Nat × String) → Option RefDB
  | refs, [] => some refs
  | refs, (start_addr, name) :: rest =>
    match addEntry env fuel refs start_addr name with
    | .done refs' _ => addEntries env fuel refs' rest
    | .aborted => none
    | .nofuel => none

/-! ## Instruction classes and the follower as a relation

The cases of the `switch` at line 99 fall into a few classes, named here, and
the runs of the follower that return are described by the relation `Runs`,
with one rule per path through the function. Invariants of the follower are
proved by induction on `Runs`. -/

/-- The test of the LDR case: two operands, the second a PC-based memory
operand. -/
def pcLoad (insn : cs_insn) : Prop :=
  insn.operands.length = 2 ∧ (insn.op 1).type = .MEM ∧ (insn.op 1).mem_base = .PC

instance (insn : cs_insn) : Decidable (pcLoad insn) := by
  unfold pcLoad
  infer_instance

/-- The test of the TBB case: one PC-based memory operand. -/
def pcTable (insn : cs_insn) : Prop :=
  insn.operands.length = 1 ∧ (insn.op 0).type = .MEM ∧ (insn.op 0).mem_base = .PC

instance (insn : cs_insn) : Decidable (pcTable insn) := by
  unfold pcTable
  infer_instance

/-- The test of the BX and BLX cases: the operand is the register the
preceding PC-relative LDR loaded. -/
def usesLoad (insn : cs_insn) (ldr_reg : arm_reg) : Prop :=
  ldr_reg ≠ .INVALID ∧ (insn.op 0).reg = ldr_reg

instance (insn : cs_insn) (ldr_reg : arm_reg) : Decidable (usesLoad insn ldr_reg) := by
  unfold usesLoad
  infer_instance

/-- The test of the two `zassert`s: one operand, an immediate. -/
def oneImm (insn : cs_insn) : Prop :=
  insn.operands.length = 1 ∧ (insn.op 0).type = .IMM

instance (insn : cs_insn) : Decidable (oneImm insn) := by
  unfold oneImm
  infer_instance

/-- The direct branches and calls (cases B, CBZ, CBNZ, BL): the target, the
label the target is entered with, the text stored in `str`, and whether the
linear path stops. -/
def directCall (env : Env) (insn : cs_insn) : Option (Nat × Label × String × Bool) :=
  match insn.id with
  | .B =>
    if oneImm insn then
      some (ofInt64 (insn.op 0).imm, ⟨.JUMP, "jump_" ++ env.HEX (ofInt64 (insn.op 0).imm)⟩,
        insn.mnemonic ++ " ", decide (insn.cc = .AL))
    else none
  | .CBZ | .CBNZ =>
    some (ofInt64 (insn.op 1).imm, ⟨.JUMP, "jump_" ++ env.HEX (ofInt64 (insn.op 1).imm)⟩,
      insn.mnemonic ++ " " ++ env.reg_name (insn.op 0).reg ++ ", ", false)
  | .BL =>
    if oneImm insn then
      some (ofInt64 (insn.op 0).imm, ⟨.CALL, "call_" ++ env.HEX (ofInt64 (insn.op 0).imm)⟩,
        insn.mnemonic ++ " ", false)
    else none
  | _ => none

/-- The resolved indirect branches (cases BX, BLX after a PC-relative LDR into
the same register): the target, the label it is entered with, and whether the
linear path stops. -/
def indirectCall (env : Env) (insn : cs_insn) (ldr_reg : arm_reg) (ldr_data : Nat) :
    Option (Nat × Label × Bool) :=
  match insn.id with
  | .BX =>
    if usesLoad insn ldr_reg then
      some (ldr_data - ldr_data % 2, ⟨.JUMP, "jump_" ++ env.HEX (ldr_data - ldr_data % 2)⟩, true)
    else none
  | .BLX =>
    if usesLoad insn ldr_reg then
      some (sub64 ldr_data 1, ⟨.CALL, "call_" ++ env.HEX (sub64 ldr_data 1)⟩, false)
    else none
  | _ => none

/-- The instructions that only insert their own record: whether the linear
path stops after them. -/
def plainStep (insn : cs_insn) (ldr_reg : arm_reg) : Option Bool :=
  match insn.id with
  | .BX => if usesLoad insn ldr_reg then none else some true
  | .POP => some (popsPc insn)
  | .BLX => if usesLoad insn ldr_reg then none else some false
  | .TBB => if pcTable insn then none else some true
  | .LDR => if pcLoad insn then none else some false
  | .OTHER => some false
  | _ => none

/-- The literal address `laddr` of a PC-relative LDR at `offset` (line 260). -/
def literalAddr (env : Env) (insn : cs_insn) (offset : Nat) : Nat :=
  add64 (thumbPc env offset) (ofInt64 (insn.op 1).mem_disp)

/-- The runs of the follower that return, as a relation between the database
before and after: one rule for each path through `disassembleAddress`. -/
inductive Runs (env : Env) : Task → RefDB → RefDB → Prop where
  | relabel (a : Nat) (l : Label) (refs : RefDB) :
      refs.contains (sub64 a env.base) = true →
      l.type.ord ≤ (refs.index env.dflt (sub64 a env.base)).ltype.ord →
      Runs env (.enter a l) refs (refs.modify env.dflt (sub64 a env.base) (setLabel l))
  | keep (a : Nat) (l : Label) (refs : RefDB) :
      refs.contains (sub64 a env.base) = true →
      ¬ l.type.ord ≤ (refs.index env.dflt (sub64 a env.base)).ltype.ord →
      Runs env (.enter a l) refs refs
  | reject (a : Nat) (l : Label) (refs : RefDB) :
      refs.contains (sub64 a env.base) = false →
      (env.base > a ∨ env.image.length ≤ sub64 a env.base) →
      Runs env (.enter a l) refs refs
  | start (a : Nat) (l : Label) (refs refs' : RefDB) :
      refs.contains (sub64 a env.base) = false →
      env.base ≤ a → sub64 a env.base < env.image.length →
      Runs env (.loop a l (sub64 a env.base) 0 .INVALID 0 0) refs refs' →
      Runs env (.enter a l) refs refs'
  | undecoded (a : Nat) (l : Label) (offset total : Nat) (reg : arm_reg) (la ld : Nat)
      (refs : RefDB) :
      decodeAt env offset = none →
      Runs env (.loop a l offset total reg la ld) refs refs
  | merged (a : Nat) (l : Label) (offset total : Nat) (reg : arm_reg) (la ld : Nat)
      (refs : RefDB) (insn : cs_insn) :
      decodeAt env offset = some insn → refs.contains offset = true →
      Runs env (.loop a l offset total reg la ld) refs refs
  | plainStop (a : Nat) (l : Label) (offset total : Nat) (reg : arm_reg) (la ld : Nat)
      (refs : RefDB) (insn : cs_insn) :
      decodeAt env offset = some insn → refs.contains offset = false →
      plainStep insn reg = some true →
      Runs env (.loop a l offset total reg la ld) refs
        (refs.add offset (newInstr env insn a l offset))
  | plainNext (a : Nat) (l : Label) (offset total total' : Nat) (reg : arm_reg) (la ld : Nat)
      (refs refs' : RefDB) (insn : cs_insn) :
      decodeAt env offset = some insn → refs.contains offset = false →
      plainStep insn reg = some false →
      Runs env (.loop a l (offset + insn.size) total' .INVALID la ld)
        (refs.add offset (newInstr env insn a l offset)) refs' →
      Runs env (.loop a l offset total reg la ld) refs refs'
  | callStop (a : Nat) (l : Label) (offset total : Nat) (reg : arm_reg) (la ld : Nat)
      (refs refs3 : RefDB) (insn : cs_insn) (t : Nat) (lab : Label) (str : String) :
      decodeAt env offset = some insn → refs.contains offset = false →
      directCall env insn = some (t, lab, str, true) →
      Runs env (.enter t lab)
        ((refs.add offset (newInstr env insn a l offset)).modify env.dflt offset
          (setTarget t str)) refs3 →
      Runs env (.loop a l offset total reg la ld) refs refs3
  | callNext (a : Nat) (l : Label) (offset total total' : Nat) (reg : arm_reg) (la ld : Nat)
      (refs refs3 refs' : RefDB) (insn : cs_insn) (t : Nat) (lab : Label) (str : String) :
      decodeAt env offset = some insn → refs.contains offset = false →
      directCall env insn = some (t, lab, str, false) →
      Runs env (.enter t lab)
        ((refs.add offset (newInstr env insn a l offset)).modify env.dflt offset
          (setTarget t str)) refs3 →
      Runs env (.loop a l (offset + insn.size) total' .INVALID la ld) refs3 refs' →
      Runs env (.loop a l offset total reg la ld) refs refs'
  | indirectStop (a : Nat) (l : Label) (offset total : Nat) (reg : arm_reg) (la ld : Nat)
      (refs refs4 : RefDB) (insn : cs_insn) (t : Nat) (lab : Label) :
      decodeAt env offset = some insn → refs.contains offset = false →
      indirectCall env insn reg ld = some (t, lab, true) →
      Runs env (.enter t lab)
        (((refs.add offset (newInstr env insn a l offset)).modify env.dflt offset
          (setComment t)).modify env.dflt la (setWord t)) refs4 →
      Runs env (.loop a l offset total reg la ld) refs
        (refs4.modify env.dflt (sub64 env.base t) setThumb)
  | indirectNext (a : Nat) (l : Label) (offset total total' : Nat) (reg : arm_reg)
      (la ld : Nat) (refs refs4 refs' : RefDB) (insn : cs_insn) (t : Nat) (lab : Label) :
      decodeAt env offset = some insn → refs.contains offset = false →
      indirectCall env insn reg ld = some (t, lab, false) →
      Runs env (.enter t lab)
        (((refs.add offset (newInstr env insn a l offset)).modify env.dflt offset
          (setComment t)).modify env.dflt la (setWord t)) refs4 →
      Runs env (.loop a l (offset + insn.size) total' .INVALID la ld)
        (refs4.modify env.dflt (sub64 env.base t) setThumb) refs' →
      Runs env (.loop a l offset total reg la ld) refs refs'
  | load (a : Nat) (l : Label) (offset total total' : Nat) (reg : arm_reg) (la ld : Nat)
      (refs refs' : RefDB) (insn : cs_insn) :
      decodeAt env offset = some insn → refs.contains offset = false →
      insn.id = .LDR → pcLoad insn →
      Runs env
        (.loop a l (offset + insn.size) total' (insn.op 0).reg
          (sub64 (literalAddr env insn offset) env.base)
          (env.readleu32 (sub64 (literalAddr env insn offset) env.base)))
        (((refs.add offset (newInstr env insn a l offset)).modify env.dflt offset
          (setComment (literalAddr env insn offset))).add
          (sub64 (literalAddr env insn offset) env.base)
          (newData env (literalAddr env insn offset)
            (env.readleu32 (sub64 (literalAddr env insn offset) env.base)))) refs' →
      Runs env (.loop a l offset total reg la ld) refs refs'
  | scan (a : Nat) (l : Label) (offset total : Nat) (reg : arm_reg) (la ld : Nat)
      (refs refs' : RefDB) (insn : cs_insn) :
      decodeAt env offset = some insn → refs.contains offset = false →
      insn.id = .TBB → pcTable insn →
      Runs env (.table offset insn.size 0 (2 ^ 64 - 1) total)
        (refs.add offset (newInstr env insn a l offset)) refs' →
      Runs env (.loop a l offset total reg la ld) refs refs'
  | tableEnd (offset size i min total : Nat) (refs : RefDB) :
      ¬ (tableAddr env offset size i < min ∧
        tableTarget env offset size i > tableAddr env offset size i) →
      Runs env (.table offset size i min total) refs refs
  | tableCase (offset size i min total total' : Nat) (refs refs1 refs' : RefDB) :
      tableAddr env offset size i < min →
      tableTarget env offset size i > tableAddr env offset size i →
      Runs env
        (.enter (tableTarget env offset size i)
          ⟨.SWITCH, "switch_" ++ env.HEX (tableTarget env offset size i)⟩) refs refs1 →
      Runs env (.table offset size (i + 1) (tableTarget env offset size i) total') refs1 refs' →
      Runs env (.table offset size i min total) refs refs'

/-! ## Instruction grids -/

/-- The addresses the follower may call from the instruction `insn` at offset
`o`: the operand of B, BL, CBZ and CBNZ, and the case targets of a TBB
table. -/
def BranchTarget (env : Env) (o : Nat) (insn : cs_insn) (a : Nat) : Prop :=
  ((insn.id = .B ∨ insn.id = .BL) ∧ a = ofInt64 (insn.op 0).imm) ∨
  ((insn.id = .CBZ ∨ insn.id = .CBNZ) ∧ a = ofInt64 (insn.op 1).imm) ∨
  (insn.id = .TBB ∧ ∃ i, a = tableTarget env o insn.size i)

/-- The fields of a record other than `ltype` and `label` agree. -/
def sameFrozen (e e' : RefElem) : Prop :=
  e.type = e'.type ∧ e.size = e'.size ∧ e.ftype = e'.ftype ∧ e.str = e'.str ∧
    e.suffix = e'.suffix ∧ e.target = e'.target ∧ e.flags = e'.flags

/-- Two RefDBs have the same keys and agree, at every key, on every field
except possibly the label string. -/
def AgreeModLabels (refs1 refs2 : RefDB) : Prop :=
  ∀ o, (refs1 o).isSome = (refs2 o).isSome ∧
    ∀ e1 e2, refs1 o = some e1 → refs2 o = some e2 → sameFrozen e1 e2 ∧ e1.ltype = e2.ltype

/-- The setting of the order-independence argument: the decoder never yields
a PC-relative LDR, it decodes nothing past the last byte of the image, and
the image lies inside the 64-bit address space. -/
structure LoadFree (env : Env) : Prop where
  noLoad : ∀ o insn, decodeAt env o = some insn → insn.id = .LDR → ¬ pcLoad insn
  inImage : ∀ o insn, decodeAt env o = some insn → o < env.image.length
  small : env.base + env.image.length ≤ 2 ^ 64

/-- The linear path goes on after `insn` (when no load is being tracked). -/
def continues (env : Env) (insn : cs_insn) : Prop :=
  plainStep insn .INVALID = some false ∨ ∃ t lab str, directCall env insn = some (t, lab, str, false)

/-- The case targets the TBB scan at `offset` enters from index `i` on with the
bound `min`. -/
inductive TableCall (env : Env) (offset size : Nat) : Nat → Nat → Nat → Prop where
  | here (i min : Nat) :
      tableAddr env offset size i < min →
      tableTarget env offset size i > tableAddr env offset size i →
      TableCall env offset size i min (tableTarget env offset size i)
  | later (i min t : Nat) :
      tableAddr env offset size i < min →
      tableTarget env offset size i > tableAddr env offset size i →
      TableCall env offset size (i + 1) (tableTarget env offset size i) t →
      TableCall env offset size i min t

/-- A call `disassembleAddress(t, ..)` gets past the range tests and decodes
an instruction. -/
def Starts (env : Env) (t : Nat) : Prop :=
  env.base ≤ t ∧ sub64 t env.base < env.image.length ∧
    (decodeAt env (sub64 t env.base)).isSome = true

/-- The call the instruction `insn` at offset `o` makes: target and kind. -/
def callOf (env : Env) (o : Nat) (insn : cs_insn) (t : Nat) (K : labeltype) : Prop :=
  (∃ lab str stop, directCall env insn = some (t, lab, str, stop) ∧ lab.type = K) ∨
  (insn.id = .TBB ∧ pcTable insn ∧ TableCall env o insn.size 0 (2 ^ 64 - 1) t ∧ K = .SWITCH)

/-- The offsets reachable from the entry addresses `E`: the closure of the
entries under linear continuation and under the calls instructions make. -/
inductive Reach (env : Env) (E : Nat → Prop) : Nat → Prop where
  | entry (a : Nat) : E a → Starts env a → Reach env E (sub64 a env.base)
  | flow (o : Nat) (insn : cs_insn) : Reach env E o → decodeAt env o = some insn →
      continues env insn → (decodeAt env (o + insn.size)).isSome = true →
      Reach env E (o + insn.size)
  | call (o : Nat) (insn : cs_insn) (t : Nat) (K : labeltype) : Reach env E o →
      decodeAt env o = some insn → callOf env o insn t K → Starts env t →
      Reach env E (sub64 t env.base)

/-- A call with target `t` and kind `K` that some run from the entries `E`
makes: an entry itself, or the call of a reachable instruction. -/
def MadeCall (env : Env) (E : Nat → Prop) (t : Nat) (K : labeltype) : Prop :=
  (E t ∧ K = .NAMED) ∨
  ∃ o insn, Reach env E o ∧ decodeAt env o = some insn ∧ callOf env o insn t K

/-- The record the follower stores for `insn`, label fields aside. -/
def staticElem (env : Env) (insn : cs_insn) : RefElem :=
  match directCall env insn with
  | some (t, _, str, _) =>
    { env.dflt with type := .CODE, size := insn.size, ftype := .F_TARGET, str := str, target := t }
  | none =>
    { env.dflt with
      type := .CODE, size := insn.size, ftype := .F_STRING
      str := insn.mnemonic ++ " " ++ insn.op_str }

/-- Every record of `refs` is at a reachable offset, is the record of the
instruction decoded there, and carries `LNONE` or the kind of a call made to
its offset. -/
def Sound (env : Env) (E : Nat → Prop) (refs : RefDB) : Prop :=
  ∀ o e, refs o = some e →
    Reach env E o ∧
    (∃ insn, decodeAt env o = some insn ∧ sameFrozen e (staticElem env insn)) ∧
    (e.ltype = .LNONE ∨ ∃ t, MadeCall env E t e.ltype ∧ sub64 t env.base = o)

/-- The call `(t, K)` has been served in `refs`: if the call can start, its
offset is a key whose record has a kind of priority `K` or higher. -/
def Served (env : Env) (refs : RefDB) (t : Nat) (K : labeltype) : Prop :=
  Starts env t → ∃ e, refs (sub64 t env.base) = some e ∧ e.ltype.ord ≤ K.ord

/-- The successors of the instruction at `o` are in `refs`. -/
def ClosedAt (env : Env) (refs : RefDB) (o : Nat) : Prop :=
  ∀ insn, decodeAt env o = some insn →
    (continues env insn → (decodeAt env (o + insn.size)).isSome = true →
      refs.contains (o + insn.size) = true) ∧
    ∀ t K, callOf env o insn t K → Served env refs t K

/-- The database `refs'` extends `refs`: every record is still there, with the
same fields except for a label kind of the same or higher priority. -/
def Ext (refs refs' : RefDB) : Prop :=
  ∀ o e, refs o = some e →
    ∃ e', refs' o = some e' ∧ e'.ltype.ord ≤ e.ltype.ord ∧ sameFrozen e e'

/-- The keys that `refs'` has and `refs` has not have their successors in
`refs'`. -/
def NewClosed (env : Env) (refs refs' : RefDB) : Prop :=
  ∀ o, refs o = none → refs'.contains o = true → ClosedAt env refs' o

/-- The tasks of a run in which no load is tracked and the start address is a
64-bit value. -/
def TaskFit : Task → Prop
  | .enter start_addr _ => start_addr < 2 ^ 64
  | .loop start_addr _ _ _ ldr_reg _ _ => ldr_reg = .INVALID ∧ start_addr < 2 ^ 64
  | .table _ _ _ _ _ => True

/-- What a task has served when it returns. -/
def TaskServed (env : Env) : Task → RefDB → RefDB → Prop
  | .enter t l, _, refs' => Served env refs' t l.type
  | .loop a l offset _ _ _ _, refs, refs' =>
    ((decodeAt env offset).isSome = true → refs'.contains offset = true) ∧
    (refs.contains offset = false → add64 env.base offset = a →
      ∀ e, refs' offset = some e → e.ltype.ord ≤ l.type.ord)
  | .table offset size i min _, _, refs' =>
    ∀ t, TableCall env offset size i min t → Served env refs' t .SWITCH

/-- What justifies a task in a run from the entries `E`. -/
def TaskJust (env : Env) (E : Nat → Prop) : Task → Prop
  | .enter t l => MadeCall env E t l.type
  | .loop a l offset _ _ _ _ =>
    MadeCall env E a l.type ∧ ((decodeAt env offset).isSome = true → Reach env E offset)
  | .table offset size i min _ =>
    Reach env E offset ∧ ∃ insn, decodeAt env offset = some insn ∧ insn.id = .TBB ∧
      pcTable insn ∧ insn.size = size ∧
      ∀ t, TableCall env offset size i min t → TableCall env offset size 0 (2 ^ 64 - 1) t

/-- The entries `E` have been served in `refs` and every key of `refs` has its
successors in `refs`. -/
def Closed (env : Env) (E : Nat → Prop) (refs : RefDB) : Prop :=
  (∀ a, E a → Served env refs a .NAMED) ∧ ∀ o, refs.contains o = true → ClosedAt env refs o

/-! ## Concrete scenarios -/

/-- A database with one `CODE` record at offset 4 that a linear run left
unlabelled. -/
def mergeRefs : RefDB :=
  RefDB.empty.add 4 { blankElem with size := 2, str := "nop " }

/-- Image at `0x1000`: `ldr r0, [pc, #0]` (literal at `0x1004`), `nop`,
`b 0x1000` at `0x1004`, `nop`. -/
def clobberImage : List Nat := [0x00, 0x48, 0x00, 0xBF, 0xFC, 0xE7, 0x00, 0xBF]

/-- Image at `0x1000`: `ldr r0, [pc, #0]`, then `bx lr`; the literal address
`0x1004` of the load is where the image ends. -/
def shortImage : List Nat := [0x00, 0x48, 0x70, 0x47]

/-- Image at `0x1000`: `ldr.w lr, [r0, #0x100]` (four bytes, whose second
halfword `0xE100` is the encoding of `b 0x1206`), then `b 0x1002`, a branch
into the middle of the first instruction. -/
def overlapImage : List Nat := [0xD0, 0xF8, 0x00, 0xE1, 0xFD, 0xE7]

/-- Image at `0x1000`: `b 0x1010`, fourteen bytes that no path reaches, and
`bx lr` at `0x1010`. -/
def jumpImage : List Nat := [0x06, 0xE0, 0, 0, 0, 0, 0, 0, 0, 0, 0, 0, 0, 0, 0, 0, 0x70, 0x47]

/-- The RefDB after `addEntry(0x1000, "main")` on `jumpImage`. -/
def jumpRefs : RefDB :=
  ((addEntry (thumbEnv 0x1000 jumpImage) 9 RefDB.empty 0x1000 "main").refs?).getD RefDB.empty

/-- Image at `0x1000`: `push {r7, lr}`, `movs r0, #0`, `pop {r7, pc}`, the
bytes `B580 2000 BD80`. -/
def straightImage : List Nat := [0x80, 0xB5, 0x00, 0x20, 0x80, 0xBD]

/-- Three two-byte `CODE` records at offsets 0, 2 and 4, the first labelled
`main`. -/
def straightRefs : RefDB :=
  ((RefDB.empty.add 0
      { blankElem with size := 2, ltype := .NAMED, label := "main", str := "push {r7, lr}" }).add 2
      { blankElem with size := 2, str := "movs r0, #0" }).add 4
      { blankElem with size := 2, str := "pop {r7, pc}" }

/-- Image at `0x1000`: `b 0x1004`, `nop`, `bx lr`. -/
def skipImage : List Nat := [0x00, 0xE0, 0x00, 0xBF, 0x70, 0x47]

/-- Image at `0x1000`: `ldr r0, [pc, #0]` (literal at `0x1004`), `bx lr`, and at
`0x1004` the instructions `nop`, `bx lr`. -/
def raiseImage : List Nat := [0x00, 0x48, 0x70, 0x47, 0x00, 0xBF, 0x70, 0x47]

/-- Image at `0x1000`: `ldr r3, [pc, #0]`, `bx r3`, the literal `0x00001009` at
`0x1004`, and `bx lr` at `0x1008`. -/
def ldrBxImage : List Nat := [0x00, 0x4B, 0x18, 0x47, 0x09, 0x10, 0x00, 0x00, 0x70, 0x47]

/-! ## Records that stay as they are -/

/-- The fields `type`, `size`, `ftype`, `str`, `suffix` and `target` agree. -/
def sameText (e e' : RefElem) : Prop :=
  e.type = e'.type ∧ e.size = e'.size ∧ e.ftype = e'.ftype ∧ e.str = e'.str ∧
    e.suffix = e'.suffix ∧ e.target = e'.target

/-- The offset `o` is the literal offset of a PC-relative LDR whose own offset
is a key of `S'` and no key of `S`. -/
def NewLiteral (env : Env) (S S' : RefDB) (o : Nat) : Prop :=
  ∃ offset insn, S offset = none ∧ S'.contains offset = true ∧
    decodeAt env offset = some insn ∧ insn.id = .LDR ∧ pcLoad insn ∧
    o = sub64 (literalAddr env insn offset) env.base

/-- From `refs` to `refs'` every key stays a key, and its record keeps the
fields of `sameText` and gains at most the flag `THUMBFUNC`, unless the key is
the literal offset of a PC-relative LDR recorded since `S`. -/
def Frozen (env : Env) (S refs refs' : RefDB) : Prop :=
  ∀ o e, refs o = some e → ∃ e', refs' o = some e' ∧
    (NewLiteral env S refs' o ∨
      (sameText e e' ∧ (e'.flags = e.flags ∨ e'.flags = e.flags ||| THUMBFUNC)))

/-- The load a decode loop tracks, if any, is one recorded since `S`. -/
def TaskTracks (env : Env) (S refs : RefDB) : Task → Prop
  | .loop _ _ _ _ ldr_reg ldr_addr _ => ldr_reg = .INVALID ∨ NewLiteral env S refs ldr_addr
  | _ => True

/-- Image at `0x1000`: `ldr r3, [pc, #4]` and `bx lr`, then `ldr r3, [pc, #0]`
and `bx r3` at `0x1004`; both loads read the literal `0x0000100D` at `0x1008`,
and `bx lr` stands at `0x100C`. -/
def sharedImage : List Nat :=
  [0x01, 0x4B, 0x70, 0x47, 0x00, 0x4B, 0x18, 0x47, 0x0D, 0x10, 0x00, 0x00, 0x70, 0x47]

/-! ## The end of the listing -/

/-- The text ends with a blank line: its last two characters are newlines. -/
def endsWithBlankLine (s : String) : Prop :=
  s.data.reverse.take 2 = "\n\n".data

instance (s : String) : Decidable (endsWithBlankLine s) := by
  unfold endsWithBlankLine
  infer_instance

/-- The last line the emitter writes for the unit at offset `o`: the indented
text of the record there, or the `.byte` line of the uncovered byte. -/
def lastLine (env : Env) (refs : RefDB) (o : Nat) : String :=
  match refs o with
  | some r => "    " ++ specText env refs r ++ "\n"
  | none => ".byte 0x" ++ env.HEX (env.byte o) ++ "\n"

/-- The number of bytes the unit at offset `o` covers. -/
def unitSize (refs : RefDB) (o : Nat) : Nat :=
  match refs o with
  | some r => r.size
  | none => 1

/-! ## Scenarios with indirect branches, shared literals and tables -/

/-- Image at `0x1000`, 4098 bytes: `ldr r3, [pc, #0]`, `bx r3`, the literal
`0x00002001` at `0x1004`, zero bytes up to `0x2000`, and `bx lr` at `0x2000`. -/
def farImage : List Nat :=
  [0x00, 0x4B, 0x18, 0x47, 0x01, 0x20, 0x00, 0x00] ++ List.replicate 4088 0 ++ [0x70, 0x47]

/-- Image at `0x1000`: `ldr r0, [pc, #4]` and `ldr r1, [pc, #4]`, which both
read the literal at `0x1008`, then `bx lr`, `nop` and the literal. -/
def twoLoadsImage : List Nat :=
  [0x01, 0x48, 0x01, 0x49, 0x70, 0x47, 0x00, 0xBF, 0x78, 0x56, 0x34, 0x12]

/-- Image at `0x1000`: `tbb [pc, r0]` with the table `02 03 05 04` at `0x1004`,
whose case targets are `0x1008`, `0x100A`, `0x100E` and `0x100C`; `movs r0, #7`
at `0x1008`, `bx lr` at `0x100A`, `0x100C` and `0x100E`, and after the handlers
`nop` at `0x1010` and `bx lr` at `0x1012`. -/
def tableImage : List Nat :=
  [0xDF, 0xE8, 0x00, 0xF0, 0x02, 0x03, 0x05, 0x04, 0x07, 0x20, 0x70, 0x47, 0x70, 0x47, 0x70, 0x47,
   0x00, 0xBF, 0x70, 0x47]

/-- Image at `0x1000`: `tbb [pc, r0]` and nothing after it. -/
def lastTableImage : List Nat := [0xDF, 0xE8, 0x00, 0xF0]

/-- The RefDB after `addEntry(0x1004, "f")` on `raiseImage`. -/
def raiseRefs : RefDB :=
  ((addEntry (thumbEnv 0x1000 raiseImage) 9 RefDB.empty 0x1004 "f").refs?).getD RefDB.empty

/-- The literal offset `ldr_addr` of a PC-relative LDR at `offset` (line 264). -/
def loadKey (env : Env) (insn : cs_insn) (offset : Nat) : Nat :=
  sub64 (literalAddr env insn offset) env.base

/-- The database on which the LDR case calls `refs.add(ldr_addr, data)` at line
286: `refs` with the record of the LDR itself inserted at `offset`. -/
def loadState (env : Env) (refs : RefDB) (a : Nat) (l : Label) (offset : Nat)
    (insn : cs_insn) : RefDB :=
  (refs.add offset (newInstr env insn a l offset)).modify env.dflt offset
    (setComment (literalAddr env insn offset))

/-- The indices `offset + insn->size + i` at which the `for` loop of lines
228-245 reads the image, from index `i` on with the bound `min`. The variables
of the loop do not depend on the RefDB. -/
def scanReads (env : Env) (offset size : Nat) : Nat → Nat → Nat → List Nat
  | 0, _, _ => []
  | fuel + 1, i, min =>
    if tableAddr env offset size i < min then
      (offset + size + i) ::
        (if tableTarget env offset size i > tableAddr env offset size i then
          scanReads env offset size fuel (i + 1) (tableTarget env offset size i)
        else [])
    else []

/-! ## The iterations of the decode loop -/

/-- The start of one iteration of the `while(true)` loop of a call
`disassembleAddress(start_addr, ..)`: the offset and the tracker variables
`ldr_reg`, `ldr_addr`, `ldr_data` as the iteration finds them, and in `prev`
the offset and the instruction of the iteration before it in the same call
(`none` for the first iteration of the call). -/
structure Iteration where
  start_addr : Nat
  prev : Option (Nat × cs_insn)
  offset : Nat
  ldr_reg : arm_reg
  ldr_addr : Nat
  ldr_data : Nat

/-- The relation `Runs` with a log: `RunsLog env prev task refs refs' log` is a
run of `task` from `refs` to `refs'` in which the iterations of the decode
loops start, in this order, in the states of `log`, calls made on the way
included. For a decode loop, `prev` is the iteration before the one the task
starts with. -/
inductive RunsLog (env : Env) :
    Option (Nat × cs_insn) → Task → RefDB → RefDB → List Iteration → Prop where
  | relabel (prev : Option (Nat × cs_insn)) (a : Nat) (l : Label) (refs : RefDB) :
      refs.contains (sub64 a env.base) = true →
      l.type.ord ≤ (refs.index env.dflt (sub64 a env.base)).ltype.ord →
      RunsLog env prev (.enter a l) refs (refs.modify env.dflt (sub64 a env.base) (setLabel l)) []
  | keep (prev : Option (Nat × cs_insn)) (a : Nat) (l : Label) (refs : RefDB) :
      refs.contains (sub64 a env.base) = true →
      ¬ l.type.ord ≤ (refs.index env.dflt (sub64 a env.base)).ltype.ord →
      RunsLog env prev (.enter a l) refs refs []
  | reject (prev : Option (Nat × cs_insn)) (a : Nat) (l : Label) (refs : RefDB) :
      refs.contains (sub64 a env.base) = false →
      (env.base > a ∨ env.image.length ≤ sub64 a env.base) →
      RunsLog env prev (.enter a l) refs refs []
  | start (prev : Option (Nat × cs_insn)) (a : Nat) (l : Label) (refs refs' : RefDB)
      (log : List Iteration) :
      refs.contains (sub64 a env.base) = false →
      env.base ≤ a → sub64 a env.base < env.image.length →
      RunsLog env none (.loop a l (sub64 a env.base) 0 .INVALID 0 0) refs refs' log →
      RunsLog env prev (.enter a l) refs refs' log
  | undecoded (prev : Option (Nat × cs_insn)) (a : Nat) (l : Label) (offset total : Nat)
      (reg : arm_reg) (la ld : Nat) (refs : RefDB) :
      decodeAt env offset = none →
      RunsLog env prev (.loop a l offset total reg la ld) refs refs
        [⟨a, prev, offset, reg, la, ld⟩]
  | merged (prev : Option (Nat × cs_insn)) (a : Nat) (l : Label) (offset total : Nat)
      (reg : arm_reg) (la ld : Nat) (refs : RefDB) (insn : cs_insn) :
      decodeAt env offset = some insn → refs.contains offset = true →
      RunsLog env prev (.loop a l offset total reg la ld) refs refs
        [⟨a, prev, offset, reg, la, ld⟩]
  | plainStop (prev : Option (Nat × cs_insn)) (a : Nat) (l : Label) (offset total : Nat)
      (reg : arm_reg) (la ld : Nat) (refs : RefDB) (insn : cs_insn) :
      decodeAt env offset = some insn → refs.contains offset = false →
      plainStep insn reg = some true →
      RunsLog env prev (.loop a l offset total reg la ld) refs
        (refs.add offset (newInstr env insn a l offset)) [⟨a, prev, offset, reg, la, ld⟩]
  | plainNext (prev : Option (Nat × cs_insn)) (a : Nat) (l : Label)
      (offset total total' : Nat) (reg : arm_reg) (la ld : Nat) (refs refs' : RefDB)
      (insn : cs_insn) (log : List Iteration) :
      decodeAt env offset = some insn → refs.contains offset = false →
      plainStep insn reg = some false →
      RunsLog env (some (offset, insn)) (.loop a l (offset + insn.size) total' .INVALID la ld)
        (refs.add offset (newInstr env insn a l offset)) refs' log →
      RunsLog env prev (.loop a l offset total reg la ld) refs refs'
        (⟨a, prev, offset, reg, la, ld⟩ :: log)
  | callStop (prev : Option (Nat × cs_insn)) (a : Nat) (l : Label) (offset total : Nat)
      (reg : arm_reg) (la ld : Nat) (refs refs3 : RefDB) (insn : cs_insn) (t : Nat)
      (lab : Label) (str : String) (log : List Iteration) :
      decodeAt env offset = some insn → refs.contains offset = false →
      directCall env insn = some (t, lab, str, true) →
      RunsLog env none (.enter t lab)
        ((refs.add offset (newInstr env insn a l offset)).modify env.dflt offset
          (setTarget t str)) refs3 log →
      RunsLog env prev (.loop a l offset total reg la ld) refs refs3
        (⟨a, prev, offset, reg, la, ld⟩ :: log)
  | callNext (prev : Option (Nat × cs_insn)) (a : Nat) (l : Label)
      (offset total total' : Nat) (reg : arm_reg) (la ld : Nat) (refs refs3 refs' : RefDB)
      (insn : cs_insn) (t : Nat) (lab : Label) (str : String) (log1 log2 : List Iteration) :
      decodeAt env offset = some insn → refs.contains offset = false →
      directCall env insn = some (t, lab, str, false) →
      RunsLog env none (.enter t lab)
        ((refs.add offset (newInstr env insn a l offset)).modify env.dflt offset
          (setTarget t str)) refs3 log1 →
      RunsLog env (some (offset, insn)) (.loop a l (offset + insn.size) total' .INVALID la ld)
        refs3 refs' log2 →
      RunsLog env prev (.loop a l offset total reg la ld) refs refs'
        (⟨a, prev, offset, reg, la, ld⟩ :: (log1 ++ log2))
  | indirectStop (prev : Option (Nat × cs_insn)) (a : Nat) (l : Label) (offset total : Nat)
      (reg : arm_reg) (la ld : Nat) (refs refs4 : RefDB) (insn : cs_insn) (t : Nat)
      (lab : Label) (log : List Iteration) :
      decodeAt env offset = some insn → refs.contains offset = false →
      indirectCall env insn reg ld = some (t, lab, true) →
      RunsLog env none (.enter t lab)
        (((refs.add offset (newInstr env insn a l offset)).modify env.dflt offset
          (setComment t)).modify env.dflt la (setWord t)) refs4 log →
      RunsLog env prev (.loop a l offset total reg la ld) refs
        (refs4.modify env.dflt (sub64 env.base t) setThumb)
        (⟨a, prev, offset, reg, la, ld⟩ :: log)
  | indirectNext (prev : Option (Nat × cs_insn)) (a : Nat) (l : Label)
      (offset total total' : Nat) (reg : arm_reg) (la ld : Nat) (refs refs4 refs' : RefDB)
      (insn : cs_insn) (t : Nat) (lab : Label) (log1 log2 : List Iteration) :
      decodeAt env offset = some insn → refs.contains offset = false →
      indirectCall env insn reg ld = some (t, lab, false) →
      RunsLog env none (.enter t lab)
        (((refs.add offset (newInstr env insn a l offset)).modify env.dflt offset
          (setComment t)).modify env.dflt la (setWord t)) refs4 log1 →
      RunsLog env (some (offset, insn)) (.loop a l (offset + insn.size) total' .INVALID la ld)
        (refs4.modify env.dflt (sub64 env.base t) setThumb) refs' log2 →
      RunsLog env prev (.loop a l offset total reg la ld) refs refs'
        (⟨a, prev, offset, reg, la, ld⟩ :: (log1 ++ log2))
  | load (prev : Option (Nat × cs_insn)) (a : Nat) (l : Label) (offset total total' : Nat)
      (reg : arm_reg) (la ld : Nat) (refs refs' : RefDB) (insn : cs_insn)
      (log : List Iteration) :
      decodeAt env offset = some insn → refs.contains offset = false →
      insn.id = .LDR → pcLoad insn →
      RunsLog env (some (offset, insn))
        (.loop a l (offset + insn.size) total' (insn.op 0).reg
          (sub64 (literalAddr env insn offset) env.base)
          (env.readleu32 (sub64 (literalAddr env insn offset) env.base)))
        (((refs.add offset (newInstr env insn a l offset)).modify env.dflt offset
          (setComment (literalAddr env insn offset))).add
          (sub64 (literalAddr env insn offset) env.base)
          (newData env (literalAddr env insn offset)
            (env.readleu32 (sub64 (literalAddr env insn offset) env.base)))) refs' log →
      RunsLog env prev (.loop a l offset total reg la ld) refs refs'
        (⟨a, prev, offset, reg, la, ld⟩ :: log)
  | scan (prev : Option (Nat × cs_insn)) (a : Nat) (l : Label) (offset total : Nat)
      (reg : arm_reg) (la ld : Nat) (refs refs' : RefDB) (insn : cs_insn)
      (log : List Iteration) :
      decodeAt env offset = some insn → refs.contains offset = false →
      insn.id = .TBB → pcTable insn →
      RunsLog env none (.table offset insn.size 0 (2 ^ 64 - 1) total)
        (refs.add offset (newInstr env insn a l offset)) refs' log →
      RunsLog env prev (.loop a l offset total reg la ld) refs refs'
        (⟨a, prev, offset, reg, la, ld⟩ :: log)
  | tableEnd (prev : Option (Nat × cs_insn)) (offset size i min total : Nat) (refs : RefDB) :
      ¬ (tableAddr env offset size i < min ∧
        tableTarget env offset size i > tableAddr env offset size i) →
      RunsLog env prev (.table offset size i min total) refs refs []
  | tableCase (prev : Option (Nat × cs_insn)) (offset size i min total total' : Nat)
      (refs refs1 refs' : RefDB) (log1 log2 : List Iteration) :
      tableAddr env offset size i < min →
      tableTarget env offset size i > tableAddr env offset size i →
      RunsLog env none
        (.enter (tableTarget env offset size i)
          ⟨.SWITCH, "switch_" ++ env.HEX (tableTarget env offset size i)⟩) refs refs1 log1 →
      RunsLog env none (.table offset size (i + 1) (tableTarget env offset size i) total')
        refs1 refs' log2 →
      RunsLog env prev (.table offset size i min total) refs refs' (log1 ++ log2)

/-- The tracker invariant at the start of an iteration: `prev` is the
instruction decoded just before `offset`; `ldr_reg` is set exactly when that
instruction is a PC-relative LDR; and then the tracker holds that LDR's
destination register, literal offset and literal word. -/
def Tracked (env : Env) (it : Iteration) : Prop :=
  (∀ o insn, it.prev = some (o, insn) →
    decodeAt env o = some insn ∧ it.offset = o + insn.size) ∧
  (it.ldr_reg ≠ .INVALID ↔
    ∃ o insn, it.prev = some (o, insn) ∧ insn.id = .LDR ∧ pcLoad insn) ∧
  (∀ o insn, it.prev = some (o, insn) → insn.id = .LDR → pcLoad insn →
    it.ldr_reg = (insn.op 0).reg ∧
    it.ldr_addr = sub64 (add64 (thumbPc env o) (ofInt64 (insn.op 1).mem_disp)) env.base ∧
    it.ldr_data = env.readleu32 it.ldr_addr)

/-- The iteration a decode-loop task starts with. -/
def Task.iteration (prev : Option (Nat × cs_insn)) : Task → Option Iteration
  | .loop start_addr _ offset _ ldr_reg ldr_addr ldr_data =>
    some ⟨start_addr, prev, offset, ldr_reg, ldr_addr, ldr_data⟩
  | _ => none

/-! ## Termination of the follower -/

/-- What follows a call that returned: `k` of its database and count; a failed
`zassert` and the end of the fuel are passed on. -/
def Outcome.andThen (o : Outcome) (k : RefDB → Nat → Outcome) : Outcome :=
  match o with
  | .done refs n => k refs n
  | .aborted => .aborted
  | .nofuel => .nofuel

/-- The number of offsets inside the image that are no key of `refs`. -/
def free (env : Env) (refs : RefDB) : Nat :=
  ((List.range env.image.length).filter fun o => !refs.contains o).length

/-- The run of `task` from `refs` ends, by a return or by a failed `zassert`,
when the fuel is large enough. -/
def Halts (env : Env) (task : Task) (refs : RefDB) : Prop :=
  ∃ fuel, run env fuel task refs ≠ .nofuel

/-! ## Resolution of targets -/

/-- The offset `o` is a key of `refs` whose record has a non-empty label. -/
def LabelledAt (refs : RefDB) (o : Nat) : Prop :=
  ∃ e, refs o = some e ∧ e.label ≠ ""

/-- Every record of `refs` has a non-empty label or the kind `LNONE`. -/
def LabelInv (refs : RefDB) : Prop :=
  ∀ o e, refs o = some e → e.label ≠ "" ∨ e.ltype = .LNONE

/-- Every `F_TARGET` record of `refs` whose target is a 64-bit address at
which a call can start resolves: the target, less `base`, is a key with a
non-empty label. -/
def Resolved (env : Env) (refs : RefDB) : Prop :=
  ∀ o e, refs o = some e → e.ftype = .F_TARGET → e.target < 2 ^ 64 → Starts env e.target →
    LabelledAt refs (sub64 e.target env.base)

/-- The `F_TARGET` records of `refs'` resolve in `refs'`, apart from those
that `refs` has at the same offset with the same target. -/
def NewResolved (env : Env) (refs refs' : RefDB) : Prop :=
  ∀ o e, refs' o = some e → e.ftype = .F_TARGET → e.target < 2 ^ 64 → Starts env e.target →
    LabelledAt refs' (sub64 e.target env.base) ∨
      ∃ e0, refs o = some e0 ∧ e0.ftype = .F_TARGET ∧ e0.target = e.target

/-- What a part of a run maintains: the invariant on labels, the labelled
keys, and the resolution of the targets it stores. -/
structure Good (env : Env) (refs refs' : RefDB) : Prop where
  inv : LabelInv refs'
  keep : ∀ k, LabelledAt refs k → LabelledAt refs' k
  res : NewResolved env refs refs'

/-- The label a task carries is not empty. -/
def TaskNamed : Task → Prop
  | .enter _ l => l.str ≠ ""
  | .loop _ l _ _ _ _ _ => l.str ≠ ""
  | .table _ _ _ _ _ => True

/-- What a task has labelled when it returns: a call its target, if a call
can start there; a decode loop the first instruction of its call. -/
def TaskLabelled (env : Env) : Task → RefDB → RefDB → Prop
  | .enter t _, _, refs' => t < 2 ^ 64 → Starts env t → LabelledAt refs' (sub64 t env.base)
  | .loop a _ offset _ _ _ _, refs, refs' =>
    refs.contains offset = false → add64 env.base offset = a →
      (decodeAt env offset).isSome = true → LabelledAt refs' offset
  | .table _ _ _ _ _, _, _ => True

/-- Image at `0x1000`: `ldr.w lr, [r0, #1]` (four bytes, whose second halfword
`0xE001` is the encoding of `b 0x1008`), `b 0x1002`, `bx lr`, and at `0x1008`
the first halfword of a 32-bit encoding, with which the image ends. -/
def danglingImage : List Nat := [0xD0, 0xF8, 0x01, 0xE0, 0xFD, 0xE7, 0x70, 0x47, 0xDF, 0xE8]

/-- Image at `0x1000`: `beq 0x1004`, `b 0x1006`, `bx lr` at `0x1004`, and at
`0x1006` the first halfword of a 32-bit encoding, with which the image ends. -/
def unresolvedImage : List Nat := [0x00, 0xD0, 0x00, 0xE0, 0x70, 0x47, 0xDF, 0xE8]

/-! # Theorems -/

/-! ## Lookups -/

theorem index_of_some {dflt : RefElem} {refs : RefDB} {k : Nat} {r : RefElem}
    (h : refs k = some r) : refs.index dflt k = r := by
  simp [RefDB.index, h]

theorem contains_of_some {refs : RefDB} {k : Nat} {r : RefElem}
    (h : refs k = some r) : refs.contains k = true := by
  simp [RefDB.contains, h]

theorem contains_of_none {refs : RefDB} {k : Nat}
    (h : refs k = none) : refs.contains k = false := by
  simp [RefDB.contains, h]

theorem some_of_contains {refs : RefDB} {k : Nat} (h : refs.contains k = true) :
    ∃ e, refs k = some e := by
  cases hk : refs k with
  | none => simp [RefDB.contains, hk] at h
  | some e => exact ⟨e, rfl⟩

theorem none_of_contains {refs : RefDB} {k : Nat} (h : refs.contains k = false) :
    refs k = none := by
  cases hk : refs k with
  | none => rfl
  | some e => simp [RefDB.contains, hk] at h

theorem add_other (refs : RefDB) (k o : Nat) (e : RefElem) (h : o ≠ k) :
    (refs.add k e) o = refs o := by
  simp [RefDB.add, h]

theorem add_self (refs : RefDB) (k : Nat) (e : RefElem) : (refs.add k e) k = some e := by
  simp [RefDB.add]

theorem modify_other (dflt : RefElem) (refs : RefDB) (k o : Nat) (f : RefElem → RefElem)
    (h : o ≠ k) : (refs.modify dflt k f) o = refs o := by
  simp [RefDB.modify, RefDB.add, h]

theorem modify_self (dflt : RefElem) (refs : RefDB) (k : Nat) (f : RefElem → RefElem)
    (e : RefElem) (h : refs k = some e) : (refs.modify dflt k f) k = some (f e) := by
  simp [RefDB.modify, RefDB.add, RefDB.index, h]

theorem add_modify_self (dflt : RefElem) (refs : RefDB) (k : Nat) (e : RefElem)
    (f : RefElem → RefElem) : ((refs.add k e).modify dflt k f) k = some (f e) :=
  modify_self _ _ _ _ _ (add_self refs k e)

theorem contains_add_self (refs : RefDB) (o : Nat) (e : RefElem) :
    (refs.add o e).contains o = true := by
  simp [RefDB.contains, RefDB.add]

/-! ## 64-bit arithmetic lemmas -/

theorem ofInt64_lt (i : Int) : ofInt64 i < 2 ^ 64 := by
  unfold ofInt64
  have h := Int.emod_lt_of_pos i (show (0 : Int) < 2 ^ 64 by norm_num)
  have h0 := Int.emod_nonneg i (show (2 ^ 64 : Int) ≠ 0 by norm_num)
  omega

theorem tableTarget_lt (env : Env) (offset size i : Nat) :
    tableTarget env offset size i < 2 ^ 64 := by
  unfold tableTarget
  exact Nat.mod_lt _ (by norm_num)

theorem add64_sub64 (a b : Nat) (h : a < 2 ^ 64) : add64 b (sub64 a b) = a := by
  unfold add64 sub64
  omega

theorem sub64_add64 (o b : Nat) (h : o < 2 ^ 64) : sub64 (add64 b o) b = o := by
  unfold add64 sub64
  omega

/-! ## Instruction classes -/

theorem directCall_target (env : Env) (insn : cs_insn) (o t : Nat) (lab : Label)
    (str : String) (stop : Bool) (h : directCall env insn = some (t, lab, str, stop)) :
    BranchTarget env o insn t := by
  unfold directCall at h
  split at h
  · next hid =>
    split at h
    · simp only [Option.some.injEq, Prod.mk.injEq] at h
      exact Or.inl ⟨Or.inl hid, h.1.symm⟩
    · simp at h
  · next hid =>
    simp only [Option.some.injEq, Prod.mk.injEq] at h
    exact Or.inr (Or.inl ⟨Or.inl hid, h.1.symm⟩)
  · next hid =>
    simp only [Option.some.injEq, Prod.mk.injEq] at h
    exact Or.inr (Or.inl ⟨Or.inr hid, h.1.symm⟩)
  · next hid =>
    split at h
    · simp only [Option.some.injEq, Prod.mk.injEq] at h
      exact Or.inl ⟨Or.inr hid, h.1.symm⟩
    · simp at h
  · simp at h

theorem directCall_lt (env : Env) (insn : cs_insn) (t : Nat) (lab : Label) (str : String)
    (stop : Bool) (h : directCall env insn = some (t, lab, str, stop)) : t < 2 ^ 64 := by
  rcases directCall_target env insn 0 t lab str stop h with ⟨_, ht⟩ | ⟨_, ht⟩ | ⟨hid, _⟩
  · rw [ht]
    exact ofInt64_lt _
  · rw [ht]
    exact ofInt64_lt _
  · rw [directCall, hid] at h
    simp at h

theorem directCall_id (env : Env) (insn : cs_insn) (x : Nat × Label × String × Bool)
    (h : directCall env insn = some x) : insn.id ≠ .TBB := by
  intro hid
  rw [directCall, hid] at h
  simp at h

theorem indirectCall_usesLoad (env : Env) (insn : cs_insn) (reg : arm_reg) (ld t : Nat)
    (lab : Label) (stop : Bool) (h : indirectCall env insn reg ld = some (t, lab, stop)) :
    usesLoad insn reg := by
  unfold indirectCall at h
  split at h
  · split at h
    · assumption
    · simp at h
  · split at h
    · assumption
    · simp at h
  · simp at h

theorem plainStep_directCall (env : Env) (insn : cs_insn) (reg : arm_reg) (b : Bool)
    (h : plainStep insn reg = some b) : directCall env insn = none := by
  unfold plainStep at h
  unfold directCall
  split at h <;> simp_all

theorem plainStep_table (insn : cs_insn) (reg : arm_reg) (b : Bool)
    (h : plainStep insn reg = some b) (hid : insn.id = .TBB) : ¬ pcTable insn := by
  unfold plainStep at h
  rw [hid] at h
  simp only at h
  split at h
  · simp at h
  · assumption

theorem directCall_plainStep (env : Env) (insn : cs_insn) (reg : arm_reg)
    (x : Nat × Label × String × Bool) (h : directCall env insn = some x) :
    plainStep insn reg = none := by
  cases hp : plainStep insn reg with
  | none => rfl
  | some b =>
    rw [plainStep_directCall env insn reg b hp] at h
    cases h

theorem table_plainStep (insn : cs_insn) (reg : arm_reg) (hid : insn.id = .TBB)
    (hpc : pcTable insn) : plainStep insn reg = none := by
  unfold plainStep
  rw [hid]
  simp [hpc]

theorem table_directCall (env : Env) (insn : cs_insn) (hid : insn.id = .TBB) :
    directCall env insn = none := by
  unfold directCall
  rw [hid]

/-! ## The follower as a relation -/

/-- Every run of the model that returns is a run of the relation. -/
theorem run_runs (env : Env) :
    ∀ (fuel : Nat) (task : Task) (refs refs' : RefDB) (n : Nat),
      run env fuel task refs = .done refs' n → Runs env task refs refs' := by
  intro fuel
  induction fuel with
  | zero =>
    intro task refs refs' n h
    simp [run] at h
  | succ fuel ih =>
    intro task refs refs' n h
    cases task with
    | enter start_addr label =>
      simp only [run] at h
      by_cases hc : refs.contains (sub64 start_addr env.base) = true
      · simp only [hc, if_true] at h
        by_cases hle : label.type.ord ≤ (refs.index env.dflt (sub64 start_addr env.base)).ltype.ord
        · simp only [hle, if_true, Outcome.done.injEq] at h
          rw [← h.1]
          exact Runs.relabel _ _ _ hc hle
        · simp only [hle, if_false, Outcome.done.injEq] at h
          rw [← h.1]
          exact Runs.keep _ _ _ hc hle
      · have hc' : refs.contains (sub64 start_addr env.base) = false := by simpa using hc
        simp only [hc', Bool.false_eq_true, if_false] at h
        by_cases hb : env.base > start_addr
        · simp only [hb, if_true, Outcome.done.injEq] at h
          rw [← h.1]
          exact Runs.reject _ _ _ hc' (Or.inl hb)
        · simp only [hb, if_false] at h
          by_cases hl : sub64 start_addr env.base ≥ env.image.length
          · simp only [hl, if_true, Outcome.done.injEq] at h
            rw [← h.1]
            exact Runs.reject _ _ _ hc' (Or.inr hl)
          · simp only [hl, if_false] at h
            exact Runs.start _ _ _ _ hc' (by omega) (by omega) (ih _ _ _ _ h)
    | loop start_addr label offset total ldr_reg ldr_addr ldr_data =>
      simp only [run] at h
      cases hd : decodeAt env offset with
      | none =>
        simp only [hd, Outcome.done.injEq] at h
        rw [← h.1]
        exact Runs.undecoded _ _ _ _ _ _ _ _ hd
      | some insn =>
        simp only [hd] at h
        by_cases hc : refs.contains offset = true
        · simp only [hc, if_true, Outcome.done.injEq] at h
          rw [← h.1]
          exact Runs.merged _ _ _ _ _ _ _ _ insn hd hc
        · have hc' : refs.contains offset = false := by simpa using hc
          simp only [hc', Bool.false_eq_true, if_false] at h
          cases hid : insn.id with
          | B =>
            simp only [hid] at h
            by_cases ha : insn.operands.length = 1 ∧ (insn.op 0).type = .IMM
            · simp only [ha, and_self, if_true] at h
              cases hr : run env fuel
                (.enter (ofInt64 (insn.op 0).imm)
                  ⟨.JUMP, "jump_" ++ env.HEX (ofInt64 (insn.op 0).imm)⟩)
                ((refs.add offset (newInstr env insn start_addr label offset)).modify env.dflt
                  offset (setTarget (ofInt64 (insn.op 0).imm) (insn.mnemonic ++ " "))) with
              | done refs3 n3 =>
                simp only [hr] at h
                by_cases hcc : insn.cc = .AL
                · simp only [hcc, if_true, Outcome.done.injEq] at h
                  rw [← h.1]
                  exact Runs.callStop _ _ _ _ _ _ _ _ _ insn _ _ _ hd hc'
                    (by simp [directCall, hid, oneImm, ha, hcc]) (ih _ _ _ _ hr)
                · simp only [hcc, if_false] at h
                  exact Runs.callNext _ _ _ _ _ _ _ _ _ _ _ insn _ _ _ hd hc'
                    (by simp [directCall, hid, oneImm, ha, hcc]) (ih _ _ _ _ hr) (ih _ _ _ _ h)
              | aborted => simp [hr] at h
              | nofuel => simp [hr] at h
            · simp [ha] at h
          | CBZ =>
            simp only [hid] at h
            cases hr : run env fuel
              (.enter (ofInt64 (insn.op 1).imm)
                ⟨.JUMP, "jump_" ++ env.HEX (ofInt64 (insn.op 1).imm)⟩)
              ((refs.add offset (newInstr env insn start_addr label offset)).modify env.dflt
                offset (setTarget (ofInt64 (insn.op 1).imm)
                  (insn.mnemonic ++ " " ++ env.reg_name (insn.op 0).reg ++ ", "))) with
            | done refs3 n3 =>
              simp only [hr] at h
              exact Runs.callNext _ _ _ _ _ _ _ _ _ _ _ insn _ _ _ hd hc'
                (by simp [directCall, hid]) (ih _ _ _ _ hr) (ih _ _ _ _ h)
            | aborted => simp [hr] at h
            | nofuel => simp [hr] at h
          | CBNZ =>
            simp only [hid] at h
            cases hr : run env fuel
              (.enter (ofInt64 (insn.op 1).imm)
                ⟨.JUMP, "jump_" ++ env.HEX (ofInt64 (insn.op 1).imm)⟩)
              ((refs.add offset (newInstr env insn start_addr label offset)).modify env.dflt
                offset (setTarget (ofInt64 (insn.op 1).imm)
                  (insn.mnemonic ++ " " ++ env.reg_name (insn.op 0).reg ++ ", "))) with
            | done refs3 n3 =>
              simp only [hr] at h
              exact Runs.callNext _ _ _ _ _ _ _ _ _ _ _ insn _ _ _ hd hc'
                (by simp [directCall, hid]) (ih _ _ _ _ hr) (ih _ _ _ _ h)
            | aborted => simp [hr] at h
            | nofuel => simp [hr] at h
          | BX =>
            simp only [hid] at h
            by_cases hu : ldr_reg ≠ .INVALID ∧ (insn.op 0).reg = ldr_reg
            · simp only [hu, ne_eq, not_false_eq_true, and_self, if_true] at h
              split at h
              · next refs4 n4 hr =>
                simp only [Outcome.done.injEq] at h
                rw [← h.1]
                exact Runs.indirectStop _ _ _ _ _ _ _ _ _ insn _ _ hd hc'
                  (by simp [indirectCall, hid, usesLoad, hu]) (ih _ _ _ _ hr)
              · simp at h
              · simp at h
            · simp only [hu, if_false, Outcome.done.injEq] at h
              rw [← h.1]
              exact Runs.plainStop _ _ _ _ _ _ _ _ insn hd hc'
                (by simp [plainStep, hid, usesLoad, hu])
          | POP =>
            simp only [hid] at h
            by_cases hp : popsPc insn = true
            · simp only [hp, if_true, Outcome.done.injEq] at h
              rw [← h.1]
              exact Runs.plainStop _ _ _ _ _ _ _ _ insn hd hc' (by simp [plainStep, hid, hp])
            · simp only [hp, Bool.false_eq_true, if_false] at h
              exact Runs.plainNext _ _ _ _ _ _ _ _ _ _ insn hd hc'
                (by simpa [plainStep, hid] using hp) (ih _ _ _ _ h)
          | BL =>
            simp only [hid] at h
            by_cases ha : insn.operands.length = 1 ∧ (insn.op 0).type = .IMM
            · simp only [ha, and_self, if_true] at h
              split at h
              · next refs3 n3 hr =>
                exact Runs.callNext _ _ _ _ _ _ _ _ _ _ _ insn _ _ _ hd hc'
                  (by simp [directCall, hid, oneImm, ha]) (ih _ _ _ _ hr) (ih _ _ _ _ h)
              · simp at h
              · simp at h
            · simp [ha] at h
          | BLX =>
            simp only [hid] at h
            by_cases hu : ldr_reg ≠ .INVALID ∧ (insn.op 0).reg = ldr_reg
            · simp only [hu, ne_eq, not_false_eq_true, and_self, if_true] at h
              split at h
              · next refs4 n4 hr =>
                exact Runs.indirectNext _ _ _ _ _ _ _ _ _ _ _ insn _ _ hd hc'
                  (by simp [indirectCall, hid, usesLoad, hu]) (ih _ _ _ _ hr) (ih _ _ _ _ h)
              · simp at h
              · simp at h
            · simp only [hu, if_false] at h
              exact Runs.plainNext _ _ _ _ _ _ _ _ _ _ insn hd hc'
                (by simp [plainStep, hid, usesLoad, hu]) (ih _ _ _ _ h)
          | TBB =>
            simp only [hid] at h
            by_cases ht : insn.operands.length = 1 ∧ (insn.op 0).type = .MEM ∧
                (insn.op 0).mem_base = .PC
            · simp only [ht, and_self, if_true] at h
              exact Runs.scan _ _ _ _ _ _ _ _ _ insn hd hc' hid ht (ih _ _ _ _ h)
            · simp only [ht, if_false, Outcome.done.injEq] at h
              rw [← h.1]
              exact Runs.plainStop _ _ _ _ _ _ _ _ insn hd hc'
                (by simp [plainStep, hid, pcTable, ht])
          | LDR =>
            simp only [hid] at h
            by_cases hl : insn.operands.length = 2 ∧ (insn.op 1).type = .MEM ∧
                (insn.op 1).mem_base = .PC
            · simp only [hl, and_self, if_true] at h
              exact Runs.load _ _ _ _ _ _ _ _ _ _ insn hd hc' hid hl (ih _ _ _ _ h)
            · simp only [hl, if_false] at h
              exact Runs.plainNext _ _ _ _ _ _ _ _ _ _ insn hd hc'
                (by simp [plainStep, hid, pcLoad, hl]) (ih _ _ _ _ h)
          | OTHER =>
            simp only [hid] at h
            exact Runs.plainNext _ _ _ _ _ _ _ _ _ _ insn hd hc'
              (by simp [plainStep, hid]) (ih _ _ _ _ h)
    | table offset size i min total =>
      simp only [run] at h
      by_cases h1 : tableAddr env offset size i < min
      · simp only [h1, if_true] at h
        by_cases h2 : tableTarget env offset size i > tableAddr env offset size i
        · simp only [h2, if_true] at h
          split at h
          · next refs1 n1 hr =>
            exact Runs.tableCase _ _ _ _ _ _ _ _ _ h1 h2 (ih _ _ _ _ hr) (ih _ _ _ _ h)
          · simp at h
          · simp at h
        · simp only [h2, if_false, Outcome.done.injEq] at h
          rw [← h.1]
          exact Runs.tableEnd _ _ _ _ _ _ (by tauto)
      · simp only [h1, if_false, Outcome.done.injEq] at h
        rw [← h.1]
        exact Runs.tableEnd _ _ _ _ _ _ (by tauto)

/-! ## Re-entry at an address that is already a key -/

/-- Claim C1. Re-entry applies the label priority rule and nothing else: when
`start_addr - base` is a key whose record `e` has label kind `K1`,
`disassembleAddress(start_addr, (K2, s))` returns 0 with a database that has
the same keys, the same record at every other offset, and at that offset the
record `e` with `(ltype, label)` set to `(K2, s)` when `K2 <= K1` and left as
it is when `K2 > K1`; no other field of `e` changes. -/
theorem disassembleAddress_reentry (env : Env) (fuel : Nat) (refs : RefDB)
    (start_addr : Nat) (label : Label) (e : RefElem)
    (hkey : refs (sub64 start_addr env.base) = some e) :
    ∃ refs', disassembleAddress env (fuel + 1) refs start_addr label = .done refs' 0 ∧
      (∀ j, j ≠ sub64 start_addr env.base → refs' j = refs j) ∧
      (∀ j, (refs' j).isSome = (refs j).isSome) ∧
      (label.type.ord ≤ e.ltype.ord →
        refs' (sub64 start_addr env.base) =
          some { e with ltype := label.type, label := label.str }) ∧
      (e.ltype.ord < label.type.ord → refs' (sub64 start_addr env.base) = some e) := by
  have hc : refs.contains (sub64 start_addr env.base) = true := by
    simp [RefDB.contains, hkey]
  have hi : refs.index env.dflt (sub64 start_addr env.base) = e := by
    simp [RefDB.index, hkey]
  by_cases hle : label.type.ord ≤ e.ltype.ord
  · refine ⟨refs.modify env.dflt (sub64 start_addr env.base) (setLabel label), ?_, ?_, ?_, ?_, ?_⟩
    · simp [disassembleAddress, run, hc, hi, hle]
    · intro j hj
      simp [RefDB.modify, RefDB.add, hj]
    · intro j
      by_cases hj : j = sub64 start_addr env.base
      · simp [RefDB.modify, RefDB.add, hj, hkey]
      · simp [RefDB.modify, RefDB.add, hj]
    · intro _
      simp [RefDB.modify, RefDB.add, hi, setLabel]
    · intro hlt
      omega
  · refine ⟨refs, ?_, ?_, ?_, ?_, ?_⟩
    · simp [disassembleAddress, run, hc, hi, hle]
    · intro j _
      rfl
    · intro j
      rfl
    · intro h
      exact absurd h hle
    · intro _
      exact hkey

/-- Witness for C1: a jump that lands on the unlabelled record at `0x1004`
labels it `jump_1004`. -/
theorem disassembleAddress_reentry_witness :
    ∃ refs', disassembleAddress (thumbEnv 0x1000 [0, 0xBF, 0, 0xBF, 0, 0xBF]) 1 mergeRefs
        0x1004 ⟨.JUMP, "jump_1004"⟩ = .done refs' 0 ∧
      (∀ j, j ≠ sub64 0x1004 0x1000 → refs' j = mergeRefs j) ∧
      (∀ j, (refs' j).isSome = (mergeRefs j).isSome) ∧
      (labeltype.JUMP.ord ≤ labeltype.LNONE.ord →
        refs' (sub64 0x1004 0x1000) =
          some { blankElem with size := 2, str := "nop ", ltype := .JUMP, label := "jump_1004" }) ∧
      (labeltype.LNONE.ord < labeltype.JUMP.ord →
        refs' (sub64 0x1004 0x1000) = some { blankElem with size := 2, str := "nop " }) :=
  disassembleAddress_reentry (thumbEnv 0x1000 [0, 0xBF, 0, 0xBF, 0, 0xBF]) 0 mergeRefs
    0x1004 ⟨.JUMP, "jump_1004"⟩ { blankElem with size := 2, str := "nop " } (by rfl)

/-! ## A named entry point -/

/-- Claim C2. On `clobberImage` the entry `addEntry(0x1004, "main")` returns, and
the record at offset 4 is not the instruction named `main`: the branch at
`0x1004` leads to the `ldr` at `0x1000`, whose literal address is `0x1004`,
and the `DATA` record of that literal is stored over the entry's record. -/
theorem addEntry_named_clobbered :
    (addEntry (thumbEnv 0x1000 clobberImage) 9 RefDB.empty 0x1004 "main").entry 4 =
      some (some { type := .DATA, size := 4, ltype := .LNONE, label := "data_1004",
                   ftype := .F_STRING, str := ".word 0xBF00E7FC", suffix := "", target := 0,
                   flags := 0 }) := by
  decide!

/-! ## Entries outside the image -/

/-- Claim C3 as stated fails: after `addEntry(0x1000, "main")` on `shortImage`
the literal of the `ldr` is a key at offset 4, the size of the image, and
`addEntry(0x1004, "x")`, an address past the end of the image, renames that
record. -/
theorem addEntry_out_of_range_counterexample :
    ∃ refs1 n1 refs2 n2,
      addEntry (thumbEnv 0x1000 shortImage) 9 RefDB.empty 0x1000 "main" = .done refs1 n1 ∧
      (thumbEnv 0x1000 shortImage).image.length ≤ 0x1004 - (thumbEnv 0x1000 shortImage).base ∧
      addEntry (thumbEnv 0x1000 shortImage) 9 refs1 0x1004 "x" = .done refs2 n2 ∧
      refs2 4 ≠ refs1 4 :=
  ⟨_, _, _, _, rfl, by decide, rfl, by decide!⟩

/-- Claim C3, amended. When `start_addr - base` (modulo `2 ^ 64`) is no key of the
RefDB and `start_addr < base` or `start_addr - base >= image.size`, then
`addEntry(start_addr, name)` returns 0 and leaves the RefDB as it is. -/
theorem addEntry_out_of_range (env : Env) (fuel : Nat) (refs : RefDB) (start_addr : Nat)
    (name : String) (hnew : refs.contains (sub64 start_addr env.base) = false)
    (hrange : start_addr < env.base ∨ env.image.length ≤ sub64 start_addr env.base) :
    addEntry env (fuel + 1) refs start_addr name = .done refs 0 := by
  simp only [addEntry, disassembleAddress, run, hnew]
  by_cases hb : env.base > start_addr
  · simp [hb]
  · have hlen : env.image.length ≤ sub64 start_addr env.base := by
      rcases hrange with h | h
      · exact absurd h hb
      · exact h
    simp [hb, hlen]

/-- Witness for C3 amended: the entry at `base - 1` on an empty RefDB. -/
theorem addEntry_out_of_range_witness :
    addEntry (thumbEnv 0x1000 shortImage) 1 RefDB.empty 0xFFF "x" = .done RefDB.empty 0 :=
  addEntry_out_of_range (thumbEnv 0x1000 shortImage) 0 RefDB.empty 0xFFF "x" (by rfl)
    (Or.inl (by decide))

/-! ## Emitter lemmas -/

theorem append_ne_empty (a b : String) (h : a ≠ "") : a ++ b ≠ "" := by
  intro hab
  apply h
  have h1 : (a ++ b).data = [] := by rw [hab]
  rw [String.data_append] at h1
  have h2 : a.data = [] := (List.append_eq_nil.mp h1).1
  exact String.ext h2

theorem asmHeader_ne_empty : asmHeader ≠ "" := by decide

/-- The writes for one record append its reference text. -/
theorem ref_writes (asem : String) (prev : reftype) (r : RefElem) (text : String) :
    (if r.label ≠ "" then
        (if r.flags &&& THUMBFUNC ≠ 0 then
            (if prev ≠ r.type then asem ++ "\n" else asem) ++ ".thumb_func\n"
          else (if prev ≠ r.type then asem ++ "\n" else asem)) ++ r.label ++ ":\n"
      else
        (if r.flags &&& THUMBFUNC ≠ 0 then
            (if prev ≠ r.type then asem ++ "\n" else asem) ++ ".thumb_func\n"
          else (if prev ≠ r.type then asem ++ "\n" else asem))) ++ "    " ++ text ++ "\n" =
      asem ++ ((if prev ≠ r.type then "\n" else "")
        ++ ((if r.flags &&& THUMBFUNC ≠ 0 then ".thumb_func\n" else "")
          ++ ((if r.label ≠ "" then r.label ++ ":\n" else "")
            ++ ("    " ++ text ++ "\n")))) := by
  split_ifs <;> simp only [String.append_assoc, String.append_empty, String.empty_append]

/-- The writes for one uncovered byte append its reference text. -/
theorem byte_writes (env : Env) (asem : String) (prev : reftype) (i : Nat) :
    (if prev = .CODE ∨ prev = .DATA then asem ++ "\n" else asem)
        ++ ".byte " ++ ("0x" ++ env.HEX (env.byte i)) ++ "\n" =
      asem ++ specByteText env prev i := by
  unfold specByteText
  split_ifs <;> simp only [String.append_assoc, String.append_empty, String.empty_append] <;> rfl

/-- The loop of `makeCode` against the sweep of the specification: a run that
returns either gave up at an unresolved record the sweep reached, or wrote
the texts of the sweep's units after what was written before. -/
theorem makeCodeLoop_spec (env : Env) (refs : RefDB) :
    ∀ (fuel i : Nat) (prev : reftype) (asem out : String),
      makeCodeLoop env refs fuel i prev asem = some out →
      (out = "" ∧ ∃ j r, SweptFrom env refs i j ∧ j < env.image.length ∧ refs j = some r ∧
          unresolved env refs r) ∨
      (∃ units, specSweep env refs fuel i prev = some units ∧
          out = asem ++ concatTexts (units.map fun u => u.text)) := by
  intro fuel
  induction fuel with
  | zero =>
    intro i prev asem out h
    simp [makeCodeLoop] at h
  | succ fuel ih =>
    intro i prev asem out h
    rw [makeCodeLoop] at h
    by_cases hlt : i < env.image.length
    · simp only [hlt, if_true] at h
      cases hri : refs i with
      | none =>
        simp only [contains_of_none hri, Bool.false_eq_true, if_false] at h
        rw [byte_writes] at h
        rcases ih _ _ _ _ h with ⟨ho, j, r, hs, hj, hr, hu⟩ | ⟨units, hsw, ho⟩
        · exact Or.inl ⟨ho, j, r, SweptFrom.raw i j hlt hri hs, hj, hr, hu⟩
        · refine Or.inr ⟨⟨i, 1, specByteText env prev i⟩ :: units, ?_, ?_⟩
          · simp [specSweep, hlt, hri, hsw]
          · simp only [ho, concatTexts, String.append_assoc, List.map_cons]
      | some r =>
        simp only [contains_of_some hri, if_true, index_of_some hri] at h
        cases hf : r.ftype with
        | F_STRING =>
          simp only [hf] at h
          rw [ref_writes] at h
          have hres : ¬ unresolved env refs r := by simp [unresolved, hf]
          rcases ih _ _ _ _ h with ⟨ho, j, r', hs, hj, hr, hu⟩ | ⟨units, hsw, ho⟩
          · exact Or.inl ⟨ho, j, r', SweptFrom.ref i j r hlt hri hres hs, hj, hr, hu⟩
          · refine Or.inr ⟨⟨i, r.size, specRefText env refs prev r⟩ :: units, ?_, ?_⟩
            · simp [specSweep, hlt, hri, hsw, hres]
            · simp only [ho, concatTexts, String.append_assoc, specRefText, specText, hf, List.map_cons]
        | F_TARGET =>
          simp only [hf] at h
          cases hrt : refs (sub64 r.target env.base) with
          | none =>
            simp only [contains_of_none hrt, Bool.false_eq_true, if_false] at h
            refine Or.inl ⟨(Option.some.inj h).symm, i, r, SweptFrom.here i, hlt, hri, ?_⟩
            exact ⟨hf, Or.inl hrt⟩
          | some t =>
            simp only [contains_of_some hrt, if_true, index_of_some hrt] at h
            by_cases hl : t.label = ""
            · simp only [hl, if_true] at h
              refine Or.inl ⟨(Option.some.inj h).symm, i, r, SweptFrom.here i, hlt, hri, ?_⟩
              exact ⟨hf, Or.inr ⟨t, hrt, hl⟩⟩
            · simp only [hl, if_false] at h
              rw [ref_writes] at h
              have hres : ¬ unresolved env refs r := by simp [unresolved, hf, hrt, hl]
              rcases ih _ _ _ _ h with ⟨ho, j, r', hs, hj, hr, hu⟩ | ⟨units, hsw, ho⟩
              · exact Or.inl ⟨ho, j, r', SweptFrom.ref i j r hlt hri hres hs, hj, hr, hu⟩
              · refine Or.inr ⟨⟨i, r.size, specRefText env refs prev r⟩ :: units, ?_, ?_⟩
                · simp [specSweep, hlt, hri, hsw, hres]
                · simp only [ho, concatTexts, String.append_assoc, specRefText, specText, hf, hrt, List.map_cons,
                    Option.map_some', Option.getD_some]
    · simp only [hlt, if_false] at h
      refine Or.inr ⟨[], ?_, ?_⟩
      · simp [specSweep, hlt]
      · simp [concatTexts, (Option.some.inj h).symm]

/-- The sweep ends within `image.size + 1 - i` rounds when no record is empty. -/
theorem makeCodeLoop_returns (env : Env) (refs : RefDB)
    (hsize : ∀ i r, refs i = some r → 1 ≤ r.size) :
    ∀ (fuel i : Nat) (prev : reftype) (asem : String), 1 ≤ fuel →
      env.image.length < fuel + i →
      ∃ out, makeCodeLoop env refs fuel i prev asem = some out := by
  intro fuel
  induction fuel with
  | zero =>
    intro i prev asem h1 hf
    omega
  | succ fuel ih =>
    intro i prev asem _ hf
    rw [makeCodeLoop]
    by_cases hlt : i < env.image.length
    · simp only [hlt, if_true]
      cases hri : refs i with
      | none =>
        simp only [contains_of_none hri, Bool.false_eq_true, if_false]
        exact ih _ _ _ (by omega) (by omega)
      | some r =>
        have hr := hsize i r hri
        simp only [contains_of_some hri, if_true, index_of_some hri]
        cases hf' : r.ftype with
        | F_STRING =>
          simp only [hf']
          exact ih _ _ _ (by omega) (by omega)
        | F_TARGET =>
          simp only [hf']
          split
          · split
            · exact ⟨_, rfl⟩
            · exact ih _ _ _ (by omega) (by omega)
          · exact ⟨_, rfl⟩
    · simp only [hlt, if_false]
      exact ⟨_, rfl⟩

/-- A sweep of the specification that succeeds met no unresolved record. -/
theorem specSweep_resolved (env : Env) (refs : RefDB) :
    ∀ (fuel i : Nat) (prev : reftype) (units : List EmitUnit),
      specSweep env refs fuel i prev = some units →
      ∀ j r, SweptFrom env refs i j → j < env.image.length → refs j = some r →
        ¬ unresolved env refs r := by
  intro fuel
  induction fuel with
  | zero =>
    intro i prev units h
    simp [specSweep] at h
  | succ fuel ih =>
    intro i prev units h j r hs hj hr
    rw [specSweep] at h
    cases hs with
    | here =>
      simp only [hj, if_true, hr] at h
      intro hu
      simp [hu] at h
    | ref _ _ r' hlt hri hres hs' =>
      simp only [hlt, if_true, hri, hres, if_false] at h
      cases hrec : specSweep env refs fuel (i + r'.size) r'.type with
      | none => simp [hrec] at h
      | some us => exact ih _ _ _ hrec j r hs' hj hr
    | raw _ _ hlt hri hs' =>
      simp only [hlt, if_true, hri] at h
      cases hrec : specSweep env refs fuel (i + 1) .RAW with
      | none => simp [hrec] at h
      | some us => exact ih _ _ _ hrec j r hs' hj hr

/-- The units of a sweep from `i` lie at or after `i`, each is a record of the
RefDB or one uncovered byte, and every byte from `i` to the end of the image
lies in exactly one of them. -/
theorem specSweep_cover (env : Env) (refs : RefDB)
    (hsize : ∀ i r, refs i = some r → 1 ≤ r.size) :
    ∀ (fuel i : Nat) (prev : reftype) (units : List EmitUnit),
      specSweep env refs fuel i prev = some units →
      (∀ u ∈ units, i ≤ u.offset ∧
        ((∃ r, refs u.offset = some r ∧ u.size = r.size) ∨
          (refs u.offset = none ∧ u.size = 1))) ∧
      ∀ b, i ≤ b → b < env.image.length →
        ∃! u, u ∈ units ∧ u.offset ≤ b ∧ b < u.offset + u.size := by
  intro fuel
  induction fuel with
  | zero =>
    intro i prev units h
    simp [specSweep] at h
  | succ fuel ih =>
    intro i prev units h
    rw [specSweep] at h
    by_cases hlt : i < env.image.length
    · simp only [hlt, if_true] at h
      -- one step of the sweep: a head unit of extent `sz ≥ 1` and the rest from `i + sz`
      have key : ∀ (sz : Nat) (txt : String) (prev' : reftype) (rest : List EmitUnit),
          1 ≤ sz →
          ((∃ r, refs i = some r ∧ sz = r.size) ∨ (refs i = none ∧ sz = 1)) →
          specSweep env refs fuel (i + sz) prev' = some rest →
          units = ⟨i, sz, txt⟩ :: rest →
          (∀ u ∈ units, i ≤ u.offset ∧
            ((∃ r, refs u.offset = some r ∧ u.size = r.size) ∨
              (refs u.offset = none ∧ u.size = 1))) ∧
          ∀ b, i ≤ b → b < env.image.length →
            ∃! u, u ∈ units ∧ u.offset ≤ b ∧ b < u.offset + u.size := by
        intro sz txt prev' rest hsz hkind hrest hunits
        obtain ⟨hall, hcov⟩ := ih _ _ _ hrest
        subst hunits
        constructor
        · intro u hu
          rcases List.mem_cons.mp hu with rfl | hu
          · exact ⟨Nat.le_refl _, hkind⟩
          · exact ⟨by have := (hall u hu).1; omega, (hall u hu).2⟩
        · intro b hib hb
          by_cases hbs : b < i + sz
          · refine ⟨⟨i, sz, txt⟩, ⟨List.mem_cons_self _ _, hib, hbs⟩, ?_⟩
            rintro u ⟨hu, hu1, hu2⟩
            rcases List.mem_cons.mp hu with rfl | hu
            · rfl
            · have := (hall u hu).1
              omega
          · obtain ⟨u, ⟨hu, hu1, hu2⟩, huniq⟩ := hcov b (by omega) hb
            refine ⟨u, ⟨List.mem_cons_of_mem _ hu, hu1, hu2⟩, ?_⟩
            rintro u' ⟨hu', hu1', hu2'⟩
            rcases List.mem_cons.mp hu' with rfl | hu'
            · simp only at hu2'
              omega
            · exact huniq u' ⟨hu', hu1', hu2'⟩
      cases hri : refs i with
      | none =>
        simp only [hri] at h
        cases hrec : specSweep env refs fuel (i + 1) .RAW with
        | none => simp [hrec] at h
        | some rest =>
          simp only [hrec, Option.map_some', Option.some.injEq] at h
          exact key 1 _ _ rest (Nat.le_refl _) (Or.inr ⟨hri, rfl⟩) hrec h.symm
      | some r =>
        simp only [hri] at h
        by_cases hu : unresolved env refs r
        · simp [hu] at h
        · simp only [hu, if_false] at h
          cases hrec : specSweep env refs fuel (i + r.size) r.type with
          | none => simp [hrec] at h
          | some rest =>
            simp only [hrec, Option.map_some', Option.some.injEq] at h
            exact key r.size _ _ rest (hsize i r hri) (Or.inl ⟨r, hri, rfl⟩) hrec h.symm
    · simp only [hlt, if_false, Option.some.injEq] at h
      subst h
      constructor
      · intro u hu
        simp at hu
      · intro b hib hb
        omega

theorem straightRefs_size : ∀ i r, straightRefs i = some r → 1 ≤ r.size := by
  intro i r h
  simp only [straightRefs, RefDB.add, RefDB.empty] at h
  split_ifs at h <;> (cases h; decide)

/-! ## The emitter against the specification -/

/-- Claim C4. `makeCode` equals the reference emitter of spec 4.4: when emission
succeeds, the output is the fixed header followed by the concatenation of the
texts of the units of the sweep from `i = 0` with `prev = DATA` (at a key: a
blank line iff `prev != type`, `.thumb_func` iff THUMBFUNC is set, the label
line iff the label is non-empty, then the indented text; at a non-key: a blank
line iff `prev` is CODE or DATA, then the `.byte` line). -/
theorem makeCode_eq_reference (env : Env) (refs : RefDB) (fuel : Nat) (out : String)
    (h : makeCode env refs fuel = some out) (hne : out ≠ "") :
    ∃ units, specSweep env refs fuel 0 .DATA = some units ∧
      out = ".syntax unified\n.cpu cortex-m3\n.text\n.thumb\n\n"
        ++ concatTexts (units.map fun u => u.text) := by
  rcases makeCodeLoop_spec env refs fuel 0 .DATA asmHeader out h with ⟨ho, _⟩ | ⟨units, hsw, ho⟩
  · exact absurd ho hne
  · exact ⟨units, hsw, ho⟩

set_option maxRecDepth 100000 in
/-- Witness for C4: the direct-jump scenario, whose fourteen uncovered bytes
`0x1002-0x100F` are rendered without blank lines between them. -/
theorem makeCode_eq_reference_witness :
    ∃ units, specSweep (thumbEnv 0x1000 jumpImage) jumpRefs 19 0 .DATA = some units ∧
      ".syntax unified\n.cpu cortex-m3\n.text\n.thumb\n\n\nmain:\n    b jump_1010\n\n.byte 0x0\n.byte 0x0\n.byte 0x0\n.byte 0x0\n.byte 0x0\n.byte 0x0\n.byte 0x0\n.byte 0x0\n.byte 0x0\n.byte 0x0\n.byte 0x0\n.byte 0x0\n.byte 0x0\n.byte 0x0\n\njump_1010:\n    bx lr\n" =
      ".syntax unified\n.cpu cortex-m3\n.text\n.thumb\n\n"
        ++ concatTexts (units.map fun u => u.text) :=
  makeCode_eq_reference (thumbEnv 0x1000 jumpImage) jumpRefs 19 _ (by rfl) (by decide)

/-- Claim C5 as stated fails: after `addEntry(0x1000, "main")` on `overlapImage`
the RefDB holds at offset 2 an `F_TARGET` record whose target `0x1206` is no
key, and `makeCode` returns a listing all the same: the sweep steps over
offset 2, which lies inside the four-byte record at offset 0. -/
theorem makeCode_fails_iff_counterexample :
    ∃ refs n r out,
      addEntry (thumbEnv 0x1000 overlapImage) 9 RefDB.empty 0x1000 "main" = .done refs n ∧
      refs 2 = some r ∧ r.ftype = .F_TARGET ∧ refs (sub64 r.target 0x1000) = none ∧
      makeCode (thumbEnv 0x1000 overlapImage) refs 7 = some out ∧ out ≠ "" :=
  ⟨_, _, _, _, rfl, rfl, by decide!, by decide!, rfl, by decide!⟩

/-- Claim C5, amended. For a RefDB whose records have size at least 1, `makeCode`
returns, and its result is empty if and only if its sweep reaches an
`F_TARGET` record whose target, less `base`, is no key or a key with an empty
label; otherwise the result is a non-empty listing. -/
theorem makeCode_fails_iff (env : Env) (refs : RefDB)
    (hsize : ∀ i r, refs i = some r → 1 ≤ r.size) :
    ∃ out, makeCode env refs (env.image.length + 1) = some out ∧
      (out = "" ↔
        ∃ j r, SweptFrom env refs 0 j ∧ j < env.image.length ∧ refs j = some r ∧
          unresolved env refs r) := by
  obtain ⟨out, hout⟩ :=
    makeCodeLoop_returns env refs hsize (env.image.length + 1) 0 .DATA asmHeader
      (by omega) (by omega)
  refine ⟨out, hout, ?_⟩
  rcases makeCodeLoop_spec env refs _ 0 .DATA asmHeader out hout with
    ⟨ho, hex⟩ | ⟨units, hsw, ho⟩
  · exact ⟨fun _ => hex, fun _ => ho⟩
  · constructor
    · intro he
      rw [he] at ho
      exact absurd ho.symm (append_ne_empty _ _ asmHeader_ne_empty)
    · rintro ⟨j, r, hs, hj, hr, hu⟩
      exact absurd hu (specSweep_resolved env refs _ 0 .DATA units hsw j r hs hj hr)

/-- Witness for C5 amended: the straight-line scenario. -/
theorem makeCode_fails_iff_witness :
    ∃ out, makeCode (thumbEnv 0x1000 straightImage) straightRefs
        ((thumbEnv 0x1000 straightImage).image.length + 1) = some out ∧
      (out = "" ↔
        ∃ j r, SweptFrom (thumbEnv 0x1000 straightImage) straightRefs 0 j ∧
          j < (thumbEnv 0x1000 straightImage).image.length ∧ straightRefs j = some r ∧
          unresolved (thumbEnv 0x1000 straightImage) straightRefs r) :=
  makeCode_fails_iff (thumbEnv 0x1000 straightImage) straightRefs straightRefs_size

/-- Claim C6. Emitter totality: for a RefDB whose records have size at least 1,
when `makeCode` succeeds its output is the header followed by the texts of the
units its sweep renders, each the line of one RefElem `(o, r)` covering
`[o, o + r.size)` or one `.byte` line covering one byte, and every byte offset
below `image.size` belongs to exactly one of these units. -/
theorem makeCode_covers (env : Env) (refs : RefDB) (fuel : Nat) (out : String)
    (hsize : ∀ i r, refs i = some r → 1 ≤ r.size)
    (h : makeCode env refs fuel = some out) (hne : out ≠ "") :
    ∃ units : List EmitUnit,
      specSweep env refs fuel 0 .DATA = some units ∧
      out = asmHeader ++ concatTexts (units.map fun u => u.text) ∧
      (∀ u ∈ units, (∃ r, refs u.offset = some r ∧ u.size = r.size) ∨
        (refs u.offset = none ∧ u.size = 1)) ∧
      ∀ b, b < env.image.length →
        ∃! u, u ∈ units ∧ u.offset ≤ b ∧ b < u.offset + u.size := by
  rcases makeCodeLoop_spec env refs fuel 0 .DATA asmHeader out h with ⟨ho, _⟩ | ⟨units, hsw, ho⟩
  · exact absurd ho hne
  · obtain ⟨hall, hcov⟩ := specSweep_cover env refs hsize fuel 0 .DATA units hsw
    exact ⟨units, hsw, ho, fun u hu => (hall u hu).2, fun b hb => hcov b (Nat.zero_le _) hb⟩

/-- Witness for C6: the straight-line scenario. -/
theorem makeCode_covers_witness :
    ∃ units : List EmitUnit,
      specSweep (thumbEnv 0x1000 straightImage) straightRefs 7 0 .DATA = some units ∧
      ".syntax unified\n.cpu cortex-m3\n.text\n.thumb\n\n\nmain:\n    push {r7, lr}\n    movs r0, #0\n    pop {r7, pc}\n" =
        asmHeader ++ concatTexts (units.map fun u => u.text) ∧
      (∀ u ∈ units, (∃ r, straightRefs u.offset = some r ∧ u.size = r.size) ∨
        (straightRefs u.offset = none ∧ u.size = 1)) ∧
      ∀ b, b < (thumbEnv 0x1000 straightImage).image.length →
        ∃! u, u ∈ units ∧ u.offset ≤ b ∧ b < u.offset + u.size :=
  makeCode_covers (thumbEnv 0x1000 straightImage) straightRefs 7 _ straightRefs_size
    (by rfl) (by decide)

/-! ## Instruction grids are maintained -/

/-- Claim C8. On `raiseImage`, `addEntry(0x1004, "f")` labels offset 4 with kind
`NAMED`; the later `addEntry(0x1000, "g")` decodes the `ldr`, whose literal
address is `0x1004`, and the `DATA` record stored there leaves offset 4 with
the kind a default-constructed record has, here `LNONE`: the ordinal rises
from 0 to 4. -/
theorem ltype_raised_by_literal :
    ∃ refs1 n1 refs2 n2 e1 e2,
      addEntry (thumbEnv 0x1000 raiseImage) 9 RefDB.empty 0x1004 "f" = .done refs1 n1 ∧
      addEntry (thumbEnv 0x1000 raiseImage) 9 refs1 0x1000 "g" = .done refs2 n2 ∧
      refs1 4 = some e1 ∧ refs2 4 = some e2 ∧
      e1.ltype = .NAMED ∧ e2.ltype = .LNONE ∧ e1.ltype.ord < e2.ltype.ord :=
  ⟨_, _, _, _, _, _, rfl, rfl, rfl, rfl, by decide!, by decide!, by decide!⟩

/-- Claim C9. On `clobberImage` the second of two `addEntry(0x1004, "main")` calls
changes the RefDB: the first leaves at offset 4 the `DATA` record of the
literal labelled `data_1004`, the second renames it to `main`. -/
theorem addEntry_twice_differs :
    ∃ refs1 n1 refs2 n2,
      addEntry (thumbEnv 0x1000 clobberImage) 9 RefDB.empty 0x1004 "main" = .done refs1 n1 ∧
      addEntry (thumbEnv 0x1000 clobberImage) 9 refs1 0x1004 "main" = .done refs2 n2 ∧
      (refs1 4).map (fun e => e.label) = some "data_1004" ∧
      (refs2 4).map (fun e => e.label) = some "main" ∧
      refs2 4 ≠ refs1 4 :=
  ⟨_, _, _, _, rfl, rfl, by decide!, by decide!, by decide!⟩

/-! ## Extension of the RefDB without PC-relative loads -/

theorem sameFrozen_refl (e : RefElem) : sameFrozen e e :=
  ⟨rfl, rfl, rfl, rfl, rfl, rfl, rfl⟩

theorem sameFrozen_trans {e1 e2 e3 : RefElem} (h1 : sameFrozen e1 e2) (h2 : sameFrozen e2 e3) :
    sameFrozen e1 e3 := by
  obtain ⟨a1, a2, a3, a4, a5, a6, a7⟩ := h1
  obtain ⟨b1, b2, b3, b4, b5, b6, b7⟩ := h2
  exact ⟨a1.trans b1, a2.trans b2, a3.trans b3, a4.trans b4, a5.trans b5, a6.trans b6,
    a7.trans b7⟩

theorem sameFrozen_symm {e1 e2 : RefElem} (h : sameFrozen e1 e2) : sameFrozen e2 e1 := by
  obtain ⟨a1, a2, a3, a4, a5, a6, a7⟩ := h
  exact ⟨a1.symm, a2.symm, a3.symm, a4.symm, a5.symm, a6.symm, a7.symm⟩

theorem ext_refl (refs : RefDB) : Ext refs refs :=
  fun _ e he => ⟨e, he, Nat.le_refl _, sameFrozen_refl e⟩

theorem ext_trans {r1 r2 r3 : RefDB} (h12 : Ext r1 r2) (h23 : Ext r2 r3) : Ext r1 r3 := by
  intro o e he
  obtain ⟨e2, he2, hl2, hf2⟩ := h12 o e he
  obtain ⟨e3, he3, hl3, hf3⟩ := h23 o e2 he2
  exact ⟨e3, he3, Nat.le_trans hl3 hl2, sameFrozen_trans hf2 hf3⟩

/-- A database that differs from `refs` only at an offset that is no key of
`refs` extends it. -/
theorem ext_fresh (refs refs2 : RefDB) (k : Nat) (hk : refs.contains k = false)
    (h : ∀ o, o ≠ k → refs2 o = refs o) : Ext refs refs2 := by
  intro o e he
  have hne : o ≠ k := by
    intro heq
    rw [heq, none_of_contains hk] at he
    cases he
  exact ⟨e, by rw [h o hne]; exact he, Nat.le_refl _, sameFrozen_refl e⟩

theorem ext_add (refs : RefDB) (k : Nat) (e : RefElem) (hk : refs.contains k = false) :
    Ext refs (refs.add k e) :=
  ext_fresh refs _ k hk (fun o ho => add_other refs k o e ho)

theorem ext_add_modify (dflt : RefElem) (refs : RefDB) (k : Nat) (e : RefElem)
    (f : RefElem → RefElem) (hk : refs.contains k = false) :
    Ext refs ((refs.add k e).modify dflt k f) :=
  ext_fresh refs _ k hk (fun o ho => by rw [modify_other _ _ _ _ _ ho, add_other _ _ _ _ ho])

theorem ext_relabel (dflt : RefElem) (refs : RefDB) (k : Nat) (l : Label)
    (hle : l.type.ord ≤ (refs.index dflt k).ltype.ord) :
    Ext refs (refs.modify dflt k (setLabel l)) := by
  intro o e he
  by_cases ho : o = k
  · subst ho
    refine ⟨setLabel l e, modify_self _ _ _ _ _ he, ?_, ?_⟩
    · rw [index_of_some he] at hle
      exact hle
    · exact ⟨rfl, rfl, rfl, rfl, rfl, rfl, rfl⟩
  · exact ⟨e, by rw [modify_other _ _ _ _ _ ho]; exact he, Nat.le_refl _, sameFrozen_refl e⟩

/-- Without PC-relative loads a run only adds records and raises label
priorities. -/
theorem runs_ext (env : Env) (hfree : LoadFree env) (task : Task) (refs refs' : RefDB)
    (h : Runs env task refs refs') : TaskFit task → Ext refs refs' := by
  induction h with
  | relabel a l refs hc hle =>
    intro _
    exact ext_relabel _ _ _ _ hle
  | keep a l refs hc hle =>
    intro _
    exact ext_refl _
  | reject a l refs hc hr =>
    intro _
    exact ext_refl _
  | start a l refs refs' hc hb hl _ ih =>
    intro hfit
    exact ih ⟨rfl, hfit⟩
  | undecoded a l offset total reg la ld refs hd =>
    intro _
    exact ext_refl _
  | merged a l offset total reg la ld refs insn hd hc =>
    intro _
    exact ext_refl _
  | plainStop a l offset total reg la ld refs insn hd hc hp =>
    intro _
    exact ext_add _ _ _ hc
  | plainNext a l offset total total' reg la ld refs refs' insn hd hc hp _ ih =>
    intro hfit
    exact ext_trans (ext_add _ _ _ hc) (ih ⟨rfl, hfit.2⟩)
  | callStop a l offset total reg la ld refs refs3 insn t lab str hd hc hdc _ ih =>
    intro hfit
    exact ext_trans (ext_add_modify _ _ _ _ _ hc) (ih (directCall_lt env insn t lab str _ hdc))
  | callNext a l offset total total' reg la ld refs refs3 refs' insn t lab str hd hc hdc _ _
      ih1 ih2 =>
    intro hfit
    exact ext_trans (ext_add_modify _ _ _ _ _ hc)
      (ext_trans (ih1 (directCall_lt env insn t lab str _ hdc)) (ih2 ⟨rfl, hfit.2⟩))
  | indirectStop a l offset total reg la ld refs refs4 insn t lab hd hc hic _ _ =>
    intro hfit
    exact absurd hfit.1 (indirectCall_usesLoad env insn reg ld t lab _ hic).1
  | indirectNext a l offset total total' reg la ld refs refs4 refs' insn t lab hd hc hic _ _ _ _ =>
    intro hfit
    exact absurd hfit.1 (indirectCall_usesLoad env insn reg ld t lab _ hic).1
  | load a l offset total total' reg la ld refs refs' insn hd hc hid hpc _ _ =>
    intro _
    exact absurd hpc (hfree.noLoad offset insn hd hid)
  | scan a l offset total reg la ld refs refs' insn hd hc hid hpc _ ih =>
    intro _
    exact ext_trans (ext_add _ _ _ hc) (ih trivial)
  | tableEnd offset size i min total refs hn =>
    intro _
    exact ext_refl _
  | tableCase offset size i min total total' refs refs1 refs' h1 h2 _ _ ih1 ih2 =>
    intro _
    exact ext_trans (ih1 (tableTarget_lt env offset size i)) (ih2 trivial)

/-! ## Closure under successors -/

theorem contains_mono {refs refs' : RefDB} (h : Ext refs refs') {o : Nat}
    (hc : refs.contains o = true) : refs'.contains o = true := by
  obtain ⟨e, he⟩ := some_of_contains hc
  obtain ⟨e', he', _, _⟩ := h o e he
  exact contains_of_some he'

theorem served_mono (env : Env) {refs refs' : RefDB} (h : Ext refs refs') {t : Nat}
    {K : labeltype} (hs : Served env refs t K) : Served env refs' t K := by
  intro hst
  obtain ⟨e, he, hle⟩ := hs hst
  obtain ⟨e', he', hl, _⟩ := h _ e he
  exact ⟨e', he', Nat.le_trans hl hle⟩

theorem closedAt_mono (env : Env) {refs refs' : RefDB} (h : Ext refs refs') {o : Nat}
    (hc : ClosedAt env refs o) : ClosedAt env refs' o := by
  intro insn hd
  obtain ⟨h1, h2⟩ := hc insn hd
  exact ⟨fun hcont hsome => contains_mono h (h1 hcont hsome),
    fun t K hcall => served_mono env h (h2 t K hcall)⟩

theorem newClosed_refl (env : Env) (refs : RefDB) : NewClosed env refs refs := by
  intro o hn hc
  rw [contains_of_none hn] at hc
  cases hc

theorem newClosed_trans (env : Env) {r1 r2 r3 : RefDB} (h12 : NewClosed env r1 r2)
    (h23 : NewClosed env r2 r3) (hext : Ext r2 r3) : NewClosed env r1 r3 := by
  intro o hn hc
  cases h2 : r2 o with
  | none => exact h23 o h2 hc
  | some e => exact closedAt_mono env hext (h12 o hn (contains_of_some h2))

theorem newClosed_step (env : Env) {refs refs1 refs' : RefDB} (offset : Nat)
    (hsame : ∀ o, o ≠ offset → refs1 o = refs o) (h1 : NewClosed env refs1 refs')
    (hoff : ClosedAt env refs' offset) : NewClosed env refs refs' := by
  intro o hn hc
  by_cases ho : o = offset
  · rw [ho]
    exact hoff
  · exact h1 o (by rw [hsame o ho]; exact hn) hc

theorem newClosed_relabel (env : Env) (refs : RefDB) (k : Nat) (f : RefElem → RefElem)
    (hc : refs.contains k = true) : NewClosed env refs (refs.modify env.dflt k f) := by
  intro o hn hc'
  by_cases ho : o = k
  · rw [ho] at hn
    rw [contains_of_none hn] at hc
    cases hc
  · rw [RefDB.contains, modify_other _ _ _ _ _ ho, hn] at hc'
    cases hc'

theorem closedAt_intro (env : Env) (refs : RefDB) (offset : Nat) (insn : cs_insn)
    (hd : decodeAt env offset = some insn)
    (hflow : continues env insn → (decodeAt env (offset + insn.size)).isSome = true →
      refs.contains (offset + insn.size) = true)
    (hcall : ∀ t K, callOf env offset insn t K → Served env refs t K) :
    ClosedAt env refs offset := by
  intro insn' hd'
  rw [hd] at hd'
  cases hd'
  exact ⟨hflow, hcall⟩

theorem not_continues_plain (env : Env) (insn : cs_insn)
    (h : plainStep insn .INVALID = some true) : ¬ continues env insn := by
  rintro (hp | ⟨t, lab, str, hdc⟩)
  · rw [h] at hp
    cases hp
  · rw [plainStep_directCall env insn _ _ h] at hdc
    cases hdc

theorem not_continues_stop (env : Env) (insn : cs_insn) (t : Nat) (lab : Label) (str : String)
    (h : directCall env insn = some (t, lab, str, true)) : ¬ continues env insn := by
  rintro (hp | ⟨t', lab', str', hdc⟩)
  · rw [directCall_plainStep env insn _ _ h] at hp
    cases hp
  · rw [h] at hdc
    cases hdc

theorem not_continues_table (env : Env) (insn : cs_insn) (hid : insn.id = .TBB)
    (hpc : pcTable insn) : ¬ continues env insn := by
  rintro (hp | ⟨t', lab', str', hdc⟩)
  · rw [table_plainStep insn _ hid hpc] at hp
    cases hp
  · rw [table_directCall env insn hid] at hdc
    cases hdc

theorem no_call_plain (env : Env) (o : Nat) (insn : cs_insn) (reg : arm_reg) (b : Bool)
    (h : plainStep insn reg = some b) (t : Nat) (K : labeltype) :
    ¬ callOf env o insn t K := by
  rintro (⟨lab, str, stop, hdc, _⟩ | ⟨hid, hpc, _, _⟩)
  · rw [plainStep_directCall env insn reg b h] at hdc
    cases hdc
  · exact plainStep_table insn reg b h hid hpc

theorem call_direct (env : Env) (o : Nat) (insn : cs_insn) (t : Nat) (lab : Label)
    (str : String) (stop : Bool) (h : directCall env insn = some (t, lab, str, stop))
    (t' : Nat) (K : labeltype) (hc : callOf env o insn t' K) : t' = t ∧ K = lab.type := by
  rcases hc with ⟨lab', str', stop', hdc, hK⟩ | ⟨hid, _, _, _⟩
  · rw [h] at hdc
    simp only [Option.some.injEq, Prod.mk.injEq] at hdc
    exact ⟨hdc.1.symm, by rw [← hK, hdc.2.1]⟩
  · exact absurd hid (directCall_id env insn _ h)

theorem newInstr_ltype (env : Env) (insn : cs_insn) (a : Nat) (l : Label) (offset : Nat)
    (h : add64 env.base offset = a) : (newInstr env insn a l offset).ltype = l.type := by
  simp [newInstr, h]

/-- What the decode loop has served once its first record is in `refs1`. -/
theorem served_loop (env : Env) (a : Nat) (l : Label) (offset total : Nat) (reg : arm_reg)
    (la ld : Nat) (refs refs1 refs' : RefDB) (e1 : RefElem) (h1 : refs1 offset = some e1)
    (hl : add64 env.base offset = a → e1.ltype = l.type) (hext : Ext refs1 refs') :
    TaskServed env (.loop a l offset total reg la ld) refs refs' := by
  obtain ⟨e', he', hle, _⟩ := hext offset e1 h1
  refine ⟨fun _ => contains_of_some he', ?_⟩
  intro _ ha e he
  rw [he'] at he
  cases he
  rw [← hl ha]
  exact hle

/-- Without PC-relative loads, when a run returns every key it has added has
its successors in the RefDB, and the task itself has been served. -/
theorem runs_closed (env : Env) (hfree : LoadFree env) (task : Task) (refs refs' : RefDB)
    (h : Runs env task refs refs') :
    TaskFit task → NewClosed env refs refs' ∧ TaskServed env task refs refs' := by
  induction h with
  | relabel a l refs hc hle =>
    intro _
    refine ⟨newClosed_relabel env refs _ _ hc, ?_⟩
    intro _
    obtain ⟨e, he⟩ := some_of_contains hc
    exact ⟨setLabel l e, modify_self _ _ _ _ _ he, Nat.le_refl _⟩
  | keep a l refs hc hle =>
    intro _
    refine ⟨newClosed_refl env refs, ?_⟩
    intro _
    obtain ⟨e, he⟩ := some_of_contains hc
    rw [index_of_some he] at hle
    exact ⟨e, he, by omega⟩
  | reject a l refs hc hr =>
    intro _
    refine ⟨newClosed_refl env refs, ?_⟩
    intro hst
    obtain ⟨h1, h2, _⟩ := hst
    omega
  | start a l refs refs' hc hb hl _ ih =>
    intro hfit
    obtain ⟨hnew, hs1, hs2⟩ := ih ⟨rfl, hfit⟩
    refine ⟨hnew, ?_⟩
    intro hst
    obtain ⟨e, he⟩ := some_of_contains (hs1 hst.2.2)
    exact ⟨e, he, hs2 hc (add64_sub64 a env.base hfit) e he⟩
  | undecoded a l offset total reg la ld refs hd =>
    intro _
    refine ⟨newClosed_refl env refs, ?_, ?_⟩
    · intro hs
      rw [hd] at hs
      cases hs
    · intro hc _ e he
      rw [none_of_contains hc] at he
      cases he
  | merged a l offset total reg la ld refs insn hd hc =>
    intro _
    refine ⟨newClosed_refl env refs, fun _ => hc, ?_⟩
    intro hc'
    rw [hc] at hc'
    cases hc'
  | plainStop a l offset total reg la ld refs insn hd hc hp =>
    intro hfit
    rw [hfit.1] at hp
    constructor
    · apply newClosed_step env offset (fun o ho => add_other refs offset o _ ho)
        (newClosed_refl env _)
      exact closedAt_intro env _ offset insn hd
        (fun hcont => absurd hcont (not_continues_plain env insn hp))
        (fun t K hcall => absurd hcall (no_call_plain env offset insn _ _ hp t K))
    · exact served_loop env a l offset total _ la ld refs _ _ _ (add_self refs offset _)
        (newInstr_ltype env insn a l offset) (ext_refl _)
  | plainNext a l offset total total' reg la ld refs refs' insn hd hc hp hrun ih =>
    intro hfit
    rw [hfit.1] at hp
    obtain ⟨hnew, hs1, _⟩ := ih ⟨rfl, hfit.2⟩
    have hext := runs_ext env hfree _ _ _ hrun ⟨rfl, hfit.2⟩
    constructor
    · apply newClosed_step env offset (fun o ho => add_other refs offset o _ ho) hnew
      exact closedAt_intro env _ offset insn hd (fun _ hsome => hs1 hsome)
        (fun t K hcall => absurd hcall (no_call_plain env offset insn _ _ hp t K))
    · exact served_loop env a l offset total _ la ld refs _ _ _ (add_self refs offset _)
        (newInstr_ltype env insn a l offset) hext
  | callStop a l offset total reg la ld refs refs3 insn t lab str hd hc hdc hrun ih =>
    intro hfit
    have ht := directCall_lt env insn t lab str _ hdc
    obtain ⟨hnew, hserved⟩ := ih ht
    have hext := runs_ext env hfree _ _ _ hrun ht
    constructor
    · apply newClosed_step env offset
        (fun o ho => by rw [modify_other _ _ _ _ _ ho, add_other _ _ _ _ ho]) hnew
      refine closedAt_intro env _ offset insn hd
        (fun hcont => absurd hcont (not_continues_stop env insn t lab str hdc)) ?_
      intro t' K hcall
      obtain ⟨rfl, rfl⟩ := call_direct env offset insn t lab str _ hdc t' K hcall
      exact hserved
    · exact served_loop env a l offset total _ la ld refs _ _ _
        (add_modify_self _ refs offset _ _) (newInstr_ltype env insn a l offset) hext
  | callNext a l offset total total' reg la ld refs refs3 refs' insn t lab str hd hc hdc
      hrun1 hrun2 ih1 ih2 =>
    intro hfit
    have ht := directCall_lt env insn t lab str _ hdc
    obtain ⟨hnew1, hserved⟩ := ih1 ht
    obtain ⟨hnew2, hs1, _⟩ := ih2 ⟨rfl, hfit.2⟩
    have hext1 := runs_ext env hfree _ _ _ hrun1 ht
    have hext2 := runs_ext env hfree _ _ _ hrun2 ⟨rfl, hfit.2⟩
    constructor
    · apply newClosed_step env offset
        (fun o ho => by rw [modify_other _ _ _ _ _ ho, add_other _ _ _ _ ho])
        (newClosed_trans env hnew1 hnew2 hext2)
      refine closedAt_intro env _ offset insn hd (fun _ hsome => hs1 hsome) ?_
      intro t' K hcall
      obtain ⟨rfl, rfl⟩ := call_direct env offset insn t lab str _ hdc t' K hcall
      exact served_mono env hext2 hserved
    · exact served_loop env a l offset total _ la ld refs _ _ _
        (add_modify_self _ refs offset _ _) (newInstr_ltype env insn a l offset)
        (ext_trans hext1 hext2)
  | indirectStop a l offset total reg la ld refs refs4 insn t lab hd hc hic _ _ =>
    intro hfit
    exact absurd hfit.1 (indirectCall_usesLoad env insn reg ld t lab _ hic).1
  | indirectNext a l offset total total' reg la ld refs refs4 refs' insn t lab hd hc hic _ _ _ _ =>
    intro hfit
    exact absurd hfit.1 (indirectCall_usesLoad env insn reg ld t lab _ hic).1
  | load a l offset total total' reg la ld refs refs' insn hd hc hid hpc _ _ =>
    intro _
    exact absurd hpc (hfree.noLoad offset insn hd hid)
  | scan a l offset total reg la ld refs refs' insn hd hc hid hpc hrun ih =>
    intro hfit
    obtain ⟨hnew, hserved⟩ := ih trivial
    have hext := runs_ext env hfree _ _ _ hrun trivial
    constructor
    · apply newClosed_step env offset (fun o ho => add_other refs offset o _ ho) hnew
      refine closedAt_intro env _ offset insn hd
        (fun hcont => absurd hcont (not_continues_table env insn hid hpc)) ?_
      rintro t' K (⟨lab, str, stop, hdc, _⟩ | ⟨_, _, htc, rfl⟩)
      · rw [table_directCall env insn hid] at hdc
        cases hdc
      · exact hserved t' htc
    · exact served_loop env a l offset total _ la ld refs _ _ _ (add_self refs offset _)
        (newInstr_ltype env insn a l offset) hext
  | tableEnd offset size i min total refs hn =>
    intro _
    refine ⟨newClosed_refl env refs, ?_⟩
    intro t htc
    cases htc with
    | here _ _ h1 h2 => exact absurd ⟨h1, h2⟩ hn
    | later _ _ _ h1 h2 _ => exact absurd ⟨h1, h2⟩ hn
  | tableCase offset size i min total total' refs refs1 refs' h1 h2 hrun1 hrun2 ih1 ih2 =>
    intro _
    obtain ⟨hnew1, hserved1⟩ := ih1 (tableTarget_lt env offset size i)
    obtain ⟨hnew2, hserved2⟩ := ih2 trivial
    have hext2 := runs_ext env hfree _ _ _ hrun2 trivial
    refine ⟨newClosed_trans env hnew1 hnew2 hext2, ?_⟩
    intro t htc
    cases htc with
    | here _ _ _ _ => exact served_mono env hext2 hserved1
    | later _ _ _ _ _ hrest => exact hserved2 t hrest

/-! ## Soundness of the records -/

theorem reach_of_madeCall (env : Env) (E : Nat → Prop) (t : Nat) (K : labeltype)
    (h : MadeCall env E t K) (hst : Starts env t) : Reach env E (sub64 t env.base) := by
  rcases h with ⟨hE, _⟩ | ⟨o, insn, hr, hd, hcall⟩
  · exact Reach.entry t hE hst
  · exact Reach.call o insn t K hr hd hcall hst

theorem static_plain (env : Env) (insn : cs_insn) (a : Nat) (l : Label) (offset : Nat)
    (h : directCall env insn = none) :
    sameFrozen (newInstr env insn a l offset) (staticElem env insn) := by
  simp only [staticElem, h]
  exact ⟨rfl, rfl, rfl, rfl, rfl, rfl, rfl⟩

theorem static_call (env : Env) (insn : cs_insn) (a : Nat) (l : Label) (offset t : Nat)
    (lab : Label) (str : String) (stop : Bool)
    (h : directCall env insn = some (t, lab, str, stop)) :
    sameFrozen (setTarget t str (newInstr env insn a l offset)) (staticElem env insn) := by
  simp only [staticElem, h]
  exact ⟨rfl, rfl, rfl, rfl, rfl, rfl, rfl⟩

/-- The label kind of a freshly stored instruction record is justified. -/
theorem just_new (env : Env) (hfree : LoadFree env) (E : Nat → Prop) (insn : cs_insn)
    (a : Nat) (l : Label) (offset : Nat) (hd : decodeAt env offset = some insn)
    (hm : MadeCall env E a l.type) :
    (newInstr env insn a l offset).ltype = .LNONE ∨
      ∃ t, MadeCall env E t (newInstr env insn a l offset).ltype ∧ sub64 t env.base = offset := by
  by_cases ha : add64 env.base offset = a
  · right
    refine ⟨a, ?_, ?_⟩
    · rw [newInstr_ltype env insn a l offset ha]
      exact hm
    · rw [← ha]
      apply sub64_add64
      have h1 := hfree.inImage offset insn hd
      have h2 := hfree.small
      omega
  · left
    simp [newInstr, ha]

/-- Storing a sound record at one offset keeps the database sound. -/
theorem sound_insert (env : Env) (E : Nat → Prop) (refs refs1 : RefDB) (offset : Nat)
    (e : RefElem) (hs : Sound env E refs) (hsame : ∀ o, o ≠ offset → refs1 o = refs o)
    (he : refs1 offset = some e) (hreach : Reach env E offset)
    (hstat : ∃ insn, decodeAt env offset = some insn ∧ sameFrozen e (staticElem env insn))
    (hjust : e.ltype = .LNONE ∨ ∃ t, MadeCall env E t e.ltype ∧ sub64 t env.base = offset) :
    Sound env E refs1 := by
  intro o e' he'
  by_cases ho : o = offset
  · subst ho
    rw [he] at he'
    cases he'
    exact ⟨hreach, hstat, hjust⟩
  · rw [hsame o ho] at he'
    exact hs o e' he'

theorem sound_relabel (env : Env) (E : Nat → Prop) (refs : RefDB) (t : Nat) (l : Label)
    (hs : Sound env E refs) (hc : refs.contains (sub64 t env.base) = true)
    (hm : MadeCall env E t l.type) :
    Sound env E (refs.modify env.dflt (sub64 t env.base) (setLabel l)) := by
  obtain ⟨e, he⟩ := some_of_contains hc
  obtain ⟨hr, ⟨insn, hd, hf⟩, _⟩ := hs _ e he
  exact sound_insert env E refs _ _ (setLabel l e) hs
    (fun o ho => modify_other _ _ _ _ _ ho) (modify_self _ _ _ _ _ he) hr
    ⟨insn, hd, hf⟩ (Or.inr ⟨t, hm, rfl⟩)

/-- Without PC-relative loads a run from the entries `E` keeps the RefDB sound:
records only at reachable offsets, each the record of its instruction, each
kind that of a call made. -/
theorem runs_sound (env : Env) (hfree : LoadFree env) (E : Nat → Prop) (task : Task)
    (refs refs' : RefDB) (h : Runs env task refs refs') :
    TaskFit task → TaskJust env E task → Sound env E refs → Sound env E refs' := by
  induction h with
  | relabel a l refs hc hle =>
    intro _ hj hs
    exact sound_relabel env E refs a l hs hc hj
  | keep a l refs hc hle =>
    intro _ _ hs
    exact hs
  | reject a l refs hc hr =>
    intro _ _ hs
    exact hs
  | start a l refs refs' hc hb hl _ ih =>
    intro hfit hj hs
    exact ih ⟨rfl, hfit⟩ ⟨hj, fun hsome => reach_of_madeCall env E a l.type hj ⟨hb, hl, hsome⟩⟩ hs
  | undecoded a l offset total reg la ld refs hd =>
    intro _ _ hs
    exact hs
  | merged a l offset total reg la ld refs insn hd hc =>
    intro _ _ hs
    exact hs
  | plainStop a l offset total reg la ld refs insn hd hc hp =>
    intro hfit hj hs
    have hreach := hj.2 (by rw [hd]; rfl)
    exact sound_insert env E refs _ offset _ hs (fun o ho => add_other refs offset o _ ho)
      (add_self refs offset _) hreach
      ⟨insn, hd, static_plain env insn a l offset (plainStep_directCall env insn _ _ hp)⟩
      (just_new env hfree E insn a l offset hd hj.1)
  | plainNext a l offset total total' reg la ld refs refs' insn hd hc hp _ ih =>
    intro hfit hj hs
    have hreach := hj.2 (by rw [hd]; rfl)
    rw [hfit.1] at hp
    refine ih ⟨rfl, hfit.2⟩
      ⟨hj.1, fun hsome => Reach.flow offset insn hreach hd (Or.inl hp) hsome⟩ ?_
    exact sound_insert env E refs _ offset _ hs (fun o ho => add_other refs offset o _ ho)
      (add_self refs offset _) hreach
      ⟨insn, hd, static_plain env insn a l offset (plainStep_directCall env insn _ _ hp)⟩
      (just_new env hfree E insn a l offset hd hj.1)
  | callStop a l offset total reg la ld refs refs3 insn t lab str hd hc hdc _ ih =>
    intro hfit hj hs
    have hreach := hj.2 (by rw [hd]; rfl)
    refine ih (directCall_lt env insn t lab str _ hdc)
      (Or.inr ⟨offset, insn, hreach, hd, Or.inl ⟨lab, str, _, hdc, rfl⟩⟩) ?_
    exact sound_insert env E refs _ offset _ hs
      (fun o ho => by rw [modify_other _ _ _ _ _ ho, add_other _ _ _ _ ho])
      (add_modify_self _ refs offset _ _) hreach
      ⟨insn, hd, static_call env insn a l offset t lab str _ hdc⟩
      (just_new env hfree E insn a l offset hd hj.1)
  | callNext a l offset total total' reg la ld refs refs3 refs' insn t lab str hd hc hdc _ _
      ih1 ih2 =>
    intro hfit hj hs
    have hreach := hj.2 (by rw [hd]; rfl)
    refine ih2 ⟨rfl, hfit.2⟩
      ⟨hj.1, fun hsome => Reach.flow offset insn hreach hd (Or.inr ⟨t, lab, str, hdc⟩) hsome⟩ ?_
    refine ih1 (directCall_lt env insn t lab str _ hdc)
      (Or.inr ⟨offset, insn, hreach, hd, Or.inl ⟨lab, str, _, hdc, rfl⟩⟩) ?_
    exact sound_insert env E refs _ offset _ hs
      (fun o ho => by rw [modify_other _ _ _ _ _ ho, add_other _ _ _ _ ho])
      (add_modify_self _ refs offset _ _) hreach
      ⟨insn, hd, static_call env insn a l offset t lab str _ hdc⟩
      (just_new env hfree E insn a l offset hd hj.1)
  | indirectStop a l offset total reg la ld refs refs4 insn t lab hd hc hic _ _ =>
    intro hfit
    exact absurd hfit.1 (indirectCall_usesLoad env insn reg ld t lab _ hic).1
  | indirectNext a l offset total total' reg la ld refs refs4 refs' insn t lab hd hc hic _ _ _ _ =>
    intro hfit
    exact absurd hfit.1 (indirectCall_usesLoad env insn reg ld t lab _ hic).1
  | load a l offset total total' reg la ld refs refs' insn hd hc hid hpc _ _ =>
    intro _
    exact absurd hpc (hfree.noLoad offset insn hd hid)
  | scan a l offset total reg la ld refs refs' insn hd hc hid hpc _ ih =>
    intro hfit hj hs
    have hreach := hj.2 (by rw [hd]; rfl)
    refine ih trivial ⟨hreach, insn, hd, hid, hpc, rfl, fun t ht => ht⟩ ?_
    exact sound_insert env E refs _ offset _ hs (fun o ho => add_other refs offset o _ ho)
      (add_self refs offset _) hreach
      ⟨insn, hd, static_plain env insn a l offset (table_directCall env insn hid)⟩
      (just_new env hfree E insn a l offset hd hj.1)
  | tableEnd offset size i min total refs hn =>
    intro _ _ hs
    exact hs
  | tableCase offset size i min total total' refs refs1 refs' h1 h2 _ _ ih1 ih2 =>
    intro _ hj hs
    obtain ⟨hreach, insn, hd, hid, hpc, hsz, hsub⟩ := hj
    refine ih2 trivial
      ⟨hreach, insn, hd, hid, hpc, hsz, fun t ht => hsub t (TableCall.later i min t h1 h2 ht)⟩ ?_
    refine ih1 (tableTarget_lt env offset size i) ?_ hs
    refine Or.inr ⟨offset, insn, hreach, hd, Or.inr ⟨hid, hpc, ?_, rfl⟩⟩
    rw [hsz]
    exact hsub _ (TableCall.here i min h1 h2)

/-! ## Order independence without PC-relative loads -/

theorem ord_le_four (K : labeltype) : K.ord ≤ 4 := by
  cases K <;> decide

theorem ord_injective (K K' : labeltype) (h : K.ord = K'.ord) : K = K' := by
  cases K <;> cases K' <;> first | rfl | (exact absurd h (by decide))

theorem base_le_of_sub64 (env : Env) (hfree : LoadFree env) (t : Nat) (ht : t < 2 ^ 64)
    (hk : sub64 t env.base < env.image.length) : env.base ≤ t := by
  have h := hfree.small
  unfold sub64 at hk
  omega

theorem callOf_lt (env : Env) (o : Nat) (insn : cs_insn) (t : Nat) (K : labeltype)
    (h : callOf env o insn t K) : t < 2 ^ 64 := by
  rcases h with ⟨lab, str, stop, hdc, _⟩ | ⟨_, _, htc, _⟩
  · exact directCall_lt env insn t lab str stop hdc
  · cases htc with
    | here _ _ _ _ => exact tableTarget_lt env o insn.size 0
    | later _ _ _ _ _ hrest =>
      clear * - hrest
      generalize hi : 0 + 1 = i at hrest
      generalize hm : tableTarget env o insn.size 0 = m at hrest
      clear hi hm
      induction hrest with
      | here i min _ _ => exact tableTarget_lt env o insn.size i
      | later i min t _ _ _ ih => exact ih

theorem madeCall_lt (env : Env) (E : Nat → Prop) (hE : ∀ a, E a → a < 2 ^ 64) (t : Nat)
    (K : labeltype) (h : MadeCall env E t K) : t < 2 ^ 64 := by
  rcases h with ⟨ha, _⟩ | ⟨o, insn, _, _, hcall⟩
  · exact hE t ha
  · exact callOf_lt env o insn t K hcall

/-- A closed RefDB has a record at every reachable offset. -/
theorem reach_contains (env : Env) (E : Nat → Prop) (refs : RefDB) (hc : Closed env E refs)
    (o : Nat) (h : Reach env E o) : refs.contains o = true := by
  induction h with
  | entry a ha hst =>
    obtain ⟨e, he, _⟩ := hc.1 a ha hst
    exact contains_of_some he
  | flow o insn _ hd hcont hsome ih => exact ((hc.2 o ih) insn hd).1 hcont hsome
  | call o insn t K _ hd hcall hst ih =>
    obtain ⟨e, he, _⟩ := ((hc.2 o ih) insn hd).2 t K hcall hst
    exact contains_of_some he

/-- In a closed RefDB a record has at least the priority it has in a sound
one. -/
theorem ltype_le_of_closed (env : Env) (hfree : LoadFree env) (E : Nat → Prop)
    (hE : ∀ a, E a → a < 2 ^ 64) (F1 F2 : RefDB) (hs1 : Sound env E F1)
    (hc2 : Closed env E F2) (o : Nat) (e1 e2 : RefElem) (h1 : F1 o = some e1)
    (h2 : F2 o = some e2) : e2.ltype.ord ≤ e1.ltype.ord := by
  obtain ⟨_, ⟨insn, hd, _⟩, hj⟩ := hs1 o e1 h1
  rcases hj with hn | ⟨t, hm, hk⟩
  · rw [hn]
    exact ord_le_four _
  · have ht := madeCall_lt env E hE t _ hm
    have hlen := hfree.inImage o insn hd
    have hst : Starts env t := by
      refine ⟨base_le_of_sub64 env hfree t ht (by rw [hk]; exact hlen), by rw [hk]; exact hlen, ?_⟩
      rw [hk, hd]
      rfl
    have hserved : Served env F2 t e1.ltype := by
      rcases hm with ⟨ha, hK⟩ | ⟨o', insn', hr, hd', hcall⟩
      · rw [hK]
        exact hc2.1 t ha
      · exact ((hc2.2 o' (reach_contains env E F2 hc2 o' hr)) insn' hd').2 t _ hcall
    obtain ⟨e, he, hle⟩ := hserved hst
    rw [hk, h2] at he
    cases he
    exact hle

/-- Two RefDBs that are both sound and closed for the same entries agree up to
label strings. -/
theorem agree_of_closed_sound (env : Env) (hfree : LoadFree env) (E : Nat → Prop)
    (hE : ∀ a, E a → a < 2 ^ 64) (F1 F2 : RefDB) (hs1 : Sound env E F1)
    (hc1 : Closed env E F1) (hs2 : Sound env E F2) (hc2 : Closed env E F2) :
    AgreeModLabels F1 F2 := by
  intro o
  constructor
  · cases h1 : F1 o with
    | none =>
      cases h2 : F2 o with
      | none => rfl
      | some e2 =>
        have := reach_contains env E F1 hc1 o (hs2 o e2 h2).1
        rw [contains_of_none h1] at this
        cases this
    | some e1 =>
      have := reach_contains env E F2 hc2 o (hs1 o e1 h1).1
      obtain ⟨e2, he2⟩ := some_of_contains this
      rw [he2]
      rfl
  · intro e1 e2 h1 h2
    obtain ⟨_, ⟨insn1, hd1, hf1⟩, _⟩ := hs1 o e1 h1
    obtain ⟨_, ⟨insn2, hd2, hf2⟩, _⟩ := hs2 o e2 h2
    rw [hd1] at hd2
    cases hd2
    refine ⟨sameFrozen_trans hf1 (sameFrozen_symm hf2), ord_injective _ _ ?_⟩
    have ha := ltype_le_of_closed env hfree E hE F1 F2 hs1 hc2 o e1 e2 h1 h2
    have hb := ltype_le_of_closed env hfree E hE F2 F1 hs2 hc1 o e2 e1 h2 h1
    omega

/-- A sequence of entries among `E` keeps the RefDB sound, keeps every key
closed, and serves each of its entries. -/
theorem addEntries_closed_sound (env : Env) (hfree : LoadFree env) (fuel : Nat)
    (E : Nat → Prop) (hE : ∀ a, E a → a < 2 ^ 64) :
    ∀ (calls : List (Nat × String)) (refs refs' : RefDB) (served : Nat → Prop),
      (∀ c ∈ calls, E c.1) → addEntries env fuel refs calls = some refs' →
      Sound env E refs → Closed env served refs →
      Sound env E refs' ∧ Closed env (fun a => served a ∨ ∃ n, (a, n) ∈ calls) refs' := by
  intro calls
  induction calls with
  | nil =>
    intro refs refs' served _ h hs hc
    simp only [addEntries, Option.some.injEq] at h
    subst h
    refine ⟨hs, ?_, hc.2⟩
    rintro a (ha | ⟨n, hn⟩)
    · exact hc.1 a ha
    · simp at hn
  | cons c rest ih =>
    intro refs refs' served hcalls h hs hc
    obtain ⟨a, name⟩ := c
    simp only [addEntries] at h
    split at h
    · next refs1 n1 hr =>
      have hEa : E a := hcalls (a, name) (List.mem_cons_self _ _)
      have hrun := run_runs env fuel _ refs refs1 n1 hr
      have hfit : TaskFit (.enter a ⟨.NAMED, if name = "" then "loc_" ++ env.HEX a else name⟩) :=
        hE a hEa
      have hext := runs_ext env hfree _ _ _ hrun hfit
      obtain ⟨hnew, hserved⟩ := runs_closed env hfree _ _ _ hrun hfit
      have hs1 := runs_sound env hfree E _ _ _ hrun hfit (Or.inl ⟨hEa, rfl⟩) hs
      have hc1 : Closed env (fun b => served b ∨ b = a) refs1 := by
        constructor
        · rintro b (hb | rfl)
          · exact served_mono env hext (hc.1 b hb)
          · exact hserved
        · intro o ho
          cases hro : refs o with
          | none => exact hnew o hro ho
          | some e => exact closedAt_mono env hext (hc.2 o (contains_of_some hro))
      obtain ⟨hs', hc'⟩ := ih refs1 refs' _ (fun c hc => hcalls c (List.mem_cons_of_mem _ hc))
        h hs1 hc1
      refine ⟨hs', ?_, hc'.2⟩
      rintro b (hb | ⟨n, hn⟩)
      · exact hc'.1 b (Or.inl (Or.inl hb))
      · rcases List.mem_cons.mp hn with heq | hmem
        · simp only [Prod.mk.injEq] at heq
          exact hc'.1 b (Or.inl (Or.inr heq.1))
        · exact hc'.1 b (Or.inr ⟨n, hmem⟩)
    · simp at h
    · simp at h

theorem sound_empty (env : Env) (E : Nat → Prop) : Sound env E RefDB.empty := by
  intro o e he
  simp [RefDB.empty] at he

theorem closed_empty (env : Env) : Closed env (fun _ => False) RefDB.empty := by
  constructor
  · intro a ha
    exact absurd ha id
  · intro o ho
    simp [RefDB.empty, RefDB.contains] at ho

/-- Claim C10 as stated fails: on `ldrBxImage` the entries `0x1000` then
`0x1002` resolve the `bx r3` to an `F_TARGET` and decode its target at offset
8, while the entries `0x1002` then `0x1000` leave the `bx r3` an `F_STRING`
and offset 8 without a record. -/
theorem order_dependent_counterexample :
    ∃ refsA refsB,
      addEntries (thumbEnv 0x1000 ldrBxImage) 9 RefDB.empty
        [(0x1000, "a"), (0x1002, "b")] = some refsA ∧
      addEntries (thumbEnv 0x1000 ldrBxImage) 9 RefDB.empty
        [(0x1002, "b"), (0x1000, "a")] = some refsB ∧
      (refsA 2).map (fun e => e.ftype) = some .F_TARGET ∧
      (refsB 2).map (fun e => e.ftype) = some .F_STRING ∧
      (refsA 8).isSome = true ∧ (refsB 8).isSome = false :=
  ⟨_, _, rfl, rfl, by decide!, by decide!, by decide!, by decide!⟩

/-- Claim C10, amended. Order independence modulo labels without PC-relative
loads: for an image that lies inside the 64-bit address space and a decoder
that decodes nothing past the image's last byte and never yields a
PC-relative LDR, any two orderings of the same `addEntry` calls (at 64-bit
addresses) that both return from an empty RefDB give RefDBs with the same keys
that agree at every key on `type`, `size`, `ltype`, `ftype`, `str`, `suffix`,
`target` and `flags`; only label strings may differ. -/
theorem addEntries_order_independent (env : Env) (hfree : LoadFree env) (fuel1 fuel2 : Nat)
    (calls1 calls2 : List (Nat × String)) (hperm : calls1.Perm calls2)
    (haddr : ∀ c ∈ calls1, c.1 < 2 ^ 64) (refs1 refs2 : RefDB)
    (h1 : addEntries env fuel1 RefDB.empty calls1 = some refs1)
    (h2 : addEntries env fuel2 RefDB.empty calls2 = some refs2) :
    AgreeModLabels refs1 refs2 := by
  have hE : ∀ a, (∃ n, (a, n) ∈ calls1) → a < 2 ^ 64 := fun a ⟨n, hn⟩ => haddr (a, n) hn
  obtain ⟨hs1, hc1⟩ := addEntries_closed_sound env hfree fuel1 (fun a => ∃ n, (a, n) ∈ calls1) hE
    calls1 RefDB.empty refs1 (fun _ => False) (fun c hc => ⟨c.2, hc⟩) h1
    (sound_empty env _) (closed_empty env)
  obtain ⟨hs2, hc2⟩ := addEntries_closed_sound env hfree fuel2 (fun a => ∃ n, (a, n) ∈ calls1) hE
    calls2 RefDB.empty refs2 (fun _ => False) (fun c hc => ⟨c.2, hperm.mem_iff.mpr hc⟩) h2
    (sound_empty env _) (closed_empty env)
  refine agree_of_closed_sound env hfree (fun a => ∃ n, (a, n) ∈ calls1) hE refs1 refs2 hs1
    ⟨fun a ha => hc1.1 a (Or.inr ha), hc1.2⟩ hs2
    ⟨fun a ⟨n, hn⟩ => hc2.1 a (Or.inr ⟨n, hperm.mem_iff.mp hn⟩), hc2.2⟩

theorem skipImage_past (o : Nat) (h : 6 ≤ o) :
    decodeAt (thumbEnv 0x1000 skipImage) o = none := by
  have hnil : List.drop o skipImage = [] := List.drop_eq_nil_of_le (by simp [skipImage]; omega)
  simp [decodeAt, thumbEnv, hnil, thumbDecode]

/-- On `skipImage` the subset decoder meets the conditions of `LoadFree`. -/
theorem skipImage_loadFree : LoadFree (thumbEnv 0x1000 skipImage) where
  noLoad := by
    intro o insn hd hid
    have hall : ∀ o, o < 6 →
        ((decodeAt (thumbEnv 0x1000 skipImage) o).map fun i => decide (i.id ≠ .LDR)).getD true
          = true := by decide!
    by_cases h6 : o < 6
    · have h := hall o h6
      rw [hd] at h
      simp at h
      exact absurd hid h
    · rw [skipImage_past o (by omega)] at hd
      cases hd
  inImage := by
    intro o insn hd
    by_contra h
    rw [skipImage_past o (by simp [thumbEnv, skipImage] at h; omega)] at hd
    cases hd
  small := by decide

/-- Witness for C10 amended: `skipImage` entered at `0x1000` and `0x1002` in
both orders. -/
theorem addEntries_order_independent_witness :
    ∃ refs1 refs2,
      addEntries (thumbEnv 0x1000 skipImage) 9 RefDB.empty
        [(0x1000, "main"), (0x1002, "pad")] = some refs1 ∧
      addEntries (thumbEnv 0x1000 skipImage) 9 RefDB.empty
        [(0x1002, "pad"), (0x1000, "main")] = some refs2 ∧
      AgreeModLabels refs1 refs2 :=
  ⟨_, _, rfl, rfl,
    addEntries_order_independent (thumbEnv 0x1000 skipImage) skipImage_loadFree 9 9
      [(0x1000, "main"), (0x1002, "pad")] [(0x1002, "pad"), (0x1000, "main")]
      (List.Perm.swap _ _ _)
      (by
        intro c hc
        simp only [List.mem_cons, List.mem_singleton, List.not_mem_nil, or_false] at hc
        rcases hc with rfl | rfl <;> decide)
      _ _ rfl rfl⟩

/-! ## Records that stay as they are -/

theorem sameText_refl (e : RefElem) : sameText e e := ⟨rfl, rfl, rfl, rfl, rfl, rfl⟩

theorem sameText_trans {e1 e2 e3 : RefElem} (h1 : sameText e1 e2) (h2 : sameText e2 e3) :
    sameText e1 e3 := by
  obtain ⟨a1, a2, a3, a4, a5, a6⟩ := h1
  obtain ⟨b1, b2, b3, b4, b5, b6⟩ := h2
  exact ⟨a1.trans b1, a2.trans b2, a3.trans b3, a4.trans b4, a5.trans b5, a6.trans b6⟩

theorem newLiteral_mono (env : Env) (S r r' : RefDB) (o : Nat)
    (hk : ∀ k, r.contains k = true → r'.contains k = true) (h : NewLiteral env S r o) :
    NewLiteral env S r' o := by
  obtain ⟨offset, insn, h1, h2, h3⟩ := h
  exact ⟨offset, insn, h1, hk _ h2, h3⟩

theorem frozen_keys (env : Env) {S r r' : RefDB} (h : Frozen env S r r') (k : Nat)
    (hk : r.contains k = true) : r'.contains k = true := by
  obtain ⟨e, he⟩ := some_of_contains hk
  obtain ⟨e', he', _⟩ := h k e he
  exact contains_of_some he'

/-- The offsets that are no key after a step that keeps the records were no
key before it. -/
theorem frozen_none (env : Env) {S r r' : RefDB} (h : Frozen env S r r')
    (hS : ∀ o, r o = none → S o = none) : ∀ o, r' o = none → S o = none := by
  intro o ho
  apply hS
  cases hx : r o with
  | none => rfl
  | some e =>
    obtain ⟨e', he', _⟩ := h o e hx
    rw [ho] at he'
    cases he'

theorem frozen_refl (env : Env) (S r : RefDB) : Frozen env S r r :=
  fun _ e he => ⟨e, he, Or.inr ⟨sameText_refl e, Or.inl rfl⟩⟩

theorem frozen_trans (env : Env) {S r1 r2 r3 : RefDB} (h12 : Frozen env S r1 r2)
    (h23 : Frozen env S r2 r3) : Frozen env S r1 r3 := by
  intro o e he
  obtain ⟨e2, he2, h2⟩ := h12 o e he
  obtain ⟨e3, he3, h3⟩ := h23 o e2 he2
  refine ⟨e3, he3, ?_⟩
  rcases h3 with h3 | ⟨hs3, hf3⟩
  · exact Or.inl h3
  · rcases h2 with h2 | ⟨hs2, hf2⟩
    · exact Or.inl (newLiteral_mono env S r2 r3 o (frozen_keys env h23) h2)
    · refine Or.inr ⟨sameText_trans hs2 hs3, ?_⟩
      rcases hf2 with hf2 | hf2 <;> rcases hf3 with hf3 | hf3
      · exact Or.inl (hf3.trans hf2)
      · exact Or.inr (by rw [hf3, hf2])
      · exact Or.inr (by rw [hf3, hf2])
      · exact Or.inr (by rw [hf3, hf2, Nat.lor_assoc, Nat.or_self])

/-- A database that differs from `refs` only at an offset that is no key of
`refs` keeps the records of `refs`. -/
theorem frozen_fresh (env : Env) (S refs refs2 : RefDB) (k : Nat)
    (hk : refs.contains k = false) (h : ∀ o, o ≠ k → refs2 o = refs o) :
    Frozen env S refs refs2 := by
  intro o e he
  have hne : o ≠ k := by
    intro heq
    rw [heq, none_of_contains hk] at he
    cases he
  exact ⟨e, by rw [h o hne]; exact he, Or.inr ⟨sameText_refl e, Or.inl rfl⟩⟩

/-- An assignment that touches neither the fields of `sameText` nor any flag
but `THUMBFUNC` keeps the records. -/
theorem frozen_modify (env : Env) (S refs : RefDB) (k : Nat) (f : RefElem → RefElem)
    (hf : ∀ e, sameText e (f e) ∧ ((f e).flags = e.flags ∨ (f e).flags = e.flags ||| THUMBFUNC)) :
    Frozen env S refs (refs.modify env.dflt k f) := by
  intro o e he
  by_cases ho : o = k
  · subst ho
    exact ⟨f e, modify_self _ _ _ _ _ he, Or.inr (hf e)⟩
  · exact ⟨e, by rw [modify_other _ _ _ _ _ ho]; exact he,
      Or.inr ⟨sameText_refl e, Or.inl rfl⟩⟩

/-- A database that differs from `refs` only at the literal offset of a load
recorded since `S`, where it has a record, keeps the other records. -/
theorem frozen_literal (env : Env) (S refs refs2 : RefDB) (k : Nat)
    (hl : NewLiteral env S refs2 k) (hk : refs2.contains k = true)
    (h : ∀ o, o ≠ k → refs2 o = refs o) : Frozen env S refs refs2 := by
  intro o e he
  by_cases ho : o = k
  · subst ho
    obtain ⟨e', he'⟩ := some_of_contains hk
    exact ⟨e', he', Or.inl hl⟩
  · exact ⟨e, by rw [h o ho]; exact he, Or.inr ⟨sameText_refl e, Or.inl rfl⟩⟩

theorem contains_modify_self (dflt : RefElem) (refs : RefDB) (k : Nat) (f : RefElem → RefElem) :
    (refs.modify dflt k f).contains k = true := by
  simp [RefDB.modify, RefDB.contains, RefDB.add]

theorem contains_add_mono (refs : RefDB) (k o : Nat) (e : RefElem)
    (h : refs.contains o = true) : (refs.add k e).contains o = true := by
  by_cases ho : o = k
  · subst ho
    exact contains_add_self _ _ _
  · simpa [RefDB.contains, RefDB.add, ho] using h

theorem contains_modify_mono (dflt : RefElem) (refs : RefDB) (k o : Nat) (f : RefElem → RefElem)
    (h : refs.contains o = true) : (refs.modify dflt k f).contains o = true :=
  contains_add_mono _ _ _ _ h

theorem setLabel_kept (l : Label) (e : RefElem) :
    sameText e (setLabel l e) ∧
      ((setLabel l e).flags = e.flags ∨ (setLabel l e).flags = e.flags ||| THUMBFUNC) :=
  ⟨⟨rfl, rfl, rfl, rfl, rfl, rfl⟩, Or.inl rfl⟩

theorem setThumb_kept (e : RefElem) :
    sameText e (setThumb e) ∧
      ((setThumb e).flags = e.flags ∨ (setThumb e).flags = e.flags ||| THUMBFUNC) :=
  ⟨⟨rfl, rfl, rfl, rfl, rfl, rfl⟩, Or.inr rfl⟩

/-- The insertion of an instruction's record and the assignments through
`tins` keep the records of `refs`. -/
theorem frozen_insert (env : Env) (S refs : RefDB) (k : Nat) (e : RefElem)
    (f : RefElem → RefElem) (hk : refs.contains k = false) :
    Frozen env S refs ((refs.add k e).modify env.dflt k f) :=
  frozen_fresh env S refs _ k hk
    (fun o ho => by rw [modify_other _ _ _ _ _ ho, add_other _ _ _ _ ho])

/-- A run keeps every record it finds, apart from the literals of the loads it
records. -/
theorem runs_frozen (env : Env) (task : Task) (refs refs' : RefDB)
    (h : Runs env task refs refs') :
    ∀ S : RefDB, (∀ o, refs o = none → S o = none) → TaskTracks env S refs task →
      Frozen env S refs refs' := by
  induction h with
  | relabel a l refs hc hle =>
    intro S _ _
    exact frozen_modify env S refs _ _ (setLabel_kept l)
  | keep a l refs hc hle =>
    intro S _ _
    exact frozen_refl _ _ _
  | reject a l refs hc hr =>
    intro S _ _
    exact frozen_refl _ _ _
  | start a l refs refs' hc hb hl _ ih =>
    intro S hS _
    exact ih S hS (Or.inl rfl)
  | undecoded a l offset total reg la ld refs hd =>
    intro S _ _
    exact frozen_refl _ _ _
  | merged a l offset total reg la ld refs insn hd hc =>
    intro S _ _
    exact frozen_refl _ _ _
  | plainStop a l offset total reg la ld refs insn hd hc hp =>
    intro S _ _
    exact frozen_fresh env S refs _ offset hc (fun o ho => add_other refs offset o _ ho)
  | plainNext a l offset total total' reg la ld refs refs' insn hd hc hp _ ih =>
    intro S hS _
    have h1 : Frozen env S refs (refs.add offset (newInstr env insn a l offset)) :=
      frozen_fresh env S refs _ offset hc (fun o ho => add_other refs offset o _ ho)
    exact frozen_trans env h1 (ih S (frozen_none env h1 hS) (Or.inl rfl))
  | callStop a l offset total reg la ld refs refs3 insn t lab str hd hc hdc _ ih =>
    intro S hS _
    have h1 := frozen_insert env S refs offset (newInstr env insn a l offset) (setTarget t str) hc
    exact frozen_trans env h1 (ih S (frozen_none env h1 hS) trivial)
  | callNext a l offset total total' reg la ld refs refs3 refs' insn t lab str hd hc hdc _ _
      ih1 ih2 =>
    intro S hS _
    have h1 := frozen_insert env S refs offset (newInstr env insn a l offset) (setTarget t str) hc
    have h13 := frozen_trans env h1 (ih1 S (frozen_none env h1 hS) trivial)
    exact frozen_trans env h13 (ih2 S (frozen_none env h13 hS) (Or.inl rfl))
  | indirectStop a l offset total reg la ld refs refs4 insn t lab hd hc hic _ ih =>
    intro S hS htr
    have hlit : NewLiteral env S refs la := by
      rcases htr with h | h
      · exact absurd h (indirectCall_usesLoad env insn reg ld t lab _ hic).1
      · exact h
    have h1 := frozen_insert env S refs offset (newInstr env insn a l offset) (setComment t) hc
    have h2 : Frozen env S
        ((refs.add offset (newInstr env insn a l offset)).modify env.dflt offset (setComment t))
        (((refs.add offset (newInstr env insn a l offset)).modify env.dflt offset
          (setComment t)).modify env.dflt la (setWord t)) :=
      frozen_literal env S _ _ la
        (newLiteral_mono env S _ _ la (fun k hk => contains_modify_mono _ _ _ _ _ hk)
          (newLiteral_mono env S _ _ la (frozen_keys env h1) hlit))
        (contains_modify_self _ _ _ _) (fun o ho => modify_other _ _ _ _ _ ho)
    have h12 := frozen_trans env h1 h2
    exact frozen_trans env h12
      (frozen_trans env (ih S (frozen_none env h12 hS) trivial)
        (frozen_modify env S refs4 (sub64 env.base t) setThumb setThumb_kept))
  | indirectNext a l offset total total' reg la ld refs refs4 refs' insn t lab hd hc hic _ _
      ih1 ih2 =>
    intro S hS htr
    have hlit : NewLiteral env S refs la := by
      rcases htr with h | h
      · exact absurd h (indirectCall_usesLoad env insn reg ld t lab _ hic).1
      · exact h
    have h1 := frozen_insert env S refs offset (newInstr env insn a l offset) (setComment t) hc
    have h2 : Frozen env S
        ((refs.add offset (newInstr env insn a l offset)).modify env.dflt offset (setComment t))
        (((refs.add offset (newInstr env insn a l offset)).modify env.dflt offset
          (setComment t)).modify env.dflt la (setWord t)) :=
      frozen_literal env S _ _ la
        (newLiteral_mono env S _ _ la (fun k hk => contains_modify_mono _ _ _ _ _ hk)
          (newLiteral_mono env S _ _ la (frozen_keys env h1) hlit))
        (contains_modify_self _ _ _ _) (fun o ho => modify_other _ _ _ _ _ ho)
    have h12 := frozen_trans env h1 h2
    have h14 := frozen_trans env h12
      (frozen_trans env (ih1 S (frozen_none env h12 hS) trivial)
        (frozen_modify env S refs4 (sub64 env.base t) setThumb setThumb_kept))
    exact frozen_trans env h14 (ih2 S (frozen_none env h14 hS) (Or.inl rfl))
  | load a l offset total total' reg la ld refs refs' insn hd hc hid hpc _ ih =>
    intro S hS _
    have h1 := frozen_insert env S refs offset (newInstr env insn a l offset)
      (setComment (literalAddr env insn offset)) hc
    have hlit : NewLiteral env S
        (((refs.add offset (newInstr env insn a l offset)).modify env.dflt offset
          (setComment (literalAddr env insn offset))).add
          (sub64 (literalAddr env insn offset) env.base)
          (newData env (literalAddr env insn offset)
            (env.readleu32 (sub64 (literalAddr env insn offset) env.base))))
        (sub64 (literalAddr env insn offset) env.base) :=
      ⟨offset, insn, hS offset (none_of_contains hc),
        contains_add_mono _ _ _ _ (contains_modify_self _ _ _ _), hd, hid, hpc, rfl⟩
    have h12 := frozen_trans env h1
      (frozen_literal env S
        ((refs.add offset (newInstr env insn a l offset)).modify env.dflt offset
          (setComment (literalAddr env insn offset))) _ _ hlit (contains_add_self _ _ _)
        (fun o ho => add_other _ _ _ _ ho))
    exact frozen_trans env h12 (ih S (frozen_none env h12 hS) (Or.inr hlit))
  | scan a l offset total reg la ld refs refs' insn hd hc hid hpc _ ih =>
    intro S hS _
    have h1 : Frozen env S refs (refs.add offset (newInstr env insn a l offset)) :=
      frozen_fresh env S refs _ offset hc (fun o ho => add_other refs offset o _ ho)
    exact frozen_trans env h1 (ih S (frozen_none env h1 hS) trivial)
  | tableEnd offset size i min total refs hn =>
    intro S _ _
    exact frozen_refl _ _ _
  | tableCase offset size i min total total' refs refs1 refs' h1 h2 _ _ ih1 ih2 =>
    intro S hS _
    have h12 := ih1 S hS trivial
    exact frozen_trans env h12 (ih2 S (frozen_none env h12 hS) trivial)

/-- Claim C11 as stated fails: on `sharedImage`, `addEntry(0x1000, "f")` installs
at offset 8 the `DATA` record of the literal, an `F_STRING` with text
`.word 0x100D`; the later `addEntry(0x1004, "g")` decodes the second `ldr` and
the `bx r3` after it, which rewrite that record to an `F_TARGET` with text
`.word ` and target `0x100C`. -/
theorem installed_frozen_counterexample :
    ∃ refs1 n1 refs2 n2 e1 e2,
      addEntry (thumbEnv 0x1000 sharedImage) 9 RefDB.empty 0x1000 "f" = .done refs1 n1 ∧
      addEntry (thumbEnv 0x1000 sharedImage) 9 refs1 0x1004 "g" = .done refs2 n2 ∧
      refs1 8 = some e1 ∧ refs2 8 = some e2 ∧
      (e1.ftype, e1.str, e1.target) = (.F_STRING, ".word 0x100D", 0) ∧
      (e2.ftype, e2.str, e2.target) = (.F_TARGET, ".word ", 0x100C) :=
  ⟨_, _, _, _, _, _, rfl, rfl, rfl, rfl, by decide!, by decide!⟩

/-- Claim C11, amended. For every `addEntry` call that takes the RefDB `S` to
`S'`, every key of `S` is a key of `S'`, and its record in `S'` has the same
`type`, `size`, `ftype`, `str`, `suffix` and `target` as in `S`, and the same
`flags` or those with `THUMBFUNC` added, unless the key is the literal offset
of a PC-relative LDR whose own offset is a key of `S'` and not of `S`. -/
theorem addEntry_frozen (env : Env) (fuel : Nat) (S S' : RefDB) (start_addr : Nat)
    (name : String) (n : Nat) (h : addEntry env fuel S start_addr name = .done S' n) :
    ∀ o e, S o = some e → ∃ e', S' o = some e' ∧
      ((∃ offset insn, S offset = none ∧ S'.contains offset = true ∧
          decodeAt env offset = some insn ∧ insn.id = .LDR ∧ pcLoad insn ∧
          o = sub64 (literalAddr env insn offset) env.base) ∨
        (e.type = e'.type ∧ e.size = e'.size ∧ e.ftype = e'.ftype ∧ e.str = e'.str ∧
            e.suffix = e'.suffix ∧ e.target = e'.target) ∧
          (e'.flags = e.flags ∨ e'.flags = e.flags ||| THUMBFUNC)) :=
  runs_frozen env _ S S' (run_runs env fuel _ S S' n h) S (fun _ ho => ho) trivial

/-- Witness for C11 amended: the second call on `sharedImage`, which keeps the
records at offsets 0 and 2 and rewrites the literal at offset 8. -/
theorem addEntry_frozen_witness :
    ∃ S S' n1 n2,
      addEntry (thumbEnv 0x1000 sharedImage) 9 RefDB.empty 0x1000 "f" = .done S n1 ∧
      addEntry (thumbEnv 0x1000 sharedImage) 9 S 0x1004 "g" = .done S' n2 ∧
      ∀ o e, S o = some e → ∃ e', S' o = some e' ∧
        ((∃ offset insn, S offset = none ∧ S'.contains offset = true ∧
            decodeAt (thumbEnv 0x1000 sharedImage) offset = some insn ∧ insn.id = .LDR ∧
            pcLoad insn ∧
            o = sub64 (literalAddr (thumbEnv 0x1000 sharedImage) insn offset)
              (thumbEnv 0x1000 sharedImage).base) ∨
          (e.type = e'.type ∧ e.size = e'.size ∧ e.ftype = e'.ftype ∧ e.str = e'.str ∧
              e.suffix = e'.suffix ∧ e.target = e'.target) ∧
            (e'.flags = e.flags ∨ e'.flags = e.flags ||| THUMBFUNC)) :=
  ⟨_, _, _, _, rfl, rfl,
    addEntry_frozen (thumbEnv 0x1000 sharedImage) 9 _ _ 0x1004 "g" _ rfl⟩

/-! ## The end of the listing -/

/-- The texts of a sweep that starts inside the image end with the last line
of a unit that the sweep reaches and that covers the last byte of the image. -/
theorem specSweep_last (env : Env) (refs : RefDB) :
    ∀ (fuel i : Nat) (prev : reftype) (units : List EmitUnit),
      specSweep env refs fuel i prev = some units → i < env.image.length →
      ∃ front o, SweptFrom env refs i o ∧ o < env.image.length ∧
        env.image.length ≤ o + unitSize refs o ∧
        concatTexts (units.map fun u => u.text) = front ++ lastLine env refs o := by
  intro fuel
  induction fuel with
  | zero =>
    intro i prev units h
    simp [specSweep] at h
  | succ fuel ih =>
    intro i prev units h hlt
    rw [specSweep] at h
    simp only [hlt, if_true] at h
    -- one step of the sweep: a head unit with text `pre ++ lastLine ..` and the rest
    have key : ∀ (sz : Nat) (pre : String) (prev' : reftype) (rest : List EmitUnit),
        unitSize refs i = sz →
        (∀ j, SweptFrom env refs (i + sz) j → SweptFrom env refs i j) →
        specSweep env refs fuel (i + sz) prev' = some rest →
        units = ⟨i, sz, pre ++ lastLine env refs i⟩ :: rest →
        ∃ front o, SweptFrom env refs i o ∧ o < env.image.length ∧
          env.image.length ≤ o + unitSize refs o ∧
          concatTexts (units.map fun u => u.text) = front ++ lastLine env refs o := by
      intro sz pre prev' rest hsz hstep hrest hunits
      subst hunits
      by_cases hnext : i + sz < env.image.length
      · obtain ⟨front, o, hs, ho, hcov, htxt⟩ := ih _ _ _ hrest hnext
        refine ⟨pre ++ lastLine env refs i ++ front, o, hstep o hs, ho, hcov, ?_⟩
        simp only [List.map_cons, concatTexts, htxt, String.append_assoc]
      · refine ⟨pre, i, SweptFrom.here i, hlt, by omega, ?_⟩
        cases fuel with
        | zero => simp [specSweep] at hrest
        | succ fuel =>
          rw [specSweep] at hrest
          simp only [hnext, if_false, Option.some.injEq] at hrest
          subst hrest
          simp only [List.map_cons, List.map_nil, concatTexts, String.append_empty]
    cases hri : refs i with
    | none =>
      simp only [hri] at h
      cases hrec : specSweep env refs fuel (i + 1) .RAW with
      | none => simp [hrec] at h
      | some rest =>
        simp only [hrec, Option.map_some', Option.some.injEq] at h
        refine key 1 (if prev = .CODE ∨ prev = .DATA then "\n" else "") _ rest ?_ ?_ hrec ?_
        · simp [unitSize, hri]
        · exact fun j hj => SweptFrom.raw i j hlt hri hj
        · rw [← h]
          simp only [specByteText, lastLine, hri]
    | some r =>
      simp only [hri] at h
      by_cases hu : unresolved env refs r
      · simp [hu] at h
      · simp only [hu, if_false] at h
        cases hrec : specSweep env refs fuel (i + r.size) r.type with
        | none => simp [hrec] at h
        | some rest =>
          simp only [hrec, Option.map_some', Option.some.injEq] at h
          refine key r.size
            ((if prev ≠ r.type then "\n" else "")
              ++ ((if r.flags &&& THUMBFUNC ≠ 0 then ".thumb_func\n" else "")
                ++ (if r.label ≠ "" then r.label ++ ":\n" else ""))) _ rest ?_ ?_ hrec ?_
          · simp [unitSize, hri]
          · exact fun j hj => SweptFrom.ref i j r hlt hri hu hj
          · rw [← h]
            simp only [specRefText, lastLine, hri, String.append_assoc]

/-- Claim C14 as stated fails: in the straight-line scenario the output of
`makeCode` ends with the line of the `pop`; no blank line follows it. -/
theorem straight_line_counterexample :
    ∃ out, makeCode (thumbEnv 0x1000 straightImage) straightRefs 7 = some out ∧
      ¬ endsWithBlankLine out :=
  ⟨_, rfl, by decide⟩

set_option maxRecDepth 100000 in
/-- Claim C14, amended. In the straight-line scenario `makeCode` writes the
header, a blank line, the line `main:` and the three instruction lines: the
label stands before the first instruction, there is no `.thumb_func` line, and
the output ends with the line of the `pop`, without a blank line after it. In
general, when `makeCode` returns a listing of a non-empty image, the listing
ends with the last line of a unit its sweep reaches and that covers the last
byte of the image: the indented text of a RefDB record, or a `.byte` line. -/
theorem straight_line_output :
    makeCode (thumbEnv 0x1000 straightImage) straightRefs 7 =
        some ".syntax unified\n.cpu cortex-m3\n.text\n.thumb\n\n\nmain:\n    push {r7, lr}\n    movs r0, #0\n    pop {r7, pc}\n" ∧
      ∀ (env : Env) (refs : RefDB) (fuel : Nat) (out : String),
        makeCode env refs fuel = some out → out ≠ "" → 0 < env.image.length →
        ∃ front o, SweptFrom env refs 0 o ∧ o < env.image.length ∧
          env.image.length ≤ o + unitSize refs o ∧ out = front ++ lastLine env refs o := by
  refine ⟨by rfl, ?_⟩
  intro env refs fuel out h hne hlen
  rcases makeCodeLoop_spec env refs fuel 0 .DATA asmHeader out h with ⟨ho, _⟩ | ⟨units, hsw, ho⟩
  · exact absurd ho hne
  · obtain ⟨front, o, hs, hlt, hcov, htxt⟩ := specSweep_last env refs fuel 0 .DATA units hsw hlen
    exact ⟨asmHeader ++ front, o, hs, hlt, hcov, by rw [ho, htxt, String.append_assoc]⟩

/-! ## The flag of a resolved indirect branch -/

set_option maxRecDepth 100000 in
/-- Claim C15. In the scenario of the claim (`farImage`: `ldr r3, [pc, #0]`
loading `0x00002001`, then `bx r3`) the run creates the record of the target
at offset `0x2000 - 0x1000`, labelled `jump_2000`, and leaves its flags at 0:
`THUMBFUNC` is set in a record at offset `base - target` modulo `2 ^ 64`, which
the index-style lookup creates. On `ldrBxImage`, where the target is `0x1008`,
the listing has no `.thumb_func` line before `jump_1008:`. -/
theorem thumbfunc_on_wrong_record :
    ((addEntry (thumbEnv 0x1000 farImage) 9 RefDB.empty 0x1000 "main").entry
        (sub64 0x2000 0x1000)).map (Option.map fun e => (e.label, e.flags &&& THUMBFUNC)) =
      some (some ("jump_2000", 0)) ∧
    ((addEntry (thumbEnv 0x1000 farImage) 9 RefDB.empty 0x1000 "main").entry
        (sub64 0x1000 0x2000)).map (Option.map fun e => (e.label, e.flags)) =
      some (some ("", THUMBFUNC)) ∧
    sub64 0x1000 0x2000 = 2 ^ 64 - 0x1000 ∧
    ∃ refs n,
      addEntry (thumbEnv 0x1000 ldrBxImage) 9 RefDB.empty 0x1000 "main" = .done refs n ∧
      makeCode (thumbEnv 0x1000 ldrBxImage) refs 11 =
        some ".syntax unified\n.cpu cortex-m3\n.text\n.thumb\n\n\nmain:\n    ldr r3, [pc, #0x0] /* data_1004 */ \n    bx r3 /* jump_1008 */ \n\ndata_1004:\n    .word jump_1008\n\njump_1008:\n    bx lr\n" :=
  ⟨by decide!, by decide!, by decide!, _, _, rfl, by rfl⟩

/-! ## Insertion at an occupied offset -/

/-- A call at an address inside the image that is no key starts the decode
loop. -/
theorem run_start (env : Env) (fuel : Nat) (a : Nat) (l : Label) (refs : RefDB)
    (hc : refs.contains (sub64 a env.base) = false) (hb : env.base ≤ a)
    (hl : sub64 a env.base < env.image.length) :
    run env (fuel + 1) (.enter a l) refs =
      run env fuel (.loop a l (sub64 a env.base) 0 .INVALID 0 0) refs := by
  have hb' : ¬ env.base > a := by omega
  have hl' : ¬ sub64 a env.base ≥ env.image.length := by omega
  simp only [run, hc, hb', hl', Bool.false_eq_true, if_false]

/-- The LDR case: a PC-relative load at an offset that is no key stores the
`DATA` record at the literal offset, whatever is there, and goes on. -/
theorem run_load (env : Env) (fuel : Nat) (a : Nat) (l : Label) (offset total : Nat)
    (reg : arm_reg) (la ld : Nat) (refs : RefDB) (insn : cs_insn)
    (hd : decodeAt env offset = some insn) (hc : refs.contains offset = false)
    (hid : insn.id = .LDR) (hpc : pcLoad insn) :
    run env (fuel + 1) (.loop a l offset total reg la ld) refs =
      run env fuel
        (.loop a l (offset + insn.size) (total + 1) (insn.op 0).reg (loadKey env insn offset)
          (env.readleu32 (loadKey env insn offset)))
        ((loadState env refs a l offset insn).add (loadKey env insn offset)
          (newData env (literalAddr env insn offset)
            (env.readleu32 (loadKey env insn offset)))) := by
  have hpc' : insn.operands.length = 2 ∧ (insn.op 1).type = .MEM ∧ (insn.op 1).mem_base = .PC :=
    hpc
  simp only [run, hd, hc, hid, hpc', and_self, if_true, Bool.false_eq_true, if_false, literalAddr,
    loadKey, loadState]

/-- Claim C16. The `DATA` insert of the LDR case is made at occupied offsets.
On `raiseImage`, after `addEntry(0x1004, "f")` offset 4 holds the `nop`; the
`ldr` at `0x1000`, decoded by `addEntry(0x1000, "g")`, has the literal offset 4,
and its `DATA` record is added to a database that has the key 4. On
`twoLoadsImage` the second `ldr` of one run adds its `DATA` record at offset 8,
where the first `ldr` has stored the same literal. -/
theorem data_insert_occupied :
    (addEntry (thumbEnv 0x1000 raiseImage) 9 RefDB.empty 0x1004 "f" = .done raiseRefs 2 ∧
      ∃ insn, decodeAt (thumbEnv 0x1000 raiseImage) 0 = some insn ∧
        loadKey (thumbEnv 0x1000 raiseImage) insn 0 = 4 ∧
        (loadState (thumbEnv 0x1000 raiseImage) raiseRefs 0x1000 ⟨.NAMED, "g"⟩ 0 insn).contains 4
          = true ∧
        addEntry (thumbEnv 0x1000 raiseImage) 9 raiseRefs 0x1000 "g" =
          run (thumbEnv 0x1000 raiseImage) 7
            (.loop 0x1000 ⟨.NAMED, "g"⟩ 2 1 (.R 0) 4 0x4770BF00)
            ((loadState (thumbEnv 0x1000 raiseImage) raiseRefs 0x1000 ⟨.NAMED, "g"⟩ 0 insn).add 4
              (newData (thumbEnv 0x1000 raiseImage) 0x1004 0x4770BF00))) ∧
    ∃ insn1 insn2,
      decodeAt (thumbEnv 0x1000 twoLoadsImage) 0 = some insn1 ∧
      decodeAt (thumbEnv 0x1000 twoLoadsImage) 2 = some insn2 ∧
      loadKey (thumbEnv 0x1000 twoLoadsImage) insn1 0 = 8 ∧
      loadKey (thumbEnv 0x1000 twoLoadsImage) insn2 2 = 8 ∧
      (loadState (thumbEnv 0x1000 twoLoadsImage)
          ((loadState (thumbEnv 0x1000 twoLoadsImage) RefDB.empty 0x1000 ⟨.NAMED, "main"⟩ 0
            insn1).add 8 (newData (thumbEnv 0x1000 twoLoadsImage) 0x1008 0x12345678))
          0x1000 ⟨.NAMED, "main"⟩ 2 insn2).contains 8 = true ∧
      addEntry (thumbEnv 0x1000 twoLoadsImage) 9 RefDB.empty 0x1000 "main" =
        run (thumbEnv 0x1000 twoLoadsImage) 6
          (.loop 0x1000 ⟨.NAMED, "main"⟩ 4 2 (.R 1) 8 0x12345678)
          ((loadState (thumbEnv 0x1000 twoLoadsImage)
            ((loadState (thumbEnv 0x1000 twoLoadsImage) RefDB.empty 0x1000 ⟨.NAMED, "main"⟩ 0
              insn1).add 8 (newData (thumbEnv 0x1000 twoLoadsImage) 0x1008 0x12345678))
            0x1000 ⟨.NAMED, "main"⟩ 2 insn2).add 8
            (newData (thumbEnv 0x1000 twoLoadsImage) 0x1008 0x12345678)) := by
  refine ⟨⟨rfl, _, rfl, by decide!, by decide!, ?_⟩, _, _, rfl, rfl, by decide!, by decide!,
    by decide!, ?_⟩
  · exact (run_start (thumbEnv 0x1000 raiseImage) 8 0x1000 ⟨.NAMED, "g"⟩ raiseRefs
      (by decide!) (by decide) (by decide!)).trans
      (run_load (thumbEnv 0x1000 raiseImage) 7 0x1000 ⟨.NAMED, "g"⟩ 0 0 .INVALID 0 0 raiseRefs _
        rfl (by decide!) (by decide!) (by decide!))
  · exact (run_start (thumbEnv 0x1000 twoLoadsImage) 8 0x1000 ⟨.NAMED, "main"⟩ RefDB.empty
      (by decide!) (by decide) (by decide!)).trans
      ((run_load (thumbEnv 0x1000 twoLoadsImage) 7 0x1000 ⟨.NAMED, "main"⟩ 0 0 .INVALID 0 0
        RefDB.empty _ rfl (by decide!) (by decide!) (by decide!)).trans
        (run_load (thumbEnv 0x1000 twoLoadsImage) 6 0x1000 ⟨.NAMED, "main"⟩ 2 1 (.R 0) 8
          0x12345678 _ _ rfl (by decide!) (by decide!) (by decide!)))

/-! ## The scan of a TBB table -/

/-- The TBB case: at an offset that is no key, a PC-relative TBB starts the
scan of the table with the bound `ZU64_MAX`. -/
theorem run_scan (env : Env) (fuel : Nat) (a : Nat) (l : Label) (offset total : Nat)
    (reg : arm_reg) (la ld : Nat) (refs : RefDB) (insn : cs_insn)
    (hd : decodeAt env offset = some insn) (hc : refs.contains offset = false)
    (hid : insn.id = .TBB) (hpc : pcTable insn) :
    run env (fuel + 1) (.loop a l offset total reg la ld) refs =
      run env fuel (.table offset insn.size 0 (2 ^ 64 - 1) total)
        (refs.add offset (newInstr env insn a l offset)) := by
  have hpc' : insn.operands.length = 1 ∧ (insn.op 0).type = .MEM ∧ (insn.op 0).mem_base = .PC :=
    hpc
  simp only [run, hd, hc, hid, hpc', and_self, if_true, Bool.false_eq_true, if_false]

/-- Claim C17. On `tableImage` the table `02 03 05 04` at `0x1004` has the case
targets `0x1008`, `0x100A`, `0x100E`, `0x100C`, the earliest of which is the
address of table index 4. The scan goes on past index 3: it reads the indices
8 to 16, the bytes of the handlers, as table bytes, because `min` holds the
last case target and not the smallest; the byte `07` at `0x1008` gives the
case target `0x1012`, and the run leaves a record labelled `switch_1012` at
offset `0x12`. -/
theorem table_scan_past_first_target :
    (List.range 4).map (tableTarget (thumbEnv 0x1000 tableImage) 0 4) =
        [0x1008, 0x100A, 0x100E, 0x100C] ∧
      tableAddr (thumbEnv 0x1000 tableImage) 0 4 4 = 0x1008 ∧
      tableTarget (thumbEnv 0x1000 tableImage) 0 4 4 = 0x1012 ∧
      scanReads (thumbEnv 0x1000 tableImage) 0 4 20 0 (2 ^ 64 - 1) =
        [4, 5, 6, 7, 8, 9, 10, 11, 12, 13, 14, 15, 16] ∧
      ((addEntry (thumbEnv 0x1000 tableImage) 20 RefDB.empty 0x1000 "main").entry 0x12).map
          (Option.map fun e => (e.ltype, e.label)) =
        some (some (.SWITCH, "switch_1012")) := by
  decide!

/-- Claim C18. On `lastTableImage`, where the TBB is the last instruction, the
run of `addEntry(0x1000, "main")` gets to the scan of the table with `i = 0`
and `min = ZU64_MAX`, and the scan reads the image at index 4, the size of
the image. -/
theorem table_scan_reads_past_image :
    ∃ insn, decodeAt (thumbEnv 0x1000 lastTableImage) 0 = some insn ∧
      insn.id = .TBB ∧ pcTable insn ∧ insn.size = 4 ∧
      addEntry (thumbEnv 0x1000 lastTableImage) 9 RefDB.empty 0x1000 "main" =
        run (thumbEnv 0x1000 lastTableImage) 7 (.table 0 4 0 (2 ^ 64 - 1) 0)
          (RefDB.empty.add 0
            (newInstr (thumbEnv 0x1000 lastTableImage) insn 0x1000 ⟨.NAMED, "main"⟩ 0)) ∧
      scanReads (thumbEnv 0x1000 lastTableImage) 0 4 7 0 (2 ^ 64 - 1) = [4] ∧
      (thumbEnv 0x1000 lastTableImage).image.length = 4 := by
  refine ⟨_, rfl, by decide!, by decide!, by decide!, ?_, by decide!, by decide!⟩
  exact (run_start (thumbEnv 0x1000 lastTableImage) 8 0x1000 ⟨.NAMED, "main"⟩ RefDB.empty
    (by decide!) (by decide) (by decide!)).trans
    (run_scan (thumbEnv 0x1000 lastTableImage) 7 0x1000 ⟨.NAMED, "main"⟩ 0 0 .INVALID 0 0
      RefDB.empty _ rfl (by decide!) (by decide!) (by decide!))

/-! ## Keys outside the image -/

/-- Claim C20. On `shortImage` the literal address `0x1004` of the `ldr` is the
end of the image, and the run stores the `DATA` record at offset 4, the size of
the image. On `ldrBxImage` the back-annotation of the resolved `bx r3` creates
a record at offset `base - target` modulo `2 ^ 64`, far outside the image. -/
theorem keys_outside_image :
    (∃ refs n,
      addEntry (thumbEnv 0x1000 shortImage) 9 RefDB.empty 0x1000 "main" = .done refs n ∧
      refs.contains 4 = true ∧ ¬ 4 < (thumbEnv 0x1000 shortImage).image.length) ∧
    ∃ refs n,
      addEntry (thumbEnv 0x1000 ldrBxImage) 9 RefDB.empty 0x1000 "main" = .done refs n ∧
      refs.contains (2 ^ 64 - 8) = true ∧
      ¬ 2 ^ 64 - 8 < (thumbEnv 0x1000 ldrBxImage).image.length :=
  ⟨⟨_, _, rfl, by decide!, by decide⟩, _, _, rfl, by decide!, by decide⟩

/-! ## The tracker of the preceding load -/

/-- A logged run is a run. -/
theorem runsLog_runs (env : Env) (prev : Option (Nat × cs_insn)) (task : Task)
    (refs refs' : RefDB) (log : List Iteration) (h : RunsLog env prev task refs refs' log) :
    Runs env task refs refs' := by
  induction h with
  | relabel _ a l refs hc hle => exact Runs.relabel a l refs hc hle
  | keep _ a l refs hc hle => exact Runs.keep a l refs hc hle
  | reject _ a l refs hc hr => exact Runs.reject a l refs hc hr
  | start _ a l refs refs' log hc hb hl _ ih => exact Runs.start a l refs refs' hc hb hl ih
  | undecoded _ a l offset total reg la ld refs hd =>
    exact Runs.undecoded a l offset total reg la ld refs hd
  | merged _ a l offset total reg la ld refs insn hd hc =>
    exact Runs.merged a l offset total reg la ld refs insn hd hc
  | plainStop _ a l offset total reg la ld refs insn hd hc hp =>
    exact Runs.plainStop a l offset total reg la ld refs insn hd hc hp
  | plainNext _ a l offset total total' reg la ld refs refs' insn log hd hc hp _ ih =>
    exact Runs.plainNext a l offset total total' reg la ld refs refs' insn hd hc hp ih
  | callStop _ a l offset total reg la ld refs refs3 insn t lab str log hd hc hdc _ ih =>
    exact Runs.callStop a l offset total reg la ld refs refs3 insn t lab str hd hc hdc ih
  | callNext _ a l offset total total' reg la ld refs refs3 refs' insn t lab str log1 log2
      hd hc hdc _ _ ih1 ih2 =>
    exact Runs.callNext a l offset total total' reg la ld refs refs3 refs' insn t lab str hd hc
      hdc ih1 ih2
  | indirectStop _ a l offset total reg la ld refs refs4 insn t lab log hd hc hic _ ih =>
    exact Runs.indirectStop a l offset total reg la ld refs refs4 insn t lab hd hc hic ih
  | indirectNext _ a l offset total total' reg la ld refs refs4 refs' insn t lab log1 log2
      hd hc hic _ _ ih1 ih2 =>
    exact Runs.indirectNext a l offset total total' reg la ld refs refs4 refs' insn t lab hd hc
      hic ih1 ih2
  | load _ a l offset total total' reg la ld refs refs' insn log hd hc hid hpc _ ih =>
    exact Runs.load a l offset total total' reg la ld refs refs' insn hd hc hid hpc ih
  | scan _ a l offset total reg la ld refs refs' insn log hd hc hid hpc _ ih =>
    exact Runs.scan a l offset total reg la ld refs refs' insn hd hc hid hpc ih
  | tableEnd _ offset size i min total refs hn => exact Runs.tableEnd offset size i min total refs hn
  | tableCase _ offset size i min total total' refs refs1 refs' log1 log2 h1 h2 _ _ ih1 ih2 =>
    exact Runs.tableCase offset size i min total total' refs refs1 refs' h1 h2 ih1 ih2

/-- Every run has a log. -/
theorem runs_log (env : Env) (task : Task) (refs refs' : RefDB)
    (h : Runs env task refs refs') :
    ∀ prev : Option (Nat × cs_insn), ∃ log, RunsLog env prev task refs refs' log := by
  induction h with
  | relabel a l refs hc hle => exact fun prev => ⟨_, RunsLog.relabel prev a l refs hc hle⟩
  | keep a l refs hc hle => exact fun prev => ⟨_, RunsLog.keep prev a l refs hc hle⟩
  | reject a l refs hc hr => exact fun prev => ⟨_, RunsLog.reject prev a l refs hc hr⟩
  | start a l refs refs' hc hb hl _ ih =>
    intro prev
    obtain ⟨log, hlog⟩ := ih none
    exact ⟨_, RunsLog.start prev a l refs refs' log hc hb hl hlog⟩
  | undecoded a l offset total reg la ld refs hd =>
    exact fun prev => ⟨_, RunsLog.undecoded prev a l offset total reg la ld refs hd⟩
  | merged a l offset total reg la ld refs insn hd hc =>
    exact fun prev => ⟨_, RunsLog.merged prev a l offset total reg la ld refs insn hd hc⟩
  | plainStop a l offset total reg la ld refs insn hd hc hp =>
    exact fun prev => ⟨_, RunsLog.plainStop prev a l offset total reg la ld refs insn hd hc hp⟩
  | plainNext a l offset total total' reg la ld refs refs' insn hd hc hp _ ih =>
    intro prev
    obtain ⟨log, hlog⟩ := ih (some (offset, insn))
    exact ⟨_, RunsLog.plainNext prev a l offset total total' reg la ld refs refs' insn log hd hc
      hp hlog⟩
  | callStop a l offset total reg la ld refs refs3 insn t lab str hd hc hdc _ ih =>
    intro prev
    obtain ⟨log, hlog⟩ := ih none
    exact ⟨_, RunsLog.callStop prev a l offset total reg la ld refs refs3 insn t lab str log hd
      hc hdc hlog⟩
  | callNext a l offset total total' reg la ld refs refs3 refs' insn t lab str hd hc hdc _ _
      ih1 ih2 =>
    intro prev
    obtain ⟨log1, hlog1⟩ := ih1 none
    obtain ⟨log2, hlog2⟩ := ih2 (some (offset, insn))
    exact ⟨_, RunsLog.callNext prev a l offset total total' reg la ld refs refs3 refs' insn t lab
      str log1 log2 hd hc hdc hlog1 hlog2⟩
  | indirectStop a l offset total reg la ld refs refs4 insn t lab hd hc hic _ ih =>
    intro prev
    obtain ⟨log, hlog⟩ := ih none
    exact ⟨_, RunsLog.indirectStop prev a l offset total reg la ld refs refs4 insn t lab log hd
      hc hic hlog⟩
  | indirectNext a l offset total total' reg la ld refs refs4 refs' insn t lab hd hc hic _ _
      ih1 ih2 =>
    intro prev
    obtain ⟨log1, hlog1⟩ := ih1 none
    obtain ⟨log2, hlog2⟩ := ih2 (some (offset, insn))
    exact ⟨_, RunsLog.indirectNext prev a l offset total total' reg la ld refs refs4 refs' insn t
      lab log1 log2 hd hc hic hlog1 hlog2⟩
  | load a l offset total total' reg la ld refs refs' insn hd hc hid hpc _ ih =>
    intro prev
    obtain ⟨log, hlog⟩ := ih (some (offset, insn))
    exact ⟨_, RunsLog.load prev a l offset total total' reg la ld refs refs' insn log hd hc hid
      hpc hlog⟩
  | scan a l offset total reg la ld refs refs' insn hd hc hid hpc _ ih =>
    intro prev
    obtain ⟨log, hlog⟩ := ih none
    exact ⟨_, RunsLog.scan prev a l offset total reg la ld refs refs' insn log hd hc hid hpc
      hlog⟩
  | tableEnd offset size i min total refs hn =>
    exact fun prev => ⟨_, RunsLog.tableEnd prev offset size i min total refs hn⟩
  | tableCase offset size i min total total' refs refs1 refs' h1 h2 _ _ ih1 ih2 =>
    intro prev
    obtain ⟨log1, hlog1⟩ := ih1 none
    obtain ⟨log2, hlog2⟩ := ih2 none
    exact ⟨_, RunsLog.tableCase prev offset size i min total total' refs refs1 refs' log1 log2 h1
      h2 hlog1 hlog2⟩

theorem plainStep_load (insn : cs_insn) (reg : arm_reg) (b : Bool)
    (h : plainStep insn reg = some b) : ¬ (insn.id = .LDR ∧ pcLoad insn) := by
  rintro ⟨hid, hpc⟩
  rw [plainStep, hid] at h
  simp [hpc] at h

theorem directCall_load (env : Env) (insn : cs_insn) (x : Nat × Label × String × Bool)
    (h : directCall env insn = some x) : ¬ (insn.id = .LDR ∧ pcLoad insn) := by
  rintro ⟨hid, _⟩
  rw [directCall, hid] at h
  simp at h

theorem indirectCall_load (env : Env) (insn : cs_insn) (reg : arm_reg) (ld : Nat)
    (x : Nat × Label × Bool) (h : indirectCall env insn reg ld = some x) :
    ¬ (insn.id = .LDR ∧ pcLoad insn) := by
  rintro ⟨hid, _⟩
  rw [indirectCall, hid] at h
  simp at h

/-- The first iteration of a call finds the tracker cleared. -/
theorem tracked_first (env : Env) (a offset la ld : Nat) :
    Tracked env ⟨a, none, offset, .INVALID, la, ld⟩ := by
  refine ⟨?_, ?_, ?_⟩
  · intro o insn h
    cases h
  · simp
  · intro o insn h
    cases h

/-- After an instruction that is no PC-relative LDR the tracker is cleared. -/
theorem tracked_cleared (env : Env) (a offset la ld : Nat) (insn : cs_insn)
    (hd : decodeAt env offset = some insn) (hn : ¬ (insn.id = .LDR ∧ pcLoad insn)) :
    Tracked env ⟨a, some (offset, insn), offset + insn.size, .INVALID, la, ld⟩ := by
  refine ⟨?_, ?_, ?_⟩
  · intro o i h
    simp only [Option.some.injEq, Prod.mk.injEq] at h
    obtain ⟨rfl, rfl⟩ := h
    exact ⟨hd, rfl⟩
  · constructor
    · intro h
      exact absurd rfl h
    · rintro ⟨o, i, h, hid, hpc⟩
      simp only [Option.some.injEq, Prod.mk.injEq] at h
      obtain ⟨rfl, rfl⟩ := h
      exact absurd ⟨hid, hpc⟩ hn
  · intro o i h hid hpc
    simp only [Option.some.injEq, Prod.mk.injEq] at h
    obtain ⟨rfl, rfl⟩ := h
    exact absurd ⟨hid, hpc⟩ hn

/-- After a PC-relative LDR the tracker holds its register, literal offset and
literal word. -/
theorem tracked_loaded (env : Env) (a offset : Nat) (insn : cs_insn)
    (hd : decodeAt env offset = some insn) (hid : insn.id = .LDR) (hpc : pcLoad insn)
    (hreg : (insn.op 0).reg ≠ .INVALID) :
    Tracked env ⟨a, some (offset, insn), offset + insn.size, (insn.op 0).reg,
      sub64 (literalAddr env insn offset) env.base,
      env.readleu32 (sub64 (literalAddr env insn offset) env.base)⟩ := by
  refine ⟨?_, ?_, ?_⟩
  · intro o i h
    simp only [Option.some.injEq, Prod.mk.injEq] at h
    obtain ⟨rfl, rfl⟩ := h
    exact ⟨hd, rfl⟩
  · exact ⟨fun _ => ⟨offset, insn, rfl, hid, hpc⟩, fun _ => hreg⟩
  · intro o i h _ _
    simp only [Option.some.injEq, Prod.mk.injEq] at h
    obtain ⟨rfl, rfl⟩ := h
    exact ⟨rfl, rfl, rfl⟩

/-- Every iteration of a logged run finds the tracker as the invariant says,
when the run starts with it so. -/
theorem runsLog_tracked (env : Env)
    (hdest : ∀ o insn, decodeAt env o = some insn → insn.id = .LDR → pcLoad insn →
      (insn.op 0).reg ≠ .INVALID)
    (prev : Option (Nat × cs_insn)) (task : Task) (refs refs' : RefDB) (log : List Iteration)
    (h : RunsLog env prev task refs refs' log) :
    (∀ it, task.iteration prev = some it → Tracked env it) → ∀ it ∈ log, Tracked env it := by
  induction h with
  | relabel _ a l refs hc hle => intro _ it hit; simp at hit
  | keep _ a l refs hc hle => intro _ it hit; simp at hit
  | reject _ a l refs hc hr => intro _ it hit; simp at hit
  | start _ a l refs refs' log hc hb hl _ ih =>
    intro _
    apply ih
    intro it hit
    simp only [Task.iteration, Option.some.injEq] at hit
    subst hit
    exact tracked_first env _ _ _ _
  | undecoded p a l offset total reg la ld refs hd =>
    intro h0 it hit
    simp only [List.mem_singleton] at hit
    subst hit
    exact h0 _ rfl
  | merged p a l offset total reg la ld refs insn hd hc =>
    intro h0 it hit
    simp only [List.mem_singleton] at hit
    subst hit
    exact h0 _ rfl
  | plainStop p a l offset total reg la ld refs insn hd hc hp =>
    intro h0 it hit
    simp only [List.mem_singleton] at hit
    subst hit
    exact h0 _ rfl
  | plainNext p a l offset total total' reg la ld refs refs' insn log hd hc hp _ ih =>
    intro h0 it hit
    rcases List.mem_cons.mp hit with rfl | hit
    · exact h0 _ rfl
    · refine ih ?_ it hit
      intro it' hit'
      simp only [Task.iteration, Option.some.injEq] at hit'
      subst hit'
      exact tracked_cleared env a offset la ld insn hd (plainStep_load insn reg _ hp)
  | callStop p a l offset total reg la ld refs refs3 insn t lab str log hd hc hdc _ ih =>
    intro h0 it hit
    rcases List.mem_cons.mp hit with rfl | hit
    · exact h0 _ rfl
    · exact ih (fun it' hit' => by simp [Task.iteration] at hit') it hit
  | callNext p a l offset total total' reg la ld refs refs3 refs' insn t lab str log1 log2
      hd hc hdc _ _ ih1 ih2 =>
    intro h0 it hit
    rcases List.mem_cons.mp hit with rfl | hit
    · exact h0 _ rfl
    · rcases List.mem_append.mp hit with hit | hit
      · exact ih1 (fun it' hit' => by simp [Task.iteration] at hit') it hit
      · refine ih2 ?_ it hit
        intro it' hit'
        simp only [Task.iteration, Option.some.injEq] at hit'
        subst hit'
        exact tracked_cleared env a offset la ld insn hd (directCall_load env insn _ hdc)
  | indirectStop p a l offset total reg la ld refs refs4 insn t lab log hd hc hic _ ih =>
    intro h0 it hit
    rcases List.mem_cons.mp hit with rfl | hit
    · exact h0 _ rfl
    · exact ih (fun it' hit' => by simp [Task.iteration] at hit') it hit
  | indirectNext p a l offset total total' reg la ld refs refs4 refs' insn t lab log1 log2
      hd hc hic _ _ ih1 ih2 =>
    intro h0 it hit
    rcases List.mem_cons.mp hit with rfl | hit
    · exact h0 _ rfl
    · rcases List.mem_append.mp hit with hit | hit
      · exact ih1 (fun it' hit' => by simp [Task.iteration] at hit') it hit
      · refine ih2 ?_ it hit
        intro it' hit'
        simp only [Task.iteration, Option.some.injEq] at hit'
        subst hit'
        exact tracked_cleared env a offset la ld insn hd (indirectCall_load env insn reg ld _ hic)
  | load p a l offset total total' reg la ld refs refs' insn log hd hc hid hpc _ ih =>
    intro h0 it hit
    rcases List.mem_cons.mp hit with rfl | hit
    · exact h0 _ rfl
    · refine ih ?_ it hit
      intro it' hit'
      simp only [Task.iteration, Option.some.injEq] at hit'
      subst hit'
      exact tracked_loaded env a offset insn hd hid hpc (hdest offset insn hd hid hpc)
  | scan p a l offset total reg la ld refs refs' insn log hd hc hid hpc _ ih =>
    intro h0 it hit
    rcases List.mem_cons.mp hit with rfl | hit
    · exact h0 _ rfl
    · exact ih (fun it' hit' => by simp [Task.iteration] at hit') it hit
  | tableEnd _ offset size i min total refs hn => intro _ it hit; simp at hit
  | tableCase _ offset size i min total total' refs refs1 refs' log1 log2 h1 h2 _ _ ih1 ih2 =>
    intro _ it hit
    rcases List.mem_append.mp hit with hit | hit
    · exact ih1 (fun it' hit' => by simp [Task.iteration] at hit') it hit
    · exact ih2 (fun it' hit' => by simp [Task.iteration] at hit') it hit

/-- On `ldrBxImage` every LDR the subset decoder yields has a destination
register. -/
theorem ldrBxImage_dest (o : Nat) (insn : cs_insn)
    (hd : decodeAt (thumbEnv 0x1000 ldrBxImage) o = some insn) (hid : insn.id = .LDR) :
    (insn.op 0).reg ≠ .INVALID := by
  have hall : ∀ o, o < 10 →
      ((decodeAt (thumbEnv 0x1000 ldrBxImage) o).map fun i =>
        decide (i.id = .LDR → (i.op 0).reg ≠ .INVALID)).getD true = true := by decide!
  by_cases h10 : o < 10
  · have h := hall o h10
    rw [hd] at h
    simp only [Option.map_some', Option.getD_some, decide_eq_true_eq] at h
    exact h hid
  · have hnil : List.drop o ldrBxImage = [] :=
      List.drop_eq_nil_of_le (by simp [ldrBxImage]; omega)
    simp [decodeAt, thumbEnv, hnil, thumbDecode] at hd

/-- Claim C19. The LDR tracker invariant: for a decoder whose PC-relative LDRs
have a destination register, every call `disassembleAddress(start_addr, label)`
that returns has a log of its decode-loop iterations, and at the start of
every iteration of the log `ldr_reg` is not `INVALID` if and only if the
iteration before it in the same call handled a two-operand LDR with a
PC-based memory operand; then `ldr_reg`, `ldr_addr` and `ldr_data` are that
LDR's destination register, its literal offset
`((base + offset + 4) & ~3) + disp - base` and the word read there. Hence the
BX or BLX an iteration resolves names the destination register of such an
LDR decoded by the iteration before it. -/
theorem ldr_tracker_invariant (env : Env)
    (hdest : ∀ o insn, decodeAt env o = some insn → insn.id = .LDR → pcLoad insn →
      (insn.op 0).reg ≠ .INVALID)
    (fuel : Nat) (refs : RefDB) (start_addr : Nat) (label : Label) (refs' : RefDB) (n : Nat)
    (h : disassembleAddress env fuel refs start_addr label = .done refs' n) :
    (∃ log, RunsLog env none (.enter start_addr label) refs refs' log) ∧
    ∀ log, RunsLog env none (.enter start_addr label) refs refs' log → ∀ it ∈ log,
      (∀ o insn, it.prev = some (o, insn) →
        decodeAt env o = some insn ∧ it.offset = o + insn.size) ∧
      (it.ldr_reg ≠ .INVALID ↔
        ∃ o insn, it.prev = some (o, insn) ∧ insn.id = .LDR ∧ pcLoad insn) ∧
      (∀ o insn, it.prev = some (o, insn) → insn.id = .LDR → pcLoad insn →
        it.ldr_reg = (insn.op 0).reg ∧
        it.ldr_addr = sub64 (add64 (thumbPc env o) (ofInt64 (insn.op 1).mem_disp)) env.base ∧
        it.ldr_data = env.readleu32 it.ldr_addr) ∧
      (∀ insn t lab stop, decodeAt env it.offset = some insn →
        indirectCall env insn it.ldr_reg it.ldr_data = some (t, lab, stop) →
        ∃ o ldr, it.prev = some (o, ldr) ∧ ldr.id = .LDR ∧ pcLoad ldr ∧
          (insn.op 0).reg = (ldr.op 0).reg) := by
  have hruns := run_runs env fuel _ refs refs' n h
  refine ⟨runs_log env _ refs refs' hruns none, ?_⟩
  intro log hlog it hit
  obtain ⟨h1, h2, h3⟩ :=
    runsLog_tracked env hdest none _ refs refs' log hlog
      (fun it' hit' => by simp [Task.iteration] at hit') it hit
  refine ⟨h1, h2, h3, ?_⟩
  intro insn t lab stop _ hic
  have hu := indirectCall_usesLoad env insn it.ldr_reg it.ldr_data t lab stop hic
  obtain ⟨o, ldr, hprev, hid, hpc⟩ := h2.mp hu.1
  exact ⟨o, ldr, hprev, hid, hpc, hu.2.trans (h3 o ldr hprev hid hpc).1⟩

/-- Witness for C19: the run on `ldrBxImage`, whose `bx r3` follows the
`ldr r3, [pc, #0]`. -/
theorem ldr_tracker_invariant_witness :
    ∃ refs' n,
      disassembleAddress (thumbEnv 0x1000 ldrBxImage) 9 RefDB.empty 0x1000 ⟨.NAMED, "main"⟩ =
        .done refs' n ∧
      (∃ log, RunsLog (thumbEnv 0x1000 ldrBxImage) none (.enter 0x1000 ⟨.NAMED, "main"⟩)
        RefDB.empty refs' log) ∧
      ∀ log, RunsLog (thumbEnv 0x1000 ldrBxImage) none (.enter 0x1000 ⟨.NAMED, "main"⟩)
          RefDB.empty refs' log → ∀ it ∈ log,
        (∀ o insn, it.prev = some (o, insn) →
          decodeAt (thumbEnv 0x1000 ldrBxImage) o = some insn ∧ it.offset = o + insn.size) ∧
        (it.ldr_reg ≠ .INVALID ↔
          ∃ o insn, it.prev = some (o, insn) ∧ insn.id = .LDR ∧ pcLoad insn) ∧
        (∀ o insn, it.prev = some (o, insn) → insn.id = .LDR → pcLoad insn →
          it.ldr_reg = (insn.op 0).reg ∧
          it.ldr_addr =
            sub64 (add64 (thumbPc (thumbEnv 0x1000 ldrBxImage) o)
              (ofInt64 (insn.op 1).mem_disp)) (thumbEnv 0x1000 ldrBxImage).base ∧
          it.ldr_data = (thumbEnv 0x1000 ldrBxImage).readleu32 it.ldr_addr) ∧
        (∀ insn t lab stop, decodeAt (thumbEnv 0x1000 ldrBxImage) it.offset = some insn →
          indirectCall (thumbEnv 0x1000 ldrBxImage) insn it.ldr_reg it.ldr_data =
            some (t, lab, stop) →
          ∃ o ldr, it.prev = some (o, ldr) ∧ ldr.id = .LDR ∧ pcLoad ldr ∧
            (insn.op 0).reg = (ldr.op 0).reg) :=
  ⟨_, _, rfl,
    ldr_tracker_invariant (thumbEnv 0x1000 ldrBxImage)
      (fun o insn hd hid _ => ldrBxImage_dest o insn hd hid) 9 RefDB.empty 0x1000
      ⟨.NAMED, "main"⟩ _ _ rfl⟩

/-! ## One round of each loop -/

theorem run_undecoded (env : Env) (fuel : Nat) (a : Nat) (l : Label) (offset total : Nat)
    (reg : arm_reg) (la ld : Nat) (refs : RefDB) (hd : decodeAt env offset = none) :
    run env (fuel + 1) (.loop a l offset total reg la ld) refs = .done refs total := by
  simp only [run, hd]

theorem run_merged (env : Env) (fuel : Nat) (a : Nat) (l : Label) (offset total : Nat)
    (reg : arm_reg) (la ld : Nat) (refs : RefDB) (insn : cs_insn)
    (hd : decodeAt env offset = some insn) (hc : refs.contains offset = true) :
    run env (fuel + 1) (.loop a l offset total reg la ld) refs = .done refs total := by
  simp only [run, hd, hc, if_true]

/-- An instruction that only inserts its record and ends the path. -/
theorem run_plain_stop (env : Env) (fuel : Nat) (a : Nat) (l : Label) (offset total : Nat)
    (reg : arm_reg) (la ld : Nat) (refs : RefDB) (insn : cs_insn)
    (hd : decodeAt env offset = some insn) (hc : refs.contains offset = false)
    (hp : plainStep insn reg = some true) :
    ∃ n, run env (fuel + 1) (.loop a l offset total reg la ld) refs =
      .done (refs.add offset (newInstr env insn a l offset)) n := by
  simp only [run, hd, hc, Bool.false_eq_true, if_false]
  cases hid : insn.id with
  | B => simp [plainStep, hid] at hp
  | CBZ => simp [plainStep, hid] at hp
  | CBNZ => simp [plainStep, hid] at hp
  | BL => simp [plainStep, hid] at hp
  | BX =>
    have hu : ¬ (reg ≠ .INVALID ∧ (insn.op 0).reg = reg) := by
      intro hu
      simp [plainStep, hid, usesLoad, hu] at hp
    simp only [hu, if_false]
    exact ⟨_, rfl⟩
  | POP =>
    have hpop : popsPc insn = true := by simpa [plainStep, hid] using hp
    simp only [hpop, if_true]
    exact ⟨_, rfl⟩
  | BLX =>
    rw [plainStep, hid] at hp
    simp only at hp
    split at hp <;> simp at hp
  | TBB =>
    have hu : ¬ (insn.operands.length = 1 ∧ (insn.op 0).type = .MEM ∧
        (insn.op 0).mem_base = .PC) := by
      intro hu
      simp [plainStep, hid, pcTable, hu] at hp
    simp only [hu, if_false]
    exact ⟨_, rfl⟩
  | LDR =>
    rw [plainStep, hid] at hp
    simp only at hp
    split at hp <;> simp at hp
  | OTHER => simp [plainStep, hid] at hp

/-- An instruction that only inserts its record, after which the path goes on
with the tracker cleared. -/
theorem run_plain_next (env : Env) (fuel : Nat) (a : Nat) (l : Label) (offset total : Nat)
    (reg : arm_reg) (la ld : Nat) (refs : RefDB) (insn : cs_insn)
    (hd : decodeAt env offset = some insn) (hc : refs.contains offset = false)
    (hp : plainStep insn reg = some false) :
    run env (fuel + 1) (.loop a l offset total reg la ld) refs =
      run env fuel (.loop a l (offset + insn.size) (total + 1) .INVALID la ld)
        (refs.add offset (newInstr env insn a l offset)) := by
  simp only [run, hd, hc, Bool.false_eq_true, if_false]
  cases hid : insn.id with
  | B => simp [plainStep, hid] at hp
  | CBZ => simp [plainStep, hid] at hp
  | CBNZ => simp [plainStep, hid] at hp
  | BL => simp [plainStep, hid] at hp
  | BX =>
    rw [plainStep, hid] at hp
    simp only at hp
    split at hp <;> simp at hp
  | POP =>
    have hpop : popsPc insn = false := by simpa [plainStep, hid] using hp
    simp only [hpop, Bool.false_eq_true, if_false]
  | BLX =>
    have hu : ¬ (reg ≠ .INVALID ∧ (insn.op 0).reg = reg) := by
      intro hu
      simp [plainStep, hid, usesLoad, hu] at hp
    simp only [hu, if_false]
  | TBB =>
    rw [plainStep, hid] at hp
    simp only at hp
    split at hp <;> simp at hp
  | LDR =>
    have hu : ¬ (insn.operands.length = 2 ∧ (insn.op 1).type = .MEM ∧
        (insn.op 1).mem_base = .PC) := by
      intro hu
      simp [plainStep, hid, pcLoad, hu] at hp
    simp only [hu, if_false]
  | OTHER => rfl

/-- A direct branch or call: the target is entered, and the path goes on
unless the branch is unconditional. -/
theorem run_direct (env : Env) (fuel : Nat) (a : Nat) (l : Label) (offset total : Nat)
    (reg : arm_reg) (la ld : Nat) (refs : RefDB) (insn : cs_insn) (t : Nat) (lab : Label)
    (str : String) (stop : Bool)
    (hd : decodeAt env offset = some insn) (hc : refs.contains offset = false)
    (hdc : directCall env insn = some (t, lab, str, stop)) :
    run env (fuel + 1) (.loop a l offset total reg la ld) refs =
      (run env fuel (.enter t lab)
        ((refs.add offset (newInstr env insn a l offset)).modify env.dflt offset
          (setTarget t str))).andThen fun refs3 n =>
        if stop then .done refs3 (total + n + 1)
        else run env fuel (.loop a l (offset + insn.size) (total + n + 1) .INVALID la ld) refs3 := by
  simp only [run, hd, hc, Bool.false_eq_true, if_false]
  cases hid : insn.id with
  | B =>
    rw [directCall, hid] at hdc
    simp only at hdc
    split at hdc
    · next ha =>
      have ha' : insn.operands.length = 1 ∧ (insn.op 0).type = .IMM := ha
      simp only [Option.some.injEq, Prod.mk.injEq] at hdc
      obtain ⟨rfl, rfl, rfl, rfl⟩ := hdc
      simp only [ha', and_self, if_true, Outcome.andThen, decide_eq_true_eq]
    · cases hdc
  | CBZ =>
    rw [directCall, hid] at hdc
    simp only [Option.some.injEq, Prod.mk.injEq] at hdc
    obtain ⟨rfl, rfl, rfl, rfl⟩ := hdc
    simp only [Outcome.andThen, Bool.false_eq_true, if_false]
  | CBNZ =>
    rw [directCall, hid] at hdc
    simp only [Option.some.injEq, Prod.mk.injEq] at hdc
    obtain ⟨rfl, rfl, rfl, rfl⟩ := hdc
    simp only [Outcome.andThen, Bool.false_eq_true, if_false]
  | BL =>
    rw [directCall, hid] at hdc
    simp only at hdc
    split at hdc
    · next ha =>
      have ha' : insn.operands.length = 1 ∧ (insn.op 0).type = .IMM := ha
      simp only [Option.some.injEq, Prod.mk.injEq] at hdc
      obtain ⟨rfl, rfl, rfl, rfl⟩ := hdc
      simp only [ha', and_self, if_true, Outcome.andThen, Bool.false_eq_true, if_false]
    · cases hdc
  | BX => simp [directCall, hid] at hdc
  | POP => simp [directCall, hid] at hdc
  | BLX => simp [directCall, hid] at hdc
  | TBB => simp [directCall, hid] at hdc
  | LDR => simp [directCall, hid] at hdc
  | OTHER => simp [directCall, hid] at hdc

/-- A resolved indirect branch or call: the literal is rewritten, the target
is entered and the flag is set; the path goes on after a BLX. -/
theorem run_indirect (env : Env) (fuel : Nat) (a : Nat) (l : Label) (offset total : Nat)
    (reg : arm_reg) (la ld : Nat) (refs : RefDB) (insn : cs_insn) (t : Nat) (lab : Label)
    (stop : Bool)
    (hd : decodeAt env offset = some insn) (hc : refs.contains offset = false)
    (hic : indirectCall env insn reg ld = some (t, lab, stop)) :
    run env (fuel + 1) (.loop a l offset total reg la ld) refs =
      (run env fuel (.enter t lab)
        (((refs.add offset (newInstr env insn a l offset)).modify env.dflt offset
          (setComment t)).modify env.dflt la (setWord t))).andThen fun refs4 n =>
        if stop then .done (refs4.modify env.dflt (sub64 env.base t) setThumb) (total + n + 1)
        else run env fuel (.loop a l (offset + insn.size) (total + n + 1) .INVALID la ld)
          (refs4.modify env.dflt (sub64 env.base t) setThumb) := by
  have hu : reg ≠ .INVALID ∧ (insn.op 0).reg = reg :=
    indirectCall_usesLoad env insn reg ld t lab stop hic
  simp only [run, hd, hc, Bool.false_eq_true, if_false]
  cases hid : insn.id with
  | BX =>
    rw [indirectCall, hid] at hic
    simp only [usesLoad, hu, ne_eq, not_false_eq_true, and_self, if_true, Option.some.injEq,
      Prod.mk.injEq] at hic
    obtain ⟨rfl, rfl, rfl⟩ := hic
    simp only [hu, ne_eq, not_false_eq_true, and_self, if_true, Outcome.andThen]
  | BLX =>
    rw [indirectCall, hid] at hic
    simp only [usesLoad, hu, ne_eq, not_false_eq_true, and_self, if_true, Option.some.injEq,
      Prod.mk.injEq] at hic
    obtain ⟨rfl, rfl, rfl⟩ := hic
    simp only [hu, ne_eq, not_false_eq_true, and_self, if_true, Outcome.andThen,
      Bool.false_eq_true, if_false]
  | B => simp [indirectCall, hid] at hic
  | CBZ => simp [indirectCall, hid] at hic
  | CBNZ => simp [indirectCall, hid] at hic
  | BL => simp [indirectCall, hid] at hic
  | POP => simp [indirectCall, hid] at hic
  | TBB => simp [indirectCall, hid] at hic
  | LDR => simp [indirectCall, hid] at hic
  | OTHER => simp [indirectCall, hid] at hic

/-- A B or BL that fails its `zassert`. -/
theorem run_assert (env : Env) (fuel : Nat) (a : Nat) (l : Label) (offset total : Nat)
    (reg : arm_reg) (la ld : Nat) (refs : RefDB) (insn : cs_insn)
    (hd : decodeAt env offset = some insn) (hc : refs.contains offset = false)
    (hid : insn.id = .B ∨ insn.id = .BL) (hn : ¬ oneImm insn) :
    run env (fuel + 1) (.loop a l offset total reg la ld) refs = .aborted := by
  have hn' : ¬ (insn.operands.length = 1 ∧ (insn.op 0).type = .IMM) := hn
  simp only [run, hd, hc, Bool.false_eq_true, if_false]
  rcases hid with hid | hid <;> simp only [hid, hn', if_false]

/-- The cases of the `switch` at line 99. -/
theorem insn_cases (env : Env) (insn : cs_insn) (reg : arm_reg) (ld : Nat) :
    (∃ b, plainStep insn reg = some b) ∨
    (∃ t lab str stop, directCall env insn = some (t, lab, str, stop)) ∨
    (∃ t lab stop, indirectCall env insn reg ld = some (t, lab, stop)) ∨
    (insn.id = .LDR ∧ pcLoad insn) ∨
    (insn.id = .TBB ∧ pcTable insn) ∨
    ((insn.id = .B ∨ insn.id = .BL) ∧ ¬ oneImm insn) := by
  cases hid : insn.id with
  | B =>
    by_cases ha : oneImm insn
    · exact Or.inr (Or.inl ⟨_, _, _, _, by simp [directCall, hid, ha]; exact ⟨rfl, rfl, rfl, rfl⟩⟩)
    · exact Or.inr (Or.inr (Or.inr (Or.inr (Or.inr ⟨Or.inl rfl, ha⟩))))
  | CBZ => exact Or.inr (Or.inl ⟨_, _, _, _, by simp [directCall, hid]; exact ⟨rfl, rfl, rfl, rfl⟩⟩)
  | CBNZ => exact Or.inr (Or.inl ⟨_, _, _, _, by simp [directCall, hid]; exact ⟨rfl, rfl, rfl, rfl⟩⟩)
  | BL =>
    by_cases ha : oneImm insn
    · exact Or.inr (Or.inl ⟨_, _, _, _, by simp [directCall, hid, ha]; exact ⟨rfl, rfl, rfl, rfl⟩⟩)
    · exact Or.inr (Or.inr (Or.inr (Or.inr (Or.inr ⟨Or.inr rfl, ha⟩))))
  | BX =>
    by_cases hu : usesLoad insn reg
    · exact Or.inr (Or.inr (Or.inl ⟨_, _, _, by simp [indirectCall, hid, hu]; exact ⟨rfl, rfl, rfl⟩⟩))
    · exact Or.inl ⟨true, by simp [plainStep, hid, hu]⟩
  | POP => exact Or.inl ⟨popsPc insn, by simp [plainStep, hid]⟩
  | BLX =>
    by_cases hu : usesLoad insn reg
    · exact Or.inr (Or.inr (Or.inl ⟨_, _, _, by simp [indirectCall, hid, hu]; exact ⟨rfl, rfl, rfl⟩⟩))
    · exact Or.inl ⟨false, by simp [plainStep, hid, hu]⟩
  | TBB =>
    by_cases hu : pcTable insn
    · exact Or.inr (Or.inr (Or.inr (Or.inr (Or.inl ⟨rfl, hu⟩))))
    · exact Or.inl ⟨true, by simp [plainStep, hid, hu]⟩
  | LDR =>
    by_cases hu : pcLoad insn
    · exact Or.inr (Or.inr (Or.inr (Or.inl ⟨rfl, hu⟩)))
    · exact Or.inl ⟨false, by simp [plainStep, hid, hu]⟩
  | OTHER => exact Or.inl ⟨false, by simp [plainStep, hid]⟩

/-- The prelude of a call. -/
theorem run_enter (env : Env) (fuel : Nat) (a : Nat) (l : Label) (refs : RefDB) :
    run env (fuel + 1) (.enter a l) refs =
      if refs.contains (sub64 a env.base) then
        if l.type.ord ≤ (refs.index env.dflt (sub64 a env.base)).ltype.ord then
          .done (refs.modify env.dflt (sub64 a env.base) (setLabel l)) 0
        else .done refs 0
      else if env.base > a then .done refs 0
      else if sub64 a env.base ≥ env.image.length then .done refs 0
      else run env fuel (.loop a l (sub64 a env.base) 0 .INVALID 0 0) refs := by
  simp only [run]

/-- One round of the table scan. -/
theorem run_table (env : Env) (fuel : Nat) (offset size i min total : Nat) (refs : RefDB) :
    run env (fuel + 1) (.table offset size i min total) refs =
      if tableAddr env offset size i < min ∧
          tableTarget env offset size i > tableAddr env offset size i then
        (run env fuel
          (.enter (tableTarget env offset size i)
            ⟨.SWITCH, "switch_" ++ env.HEX (tableTarget env offset size i)⟩) refs).andThen
          fun refs1 n =>
            run env fuel (.table offset size (i + 1) (tableTarget env offset size i) (total + n))
              refs1
      else .done refs total := by
  simp only [run, Outcome.andThen]
  by_cases h1 : tableAddr env offset size i < min
  · by_cases h2 : tableTarget env offset size i > tableAddr env offset size i
    · simp only [h1, h2, and_self, if_true]
    · simp only [h1, h2, and_false, if_true, if_false]
  · simp only [h1, false_and, if_false]

/-! ## More fuel does not change a run that ended -/

theorem andThen_mono (o o' : Outcome) (k k' : RefDB → Nat → Outcome)
    (h : o.andThen k ≠ .nofuel) (ho : o ≠ .nofuel → o' = o)
    (hk : ∀ r n, k r n ≠ .nofuel → k' r n = k r n) : o'.andThen k' = o.andThen k := by
  cases o with
  | done r n =>
    rw [ho (by simp)]
    exact hk r n h
  | aborted =>
    rw [ho (by simp)]
    rfl
  | nofuel => exact absurd rfl h

/-- A run that ended is the same with one more unit of fuel. -/
theorem run_mono (env : Env) :
    ∀ (fuel : Nat) (task : Task) (refs : RefDB), run env fuel task refs ≠ .nofuel →
      run env (fuel + 1) task refs = run env fuel task refs := by
  intro fuel
  induction fuel with
  | zero =>
    intro task refs h
    simp [run] at h
  | succ fuel ih =>
    intro task refs h
    cases task with
    | enter a l =>
      rw [run_enter] at h
      rw [run_enter, run_enter]
      by_cases hc : refs.contains (sub64 a env.base) = true
      · simp only [hc, if_true]
      · simp only [hc, if_false] at h ⊢
        by_cases hb : env.base > a
        · simp only [hb, if_true]
        · simp only [hb, if_false] at h ⊢
          by_cases hl : sub64 a env.base ≥ env.image.length
          · simp only [hl, if_true]
          · simp only [hl, if_false] at h ⊢
            exact ih _ _ h
    | loop a l offset total reg la ld =>
      cases hd : decodeAt env offset with
      | none => rw [run_undecoded _ _ _ _ _ _ _ _ _ _ hd, run_undecoded _ _ _ _ _ _ _ _ _ _ hd]
      | some insn =>
        by_cases hc : refs.contains offset = true
        · rw [run_merged _ _ _ _ _ _ _ _ _ _ insn hd hc, run_merged _ _ _ _ _ _ _ _ _ _ insn hd hc]
        · have hc' : refs.contains offset = false := by simpa using hc
          rcases insn_cases env insn reg ld with ⟨b, hp⟩ | ⟨t, lab, str, stop, hdc⟩ |
            ⟨t, lab, stop, hic⟩ | ⟨hid, hpc⟩ | ⟨hid, hpc⟩ | ⟨hid, hn⟩
          · cases b with
            | true =>
              simp only [run, hd, hc', Bool.false_eq_true, if_false] at h ⊢
              cases hid : insn.id with
              | B => simp [plainStep, hid] at hp
              | CBZ => simp [plainStep, hid] at hp
              | CBNZ => simp [plainStep, hid] at hp
              | BL => simp [plainStep, hid] at hp
              | BX =>
                have hu : ¬ (reg ≠ .INVALID ∧ (insn.op 0).reg = reg) := by
                  intro hu
                  simp [plainStep, hid, usesLoad, hu] at hp
                simp only [hu, if_false]
              | POP =>
                have hpop : popsPc insn = true := by simpa [plainStep, hid] using hp
                simp only [hpop, if_true]
              | BLX =>
                rw [plainStep, hid] at hp
                simp only at hp
                split at hp <;> simp at hp
              | TBB =>
                have hu : ¬ (insn.operands.length = 1 ∧ (insn.op 0).type = .MEM ∧
                    (insn.op 0).mem_base = .PC) := by
                  intro hu
                  simp [plainStep, hid, pcTable, hu] at hp
                simp only [hu, if_false]
              | LDR =>
                rw [plainStep, hid] at hp
                simp only at hp
                split at hp <;> simp at hp
              | OTHER => simp [plainStep, hid] at hp
            | false =>
              rw [run_plain_next env fuel _ _ _ _ _ _ _ _ insn hd hc' hp] at h
              rw [run_plain_next env (fuel + 1) _ _ _ _ _ _ _ _ insn hd hc' hp, run_plain_next env fuel _ _ _ _ _ _ _ _ insn hd hc' hp]
              exact ih _ _ h
          · rw [run_direct env fuel _ _ _ _ _ _ _ _ insn t lab str stop hd hc' hdc] at h
            rw [run_direct env (fuel + 1) _ _ _ _ _ _ _ _ insn t lab str stop hd hc' hdc, run_direct env fuel _ _ _ _ _ _ _ _ insn t lab str stop hd hc' hdc]
            refine andThen_mono _ _ _ _ h (ih _ _) ?_
            intro r n hk
            cases stop with
            | true => rfl
            | false =>
              simp only [Bool.false_eq_true, if_false] at hk ⊢
              exact ih _ _ hk
          · rw [run_indirect env fuel _ _ _ _ _ _ _ _ insn t lab stop hd hc' hic] at h
            rw [run_indirect env (fuel + 1) _ _ _ _ _ _ _ _ insn t lab stop hd hc' hic, run_indirect env fuel _ _ _ _ _ _ _ _ insn t lab stop hd hc' hic]
            refine andThen_mono _ _ _ _ h (ih _ _) ?_
            intro r n hk
            cases stop with
            | true => rfl
            | false =>
              simp only [Bool.false_eq_true, if_false] at hk ⊢
              exact ih _ _ hk
          · rw [run_load env fuel _ _ _ _ _ _ _ _ insn hd hc' hid hpc] at h
            rw [run_load env (fuel + 1) _ _ _ _ _ _ _ _ insn hd hc' hid hpc, run_load env fuel _ _ _ _ _ _ _ _ insn hd hc' hid hpc]
            exact ih _ _ h
          · rw [run_scan env fuel _ _ _ _ _ _ _ _ insn hd hc' hid hpc] at h
            rw [run_scan env (fuel + 1) _ _ _ _ _ _ _ _ insn hd hc' hid hpc, run_scan env fuel _ _ _ _ _ _ _ _ insn hd hc' hid hpc]
            exact ih _ _ h
          · rw [run_assert _ _ _ _ _ _ _ _ _ _ insn hd hc' hid hn,
              run_assert _ _ _ _ _ _ _ _ _ _ insn hd hc' hid hn]
    | table offset size i min total =>
      rw [run_table] at h
      rw [run_table, run_table]
      split_ifs at h ⊢ with hcond
      · refine andThen_mono _ _ _ _ h (ih _ _) ?_
        intro r n hk
        exact ih _ _ hk
      · rfl

/-- A run that ended is the same with any larger fuel. -/
theorem run_mono_le (env : Env) (task : Task) (refs : RefDB) (fuel fuel' : Nat)
    (hle : fuel ≤ fuel') (h : run env fuel task refs ≠ .nofuel) :
    run env fuel' task refs = run env fuel task refs := by
  induction fuel' with
  | zero =>
    have h0 : fuel = 0 := by omega
    rw [h0]
  | succ n ih =>
    by_cases hn : fuel ≤ n
    · have hrec := ih hn
      rw [run_mono env n task refs (by rw [hrec]; exact h), hrec]
    · have h0 : fuel = n + 1 := by omega
      rw [h0]

/-! ## Keys are never removed -/

/-- A run removes no key. -/
theorem runs_keys (env : Env) (task : Task) (refs refs' : RefDB)
    (h : Runs env task refs refs') :
    ∀ o, refs.contains o = true → refs'.contains o = true := by
  induction h with
  | relabel a l refs hc hle => exact fun o ho => contains_modify_mono _ _ _ _ _ ho
  | keep a l refs hc hle => exact fun o ho => ho
  | reject a l refs hc hr => exact fun o ho => ho
  | start a l refs refs' hc hb hl _ ih => exact ih
  | undecoded a l offset total reg la ld refs hd => exact fun o ho => ho
  | merged a l offset total reg la ld refs insn hd hc => exact fun o ho => ho
  | plainStop a l offset total reg la ld refs insn hd hc hp =>
    exact fun o ho => contains_add_mono _ _ _ _ ho
  | plainNext a l offset total total' reg la ld refs refs' insn hd hc hp _ ih =>
    exact fun o ho => ih o (contains_add_mono _ _ _ _ ho)
  | callStop a l offset total reg la ld refs refs3 insn t lab str hd hc hdc _ ih =>
    exact fun o ho => ih o (contains_modify_mono _ _ _ _ _ (contains_add_mono _ _ _ _ ho))
  | callNext a l offset total total' reg la ld refs refs3 refs' insn t lab str hd hc hdc _ _
      ih1 ih2 =>
    exact fun o ho =>
      ih2 o (ih1 o (contains_modify_mono _ _ _ _ _ (contains_add_mono _ _ _ _ ho)))
  | indirectStop a l offset total reg la ld refs refs4 insn t lab hd hc hic _ ih =>
    exact fun o ho =>
      contains_modify_mono _ _ _ _ _
        (ih o (contains_modify_mono _ _ _ _ _
          (contains_modify_mono _ _ _ _ _ (contains_add_mono _ _ _ _ ho))))
  | indirectNext a l offset total total' reg la ld refs refs4 refs' insn t lab hd hc hic _ _
      ih1 ih2 =>
    exact fun o ho =>
      ih2 o (contains_modify_mono _ _ _ _ _
        (ih1 o (contains_modify_mono _ _ _ _ _
          (contains_modify_mono _ _ _ _ _ (contains_add_mono _ _ _ _ ho)))))
  | load a l offset total total' reg la ld refs refs' insn hd hc hid hpc _ ih =>
    exact fun o ho =>
      ih o (contains_add_mono _ _ _ _
        (contains_modify_mono _ _ _ _ _ (contains_add_mono _ _ _ _ ho)))
  | scan a l offset total reg la ld refs refs' insn hd hc hid hpc _ ih =>
    exact fun o ho => ih o (contains_add_mono _ _ _ _ ho)
  | tableEnd offset size i min total refs hn => exact fun o ho => ho
  | tableCase offset size i min total total' refs refs1 refs' h1 h2 _ _ ih1 ih2 =>
    exact fun o ho => ih2 o (ih1 o ho)

theorem length_filter_le_of_imp (xs : List Nat) (p q : Nat → Bool)
    (h : ∀ x ∈ xs, p x = true → q x = true) : (xs.filter p).length ≤ (xs.filter q).length := by
  induction xs with
  | nil => simp
  | cons x xs ih =>
    have ih' := ih (fun y hy => h y (List.mem_cons_of_mem _ hy))
    have hx := h x (List.mem_cons_self _ _)
    simp only [List.filter_cons]
    by_cases hp : p x = true
    · simp only [hp, hx hp, if_true, List.length_cons]
      omega
    · simp only [hp, if_false, Bool.false_eq_true]
      by_cases hq : q x = true
      · simp only [hq, if_true, List.length_cons]
        omega
      · simp only [hq, if_false, Bool.false_eq_true]
        exact ih'

theorem length_filter_lt_of_imp (xs : List Nat) (p q : Nat → Bool)
    (h : ∀ x ∈ xs, p x = true → q x = true) (x0 : Nat) (hx0 : x0 ∈ xs) (hq0 : q x0 = true)
    (hp0 : p x0 = false) : (xs.filter p).length < (xs.filter q).length := by
  induction xs with
  | nil => simp at hx0
  | cons x xs ih =>
    have hle := length_filter_le_of_imp xs p q (fun y hy => h y (List.mem_cons_of_mem _ hy))
    have hx := h x (List.mem_cons_self _ _)
    simp only [List.filter_cons]
    rcases List.mem_cons.mp hx0 with rfl | hmem
    · simp only [hp0, hq0, if_true, if_false, Bool.false_eq_true, List.length_cons]
      omega
    · have ih' := ih (fun y hy => h y (List.mem_cons_of_mem _ hy)) hmem
      by_cases hp : p x = true
      · simp only [hp, hx hp, if_true, List.length_cons]
        omega
      · simp only [hp, if_false, Bool.false_eq_true]
        by_cases hq : q x = true
        · simp only [hq, if_true, List.length_cons]
          omega
        · simp only [hq, if_false, Bool.false_eq_true]
          exact ih'

/-- More keys leave fewer free offsets. -/
theorem free_le (env : Env) (refs refs' : RefDB)
    (h : ∀ o, refs.contains o = true → refs'.contains o = true) :
    free env refs' ≤ free env refs := by
  unfold free
  apply length_filter_le_of_imp
  intro x _ hx
  cases hc : refs.contains x with
  | false => rfl
  | true =>
    rw [h x hc] at hx
    simp at hx

/-- A new key inside the image leaves strictly fewer free offsets. -/
theorem free_lt (env : Env) (refs refs' : RefDB) (o : Nat)
    (h : ∀ k, refs.contains k = true → refs'.contains k = true)
    (ho : refs.contains o = false) (ho' : refs'.contains o = true)
    (hlt : o < env.image.length) : free env refs' < free env refs := by
  unfold free
  apply length_filter_lt_of_imp _ _ _ ?_ o (List.mem_range.mpr hlt)
  · simp [ho]
  · simp [ho']
  · intro x _ hx
    cases hc : refs.contains x with
    | false => rfl
    | true =>
      rw [h x hc] at hx
      simp at hx

/-- A decoder that fails on empty input decodes only inside the image. -/
theorem decodeAt_lt (env : Env) (hempty : ∀ addr, env.decode [] addr = none) (offset : Nat)
    (insn : cs_insn) (hd : decodeAt env offset = some insn) : offset < env.image.length := by
  by_contra hge
  have hnil : env.image.drop offset = [] := List.drop_eq_nil_of_le (by omega)
  rw [decodeAt, hnil, hempty] at hd
  cases hd

/-! ## Termination -/

/-- A call that ends, followed by a continuation that ends after every return
of the call, ends. -/
theorem halts_andThen (env : Env) (task : Task) (refs : RefDB)
    (K : Nat → RefDB → Nat → Outcome)
    (hK : ∀ fuel fuel' r n, fuel ≤ fuel' → K fuel r n ≠ .nofuel → K fuel' r n = K fuel r n)
    (h1 : Halts env task refs)
    (h2 : ∀ r n, Runs env task refs r → ∃ fuel, K fuel r n ≠ .nofuel) :
    ∃ fuel, (run env fuel task refs).andThen (K fuel) ≠ .nofuel := by
  obtain ⟨f1, hf1⟩ := h1
  cases hr : run env f1 task refs with
  | done r n =>
    obtain ⟨f2, hf2⟩ := h2 r n (run_runs env f1 task refs r n hr)
    refine ⟨max f1 f2, ?_⟩
    rw [run_mono_le env task refs f1 (max f1 f2) (Nat.le_max_left _ _) hf1, hr]
    simp only [Outcome.andThen]
    rw [hK f2 (max f1 f2) r n (Nat.le_max_right _ _) hf2]
    exact hf2
  | aborted =>
    refine ⟨f1, ?_⟩
    rw [hr]
    simp [Outcome.andThen]
  | nofuel => exact absurd hr hf1

/-- Every task ends: by induction on the number of free offsets, and for the
table scan on the distance of the table address from `2 ^ 64`. -/
theorem halts_all (env : Env) (hempty : ∀ addr, env.decode [] addr = none) :
    ∀ (k : Nat) (refs : RefDB), free env refs ≤ k → ∀ task, Halts env task refs := by
  intro k
  induction k using Nat.strong_induction_on with
  | _ k ih =>
    -- the decode loop
    have hloop : ∀ (refs : RefDB), free env refs ≤ k →
        ∀ a l offset total reg la ld, Halts env (.loop a l offset total reg la ld) refs := by
      intro refs hk a l offset total reg la ld
      cases hd : decodeAt env offset with
      | none => exact ⟨1, by rw [run_undecoded _ _ _ _ _ _ _ _ _ _ hd]; simp⟩
      | some insn =>
        by_cases hc : refs.contains offset = true
        · exact ⟨1, by rw [run_merged _ _ _ _ _ _ _ _ _ _ insn hd hc]; simp⟩
        · have hc' : refs.contains offset = false := by simpa using hc
          have hlt := decodeAt_lt env hempty offset insn hd
          -- every database with the keys of `refs` and the key `offset` is at a lower level
          have hsub : ∀ r : RefDB, (∀ o, refs.contains o = true → r.contains o = true) →
              r.contains offset = true → ∀ task, Halts env task r := by
            intro r hr ho task
            have := free_lt env refs r offset hr hc' ho hlt
            exact ih (free env r) (by omega) r (Nat.le_refl _) task
          have hkeys1 : ∀ o, refs.contains o = true →
              (refs.add offset (newInstr env insn a l offset)).contains o = true :=
            fun o ho => contains_add_mono _ _ _ _ ho
          rcases insn_cases env insn reg ld with ⟨b, hp⟩ | ⟨t, lab, str, stop, hdc⟩ |
            ⟨t, lab, stop, hic⟩ | ⟨hid, hpc⟩ | ⟨hid, hpc⟩ | ⟨hid, hn⟩
          · cases b with
            | true =>
              obtain ⟨n, hn⟩ := run_plain_stop env 0 a l offset total reg la ld refs insn hd hc' hp
              exact ⟨1, by rw [hn]; simp⟩
            | false =>
              obtain ⟨f, hf⟩ := hsub _ hkeys1 (contains_add_self _ _ _)
                (.loop a l (offset + insn.size) (total + 1) .INVALID la ld)
              exact ⟨f + 1, by rw [run_plain_next env f _ _ _ _ _ _ _ _ insn hd hc' hp]; exact hf⟩
          · have hkeys2 : ∀ o, refs.contains o = true →
                ((refs.add offset (newInstr env insn a l offset)).modify env.dflt offset
                  (setTarget t str)).contains o = true :=
              fun o ho => contains_modify_mono _ _ _ _ _ (hkeys1 o ho)
            obtain ⟨f, hf⟩ := halts_andThen env (.enter t lab)
              ((refs.add offset (newInstr env insn a l offset)).modify env.dflt offset
                (setTarget t str))
              (fun fuel refs3 n =>
                if stop then .done refs3 (total + n + 1)
                else run env fuel (.loop a l (offset + insn.size) (total + n + 1) .INVALID la ld)
                  refs3)
              (by
                intro fuel fuel' r n hle hne
                cases stop with
                | true => rfl
                | false =>
                  simp only [Bool.false_eq_true, if_false] at hne ⊢
                  exact run_mono_le env _ r fuel fuel' hle hne)
              (hsub _ hkeys2 (contains_modify_self _ _ _ _) _)
              (by
                intro r n hr
                cases stop with
                | true => exact ⟨0, by simp⟩
                | false =>
                  simp only [Bool.false_eq_true, if_false]
                  exact hsub r (fun o ho => runs_keys env _ _ r hr o (hkeys2 o ho))
                    (runs_keys env _ _ r hr offset (contains_modify_self _ _ _ _)) _)
            refine ⟨f + 1, ?_⟩
            rw [run_direct env f _ _ _ _ _ _ _ _ insn t lab str stop hd hc' hdc]
            exact hf
          · have hkeys3 : ∀ o, refs.contains o = true →
                (((refs.add offset (newInstr env insn a l offset)).modify env.dflt offset
                  (setComment t)).modify env.dflt la (setWord t)).contains o = true :=
              fun o ho => contains_modify_mono _ _ _ _ _
                (contains_modify_mono _ _ _ _ _ (hkeys1 o ho))
            have hoff3 : (((refs.add offset (newInstr env insn a l offset)).modify env.dflt
                offset (setComment t)).modify env.dflt la (setWord t)).contains offset = true :=
              contains_modify_mono _ _ _ _ _ (contains_modify_self _ _ _ _)
            obtain ⟨f, hf⟩ := halts_andThen env (.enter t lab)
              (((refs.add offset (newInstr env insn a l offset)).modify env.dflt offset
                (setComment t)).modify env.dflt la (setWord t))
              (fun fuel refs4 n =>
                if stop then
                  .done (refs4.modify env.dflt (sub64 env.base t) setThumb) (total + n + 1)
                else run env fuel (.loop a l (offset + insn.size) (total + n + 1) .INVALID la ld)
                  (refs4.modify env.dflt (sub64 env.base t) setThumb))
              (by
                intro fuel fuel' r n hle hne
                cases stop with
                | true => rfl
                | false =>
                  simp only [Bool.false_eq_true, if_false] at hne ⊢
                  exact run_mono_le env _ _ fuel fuel' hle hne)
              (hsub _ hkeys3 hoff3 _)
              (by
                intro r n hr
                cases stop with
                | true => exact ⟨0, by simp⟩
                | false =>
                  simp only [Bool.false_eq_true, if_false]
                  exact hsub _
                    (fun o ho => contains_modify_mono _ _ _ _ _
                      (runs_keys env _ _ r hr o (hkeys3 o ho)))
                    (contains_modify_mono _ _ _ _ _ (runs_keys env _ _ r hr offset hoff3)) _)
            refine ⟨f + 1, ?_⟩
            rw [run_indirect env f _ _ _ _ _ _ _ _ insn t lab stop hd hc' hic]
            exact hf
          · obtain ⟨f, hf⟩ := hsub
              ((loadState env refs a l offset insn).add (loadKey env insn offset)
                (newData env (literalAddr env insn offset)
                  (env.readleu32 (loadKey env insn offset))))
              (fun o ho => contains_add_mono _ _ _ _ (contains_modify_mono _ _ _ _ _ (hkeys1 o ho)))
              (contains_add_mono _ _ _ _ (contains_modify_self _ _ _ _))
              (.loop a l (offset + insn.size) (total + 1) (insn.op 0).reg (loadKey env insn offset)
                (env.readleu32 (loadKey env insn offset)))
            exact ⟨f + 1, by rw [run_load env f _ _ _ _ _ _ _ _ insn hd hc' hid hpc]; exact hf⟩
          · obtain ⟨f, hf⟩ := hsub _ hkeys1 (contains_add_self _ _ _)
              (.table offset insn.size 0 (2 ^ 64 - 1) total)
            exact ⟨f + 1, by rw [run_scan env f _ _ _ _ _ _ _ _ insn hd hc' hid hpc]; exact hf⟩
          · exact ⟨1, by rw [run_assert _ _ _ _ _ _ _ _ _ _ insn hd hc' hid hn]; simp⟩
    -- a call
    have henter : ∀ (refs : RefDB), free env refs ≤ k → ∀ a l, Halts env (.enter a l) refs := by
      intro refs hk a l
      by_cases hc : refs.contains (sub64 a env.base) = true
      · refine ⟨1, ?_⟩
        rw [run_enter]
        simp only [hc, if_true]
        split_ifs <;> simp
      · by_cases hb : env.base > a
        · refine ⟨1, ?_⟩
          rw [run_enter]
          simp [hc, hb]
        · by_cases hl : sub64 a env.base ≥ env.image.length
          · refine ⟨1, ?_⟩
            rw [run_enter]
            simp [hc, hb, hl]
          · obtain ⟨f, hf⟩ := hloop refs hk a l (sub64 a env.base) 0 .INVALID 0 0
            refine ⟨f + 1, ?_⟩
            rw [run_start env f a l refs (by simpa using hc) (by omega) (by omega)]
            exact hf
    -- the table scan
    have htable : ∀ (m : Nat) (refs : RefDB), free env refs ≤ k →
        ∀ offset size i min total, 2 ^ 64 - tableAddr env offset size i ≤ m →
          Halts env (.table offset size i min total) refs := by
      intro m
      induction m with
      | zero =>
        intro refs _ offset size i min total hm
        have : tableAddr env offset size i < 2 ^ 64 := Nat.mod_lt _ (by norm_num)
        omega
      | succ m ihm =>
        intro refs hk offset size i min total hm
        by_cases hcond : tableAddr env offset size i < min ∧
            tableTarget env offset size i > tableAddr env offset size i
        · have hlt := tableTarget_lt env offset size i
          have hnext : tableAddr env offset size (i + 1) = tableAddr env offset size i + 1 := by
            have h2 := hcond.2
            unfold tableAddr at h2 hm ⊢
            omega
          obtain ⟨f, hf⟩ := halts_andThen env
            (.enter (tableTarget env offset size i)
              ⟨.SWITCH, "switch_" ++ env.HEX (tableTarget env offset size i)⟩) refs
            (fun fuel refs1 n =>
              run env fuel
                (.table offset size (i + 1) (tableTarget env offset size i) (total + n)) refs1)
            (fun fuel fuel' r n hle hne => run_mono_le env _ r fuel fuel' hle hne)
            (henter refs hk _ _)
            (by
              intro r n hr
              have hfree := free_le env refs r (runs_keys env _ refs r hr)
              exact ihm r (by omega) offset size (i + 1) _ _ (by omega))
          refine ⟨f + 1, ?_⟩
          rw [run_table]
          simp only [hcond, and_self, if_true]
          exact hf
        · refine ⟨1, ?_⟩
          rw [run_table]
          simp only [hcond, if_false]
          simp
    intro refs hk task
    cases task with
    | enter a l => exact henter refs hk a l
    | loop a l offset total reg la ld => exact hloop refs hk a l offset total reg la ld
    | table offset size i min total =>
      exact htable (2 ^ 64 - tableAddr env offset size i) refs hk offset size i min total
        (Nat.le_refl _)

/-- Claim C13. The follower terminates: for every image, base, RefDB state and
decoder that fails on empty input, `disassembleAddress(start_addr, label)`
ends, by a return or by a failed `zassert`, for every fuel from some bound
on, and with the same outcome: the recursion through the branch targets, the
decode loop and the table scan are finite. -/
theorem disassembleAddress_terminates (env : Env)
    (hempty : ∀ addr, env.decode [] addr = none) (refs : RefDB) (start_addr : Nat)
    (label : Label) :
    ∃ fuel, disassembleAddress env fuel refs start_addr label ≠ .nofuel ∧
      ∀ fuel', fuel ≤ fuel' →
        disassembleAddress env fuel' refs start_addr label =
          disassembleAddress env fuel refs start_addr label := by
  obtain ⟨fuel, hf⟩ :=
    halts_all env hempty (free env refs) refs (Nat.le_refl _) (.enter start_addr label)
  exact ⟨fuel, hf, fun fuel' hle => run_mono_le env _ refs fuel fuel' hle hf⟩

/-- Witness for C13: the subset decoder fails on empty input, so every call on
`tableImage` ends. -/
theorem disassembleAddress_terminates_witness :
    ∃ fuel,
      disassembleAddress (thumbEnv 0x1000 tableImage) fuel RefDB.empty 0x1000 ⟨.NAMED, "main"⟩
        ≠ .nofuel ∧
      ∀ fuel', fuel ≤ fuel' →
        disassembleAddress (thumbEnv 0x1000 tableImage) fuel' RefDB.empty 0x1000
            ⟨.NAMED, "main"⟩ =
          disassembleAddress (thumbEnv 0x1000 tableImage) fuel RefDB.empty 0x1000
            ⟨.NAMED, "main"⟩ :=
  disassembleAddress_terminates (thumbEnv 0x1000 tableImage) (fun _ => rfl) RefDB.empty 0x1000
    ⟨.NAMED, "main"⟩

/-! ## Resolution of targets -/

theorem good_refl (env : Env) (refs : RefDB) (h : LabelInv refs) : Good env refs refs where
  inv := h
  keep := fun _ hk => hk
  res := fun _ e he hf _ _ => Or.inr ⟨e, he, hf, rfl⟩

theorem good_trans (env : Env) {r1 r2 r3 : RefDB} (h12 : Good env r1 r2) (h23 : Good env r2 r3) :
    Good env r1 r3 where
  inv := h23.inv
  keep := fun k hk => h23.keep k (h12.keep k hk)
  res := by
    intro o e he hf ht hs
    rcases h23.res o e he hf ht hs with h | ⟨e2, he2, hf2, ht2⟩
    · exact Or.inl h
    · rcases h12.res o e2 he2 hf2 (by rw [ht2]; exact ht) (by rw [ht2]; exact hs) with
        h | ⟨e1, he1, hf1, ht1⟩
      · rw [ht2] at h
        exact Or.inl (h23.keep _ h)
      · exact Or.inr ⟨e1, he1, hf1, ht1.trans ht2⟩

/-- A step that stores records with the pending target `t`, followed by a part
of the run after which `t` is resolved. -/
theorem good_pending (env : Env) (refs refs2 refs3 : RefDB) (t : Nat)
    (hkeep : ∀ k, LabelledAt refs k → LabelledAt refs2 k)
    (hstep : ∀ o e2, refs2 o = some e2 →
      refs o = some e2 ∨ (e2.ftype = .F_TARGET → e2.target = t))
    (h23 : Good env refs2 refs3)
    (hpost : t < 2 ^ 64 → Starts env t → LabelledAt refs3 (sub64 t env.base)) :
    Good env refs refs3 where
  inv := h23.inv
  keep := fun k hk => h23.keep k (hkeep k hk)
  res := by
    intro o e he hf ht hs
    rcases h23.res o e he hf ht hs with h | ⟨e2, he2, hf2, ht2⟩
    · exact Or.inl h
    · rcases hstep o e2 he2 with h | h
      · exact Or.inr ⟨e2, h, hf2, ht2⟩
      · have htt : e.target = t := ht2.symm.trans (h hf2)
        rw [htt] at ht hs ⊢
        exact Or.inl (hpost ht hs)

theorem newInstr_labelInv (env : Env) (insn : cs_insn) (a : Nat) (l : Label) (offset : Nat)
    (hl : l.str ≠ "") :
    (newInstr env insn a l offset).label ≠ "" ∨ (newInstr env insn a l offset).ltype = .LNONE := by
  by_cases h : add64 env.base offset = a
  · left
    simp [newInstr, h, hl]
  · right
    simp [newInstr, h]

theorem newInstr_label (env : Env) (insn : cs_insn) (a : Nat) (l : Label) (offset : Nat)
    (h : add64 env.base offset = a) : (newInstr env insn a l offset).label = l.str := by
  simp [newInstr, h]

/-- The insertion of an instruction's record, with an assignment through
`tins` that keeps label and kind. -/
theorem insert_facts (env : Env) (refs : RefDB) (insn : cs_insn) (a : Nat) (l : Label)
    (offset : Nat) (f : RefElem → RefElem)
    (hf : ∀ e, (f e).label = e.label ∧ (f e).ltype = e.ltype)
    (hinv : LabelInv refs) (hc : refs.contains offset = false) (hl : l.str ≠ "") :
    LabelInv ((refs.add offset (newInstr env insn a l offset)).modify env.dflt offset f) ∧
    (∀ k, LabelledAt refs k →
      LabelledAt ((refs.add offset (newInstr env insn a l offset)).modify env.dflt offset f) k) ∧
    (add64 env.base offset = a →
      LabelledAt ((refs.add offset (newInstr env insn a l offset)).modify env.dflt offset f)
        offset) := by
  refine ⟨?_, ?_, ?_⟩
  · intro o e he
    by_cases ho : o = offset
    · subst ho
      rw [add_modify_self] at he
      cases he
      rw [(hf _).1, (hf _).2]
      exact newInstr_labelInv env insn a l o hl
    · rw [modify_other _ _ _ _ _ ho, add_other _ _ _ _ ho] at he
      exact hinv o e he
  · rintro k ⟨e, he, hne⟩
    have hk : k ≠ offset := by
      intro hk
      rw [hk, none_of_contains hc] at he
      cases he
    exact ⟨e, by rw [modify_other _ _ _ _ _ hk, add_other _ _ _ _ hk]; exact he, hne⟩
  · intro ha
    exact ⟨_, add_modify_self _ _ _ _ _, by rw [(hf _).1, newInstr_label env insn a l offset ha]; exact hl⟩

/-- The plain insertion of an instruction's record. -/
theorem good_insert (env : Env) (refs : RefDB) (insn : cs_insn) (a : Nat) (l : Label)
    (offset : Nat) (hinv : LabelInv refs) (hc : refs.contains offset = false)
    (hl : l.str ≠ "") :
    Good env refs (refs.add offset (newInstr env insn a l offset)) ∧
    (add64 env.base offset = a →
      LabelledAt (refs.add offset (newInstr env insn a l offset)) offset) := by
  refine ⟨⟨?_, ?_, ?_⟩, ?_⟩
  · intro o e he
    by_cases ho : o = offset
    · subst ho
      rw [add_self] at he
      cases he
      exact newInstr_labelInv env insn a l o hl
    · rw [add_other _ _ _ _ ho] at he
      exact hinv o e he
  · rintro k ⟨e, he, hne⟩
    have hk : k ≠ offset := by
      intro hk
      rw [hk, none_of_contains hc] at he
      cases he
    exact ⟨e, by rw [add_other _ _ _ _ hk]; exact he, hne⟩
  · intro o e he hf _ _
    by_cases ho : o = offset
    · subst ho
      rw [add_self] at he
      cases he
      simp [newInstr] at hf
    · rw [add_other _ _ _ _ ho] at he
      exact Or.inr ⟨e, he, hf, rfl⟩
  · intro ha
    exact ⟨_, add_self _ _ _, by rw [newInstr_label env insn a l offset ha]; exact hl⟩

/-- An assignment through `refs[k]` that keeps label, kind, format and target
and creates no `F_TARGET` record. -/
theorem good_modify (env : Env) (hd1 : env.dflt.ftype = .F_STRING)
    (hd2 : env.dflt.ltype = .LNONE ∨ env.dflt.label ≠ "") (refs : RefDB) (k : Nat)
    (f : RefElem → RefElem)
    (hf : ∀ e, (f e).label = e.label ∧ (f e).ltype = e.ltype ∧ (f e).ftype = e.ftype ∧
      (f e).target = e.target)
    (hinv : LabelInv refs) : Good env refs (refs.modify env.dflt k f) where
  inv := by
    intro o e he
    by_cases ho : o = k
    · subst ho
      cases hr : refs o with
      | none =>
        simp only [RefDB.modify, RefDB.index, hr, Option.getD_none, add_self,
          Option.some.injEq] at he
        subst he
        rw [(hf _).1, (hf _).2.1]
        exact hd2.symm
      | some e0 =>
        rw [modify_self _ _ _ _ _ hr] at he
        cases he
        rw [(hf _).1, (hf _).2.1]
        exact hinv o e0 hr
    · rw [modify_other _ _ _ _ _ ho] at he
      exact hinv o e he
  keep := by
    rintro j ⟨e, he, hne⟩
    by_cases hj : j = k
    · subst hj
      exact ⟨f e, modify_self _ _ _ _ _ he, by rw [(hf e).1]; exact hne⟩
    · exact ⟨e, by rw [modify_other _ _ _ _ _ hj]; exact he, hne⟩
  res := by
    intro o e he hft _ _
    by_cases ho : o = k
    · subst ho
      cases hr : refs o with
      | none =>
        simp only [RefDB.modify, RefDB.index, hr, Option.getD_none, add_self,
          Option.some.injEq] at he
        subst he
        rw [(hf _).2.2.1, hd1] at hft
        cases hft
      | some e0 =>
        rw [modify_self _ _ _ _ _ hr] at he
        cases he
        exact Or.inr ⟨e0, rfl, by rw [← (hf e0).2.2.1]; exact hft, ((hf e0).2.2.2).symm⟩
    · rw [modify_other _ _ _ _ _ ho] at he
      exact Or.inr ⟨e, he, hft, rfl⟩

/-- The assignments of lines 41-42 with a non-empty label. -/
theorem good_relabel (env : Env) (refs : RefDB) (k : Nat) (l : Label) (hl : l.str ≠ "")
    (hc : refs.contains k = true) (hinv : LabelInv refs) :
    Good env refs (refs.modify env.dflt k (setLabel l)) ∧
      LabelledAt (refs.modify env.dflt k (setLabel l)) k := by
  obtain ⟨e0, he0⟩ := some_of_contains hc
  refine ⟨⟨?_, ?_, ?_⟩, ⟨_, modify_self _ _ _ _ _ he0, hl⟩⟩
  · intro o e he
    by_cases ho : o = k
    · subst ho
      rw [modify_self _ _ _ _ _ he0] at he
      cases he
      exact Or.inl hl
    · rw [modify_other _ _ _ _ _ ho] at he
      exact hinv o e he
  · rintro j ⟨e, he, hne⟩
    by_cases hj : j = k
    · subst hj
      exact ⟨_, modify_self _ _ _ _ _ he0, hl⟩
    · exact ⟨e, by rw [modify_other _ _ _ _ _ hj]; exact he, hne⟩
  · intro o e he hft _ _
    by_cases ho : o = k
    · subst ho
      rw [modify_self _ _ _ _ _ he0] at he
      cases he
      exact Or.inr ⟨e0, he0, hft, rfl⟩
    · rw [modify_other _ _ _ _ _ ho] at he
      exact Or.inr ⟨e, he, hft, rfl⟩

theorem directCall_named (env : Env) (insn : cs_insn) (t : Nat) (lab : Label) (str : String)
    (stop : Bool) (h : directCall env insn = some (t, lab, str, stop)) : lab.str ≠ "" := by
  unfold directCall at h
  split at h
  · split at h
    · simp only [Option.some.injEq, Prod.mk.injEq] at h
      rw [← h.2.1]
      exact append_ne_empty _ _ (by decide)
    · cases h
  · simp only [Option.some.injEq, Prod.mk.injEq] at h
    rw [← h.2.1]
    exact append_ne_empty _ _ (by decide)
  · simp only [Option.some.injEq, Prod.mk.injEq] at h
    rw [← h.2.1]
    exact append_ne_empty _ _ (by decide)
  · split at h
    · simp only [Option.some.injEq, Prod.mk.injEq] at h
      rw [← h.2.1]
      exact append_ne_empty _ _ (by decide)
    · cases h
  · cases h

theorem indirectCall_named (env : Env) (insn : cs_insn) (reg : arm_reg) (ld t : Nat)
    (lab : Label) (stop : Bool) (h : indirectCall env insn reg ld = some (t, lab, stop)) :
    lab.str ≠ "" := by
  unfold indirectCall at h
  split at h
  · split at h
    · simp only [Option.some.injEq, Prod.mk.injEq] at h
      rw [← h.2.1]
      exact append_ne_empty _ _ (by decide)
    · cases h
  · split at h
    · simp only [Option.some.injEq, Prod.mk.injEq] at h
      rw [← h.2.1]
      exact append_ne_empty _ _ (by decide)
    · cases h
  · cases h

theorem inv_modify (dflt : RefElem) (hd2 : dflt.ltype = .LNONE ∨ dflt.label ≠ "")
    (refs : RefDB) (k : Nat) (f : RefElem → RefElem)
    (hf : ∀ e, (f e).label = e.label ∧ (f e).ltype = e.ltype) (hinv : LabelInv refs) :
    LabelInv (refs.modify dflt k f) := by
  intro o e he
  by_cases ho : o = k
  · subst ho
    cases hr : refs o with
    | none =>
      simp only [RefDB.modify, RefDB.index, hr, Option.getD_none, add_self,
        Option.some.injEq] at he
      subst he
      rw [(hf _).1, (hf _).2]
      exact hd2.symm
    | some e0 =>
      rw [modify_self _ _ _ _ _ hr] at he
      cases he
      rw [(hf _).1, (hf _).2]
      exact hinv o e0 hr
  · rw [modify_other _ _ _ _ _ ho] at he
    exact hinv o e he

theorem keep_modify (dflt : RefElem) (refs : RefDB) (k : Nat) (f : RefElem → RefElem)
    (hf : ∀ e, (f e).label = e.label) (j : Nat) (h : LabelledAt refs j) :
    LabelledAt (refs.modify dflt k f) j := by
  obtain ⟨e, he, hne⟩ := h
  by_cases hj : j = k
  · subst hj
    exact ⟨f e, modify_self _ _ _ _ _ he, by rw [hf e]; exact hne⟩
  · exact ⟨e, by rw [modify_other _ _ _ _ _ hj]; exact he, hne⟩

theorem newData_label (env : Env) (laddr w : Nat) : (newData env laddr w).label ≠ "" :=
  append_ne_empty _ _ (by decide)

/-- The LDR case: the instruction's record gets the literal address as target,
and the `DATA` record stored at the literal offset resolves it. -/
theorem good_load (env : Env) (hd1 : env.dflt.ftype = .F_STRING) (refs : RefDB)
    (insn : cs_insn) (a : Nat) (l : Label) (offset laddr w : Nat) (hinv : LabelInv refs)
    (hc : refs.contains offset = false) (hl : l.str ≠ "") :
    Good env refs
      (((refs.add offset (newInstr env insn a l offset)).modify env.dflt offset
        (setComment laddr)).add (sub64 laddr env.base) (newData env laddr w)) ∧
    (add64 env.base offset = a →
      LabelledAt
        (((refs.add offset (newInstr env insn a l offset)).modify env.dflt offset
          (setComment laddr)).add (sub64 laddr env.base) (newData env laddr w)) offset) := by
  obtain ⟨h2inv, h2keep, h2self⟩ :=
    insert_facts env refs insn a l offset (setComment laddr) (fun _ => ⟨rfl, rfl⟩) hinv hc hl
  have hdata : LabelledAt
      (((refs.add offset (newInstr env insn a l offset)).modify env.dflt offset
        (setComment laddr)).add (sub64 laddr env.base) (newData env laddr w))
      (sub64 laddr env.base) := ⟨_, add_self _ _ _, newData_label env laddr w⟩
  have hkeep2 : ∀ k, LabelledAt
      ((refs.add offset (newInstr env insn a l offset)).modify env.dflt offset
        (setComment laddr)) k →
      LabelledAt
        (((refs.add offset (newInstr env insn a l offset)).modify env.dflt offset
          (setComment laddr)).add (sub64 laddr env.base) (newData env laddr w)) k := by
    rintro k ⟨e, he, hne⟩
    by_cases hk : k = sub64 laddr env.base
    · rw [hk]
      exact hdata
    · exact ⟨e, by rw [add_other _ _ _ _ hk]; exact he, hne⟩
  refine ⟨⟨?_, ?_, ?_⟩, ?_⟩
  · intro o e he
    by_cases ho : o = sub64 laddr env.base
    · rw [ho, add_self] at he
      cases he
      exact Or.inl (newData_label env laddr w)
    · rw [add_other _ _ _ _ ho] at he
      exact h2inv o e he
  · exact fun k hk => hkeep2 k (h2keep k hk)
  · intro o e he hft _ _
    by_cases ho : o = sub64 laddr env.base
    · rw [ho, add_self] at he
      cases he
      have : (newData env laddr w).ftype = .F_STRING := hd1
      rw [this] at hft
      cases hft
    · rw [add_other _ _ _ _ ho] at he
      by_cases hoo : o = offset
      · rw [hoo, add_modify_self] at he
        cases he
        exact Or.inl hdata
      · rw [modify_other _ _ _ _ _ hoo, add_other _ _ _ _ hoo] at he
        exact Or.inr ⟨e, he, hft, rfl⟩
  · exact fun ha => hkeep2 offset (h2self ha)

/-- A run keeps the invariant on labels and the labelled keys, resolves the
targets it stores at which a call can start, and labels what its task names. -/
theorem runs_good (env : Env) (hd1 : env.dflt.ftype = .F_STRING)
    (hd2 : env.dflt.ltype = .LNONE ∨ env.dflt.label ≠ "") (task : Task) (refs refs' : RefDB)
    (h : Runs env task refs refs') :
    LabelInv refs → TaskNamed task → Good env refs refs' ∧ TaskLabelled env task refs refs' := by
  induction h with
  | relabel a l refs hc hle =>
    intro hinv hl
    obtain ⟨hg, hlab⟩ := good_relabel env refs (sub64 a env.base) l hl hc hinv
    exact ⟨hg, fun _ _ => hlab⟩
  | keep a l refs hc hle =>
    intro hinv _
    refine ⟨good_refl env refs hinv, fun _ _ => ?_⟩
    obtain ⟨e, he⟩ := some_of_contains hc
    rw [index_of_some he] at hle
    refine ⟨e, he, ?_⟩
    rcases hinv _ e he with h | h
    · exact h
    · rw [h] at hle
      exact absurd (ord_le_four l.type) hle
  | reject a l refs hc hr =>
    intro hinv _
    refine ⟨good_refl env refs hinv, fun _ hs => ?_⟩
    rcases hr with hr | hr
    · exact absurd hs.1 (by omega)
    · exact absurd hs.2.1 (by omega)
  | start a l refs refs' hc hb hl _ ih =>
    intro hinv hn
    obtain ⟨hg, hlab⟩ := ih hinv hn
    exact ⟨hg, fun ha hs => hlab hc (add64_sub64 a env.base ha) hs.2.2⟩
  | undecoded a l offset total reg la ld refs hd =>
    intro hinv _
    refine ⟨good_refl env refs hinv, ?_⟩
    intro _ _ hs
    rw [hd] at hs
    cases hs
  | merged a l offset total reg la ld refs insn hd hc =>
    intro hinv _
    refine ⟨good_refl env refs hinv, ?_⟩
    intro hc' _ _
    rw [hc] at hc'
    cases hc'
  | plainStop a l offset total reg la ld refs insn hd hc hp =>
    intro hinv hn
    obtain ⟨hg, hself⟩ := good_insert env refs insn a l offset hinv hc hn
    exact ⟨hg, fun _ ha _ => hself ha⟩
  | plainNext a l offset total total' reg la ld refs refs' insn hd hc hp _ ih =>
    intro hinv hn
    obtain ⟨hg, hself⟩ := good_insert env refs insn a l offset hinv hc hn
    obtain ⟨hg2, _⟩ := ih hg.inv hn
    exact ⟨good_trans env hg hg2, fun _ ha _ => hg2.keep _ (hself ha)⟩
  | callStop a l offset total reg la ld refs refs3 insn t lab str hd hc hdc _ ih =>
    intro hinv hn
    obtain ⟨h2inv, h2keep, h2self⟩ :=
      insert_facts env refs insn a l offset (setTarget t str) (fun _ => ⟨rfl, rfl⟩) hinv hc hn
    obtain ⟨hg3, hpost⟩ := ih h2inv (directCall_named env insn t lab str _ hdc)
    refine ⟨good_pending env refs _ refs3 t h2keep ?_ hg3 hpost,
      fun _ ha _ => hg3.keep _ (h2self ha)⟩
    intro o e2 he2
    by_cases ho : o = offset
    · rw [ho, add_modify_self] at he2
      cases he2
      exact Or.inr (fun _ => rfl)
    · rw [modify_other _ _ _ _ _ ho, add_other _ _ _ _ ho] at he2
      exact Or.inl he2
  | callNext a l offset total total' reg la ld refs refs3 refs' insn t lab str hd hc hdc _ _
      ih1 ih2 =>
    intro hinv hn
    obtain ⟨h2inv, h2keep, h2self⟩ :=
      insert_facts env refs insn a l offset (setTarget t str) (fun _ => ⟨rfl, rfl⟩) hinv hc hn
    obtain ⟨hg3, hpost⟩ := ih1 h2inv (directCall_named env insn t lab str _ hdc)
    have hg13 : Good env refs refs3 := by
      refine good_pending env refs _ refs3 t h2keep ?_ hg3 hpost
      intro o e2 he2
      by_cases ho : o = offset
      · rw [ho, add_modify_self] at he2
        cases he2
        exact Or.inr (fun _ => rfl)
      · rw [modify_other _ _ _ _ _ ho, add_other _ _ _ _ ho] at he2
        exact Or.inl he2
    obtain ⟨hg4, _⟩ := ih2 hg3.inv hn
    exact ⟨good_trans env hg13 hg4, fun _ ha _ => hg4.keep _ (hg3.keep _ (h2self ha))⟩
  | indirectStop a l offset total reg la ld refs refs4 insn t lab hd hc hic _ ih =>
    intro hinv hn
    obtain ⟨h2inv, h2keep, h2self⟩ :=
      insert_facts env refs insn a l offset (setComment t) (fun _ => ⟨rfl, rfl⟩) hinv hc hn
    have h3inv := inv_modify env.dflt hd2 _ la (setWord t) (fun _ => ⟨rfl, rfl⟩) h2inv
    obtain ⟨hg4, hpost⟩ := ih h3inv (indirectCall_named env insn reg ld t lab _ hic)
    have hg14 : Good env refs refs4 := by
      refine good_pending env refs _ refs4 t
        (fun k hk => keep_modify env.dflt _ la (setWord t) (fun _ => rfl) k (h2keep k hk))
        ?_ hg4 hpost
      intro o e3 he3
      by_cases hla : o = la
      · right
        intro _
        rw [hla] at he3
        simp only [RefDB.modify, add_self, Option.some.injEq] at he3
        rw [← he3]
        rfl
      · rw [modify_other _ _ _ _ _ hla] at he3
        by_cases ho : o = offset
        · rw [ho, add_modify_self] at he3
          cases he3
          exact Or.inr (fun _ => rfl)
        · rw [modify_other _ _ _ _ _ ho, add_other _ _ _ _ ho] at he3
          exact Or.inl he3
    have hg5 := good_modify env hd1 hd2 refs4 (sub64 env.base t) setThumb
      (fun _ => ⟨rfl, rfl, rfl, rfl⟩) hg4.inv
    exact ⟨good_trans env hg14 hg5,
      fun _ ha _ => hg5.keep _ (hg4.keep _
        (keep_modify env.dflt _ la (setWord t) (fun _ => rfl) _ (h2self ha)))⟩
  | indirectNext a l offset total total' reg la ld refs refs4 refs' insn t lab hd hc hic _ _
      ih1 ih2 =>
    intro hinv hn
    obtain ⟨h2inv, h2keep, h2self⟩ :=
      insert_facts env refs insn a l offset (setComment t) (fun _ => ⟨rfl, rfl⟩) hinv hc hn
    have h3inv := inv_modify env.dflt hd2 _ la (setWord t) (fun _ => ⟨rfl, rfl⟩) h2inv
    obtain ⟨hg4, hpost⟩ := ih1 h3inv (indirectCall_named env insn reg ld t lab _ hic)
    have hg14 : Good env refs refs4 := by
      refine good_pending env refs _ refs4 t
        (fun k hk => keep_modify env.dflt _ la (setWord t) (fun _ => rfl) k (h2keep k hk))
        ?_ hg4 hpost
      intro o e3 he3
      by_cases hla : o = la
      · right
        intro _
        rw [hla] at he3
        simp only [RefDB.modify, add_self, Option.some.injEq] at he3
        rw [← he3]
        rfl
      · rw [modify_other _ _ _ _ _ hla] at he3
        by_cases ho : o = offset
        · rw [ho, add_modify_self] at he3
          cases he3
          exact Or.inr (fun _ => rfl)
        · rw [modify_other _ _ _ _ _ ho, add_other _ _ _ _ ho] at he3
          exact Or.inl he3
    have hg5 := good_modify env hd1 hd2 refs4 (sub64 env.base t) setThumb
      (fun _ => ⟨rfl, rfl, rfl, rfl⟩) hg4.inv
    obtain ⟨hg6, _⟩ := ih2 hg5.inv hn
    exact ⟨good_trans env hg14 (good_trans env hg5 hg6),
      fun _ ha _ => hg6.keep _ (hg5.keep _ (hg4.keep _
        (keep_modify env.dflt _ la (setWord t) (fun _ => rfl) _ (h2self ha))))⟩
  | load a l offset total total' reg la ld refs refs' insn hd hc hid hpc _ ih =>
    intro hinv hn
    obtain ⟨hg3, hself⟩ := good_load env hd1 refs insn a l offset (literalAddr env insn offset)
      (env.readleu32 (sub64 (literalAddr env insn offset) env.base)) hinv hc hn
    obtain ⟨hg4, _⟩ := ih hg3.inv hn
    exact ⟨good_trans env hg3 hg4, fun _ ha _ => hg4.keep _ (hself ha)⟩
  | scan a l offset total reg la ld refs refs' insn hd hc hid hpc _ ih =>
    intro hinv hn
    obtain ⟨hg, hself⟩ := good_insert env refs insn a l offset hinv hc hn
    obtain ⟨hg2, _⟩ := ih hg.inv trivial
    exact ⟨good_trans env hg hg2, fun _ ha _ => hg2.keep _ (hself ha)⟩
  | tableEnd offset size i min total refs hn =>
    intro hinv _
    exact ⟨good_refl env refs hinv, trivial⟩
  | tableCase offset size i min total total' refs refs1 refs' h1 h2 _ _ ih1 ih2 =>
    intro hinv _
    obtain ⟨hg1, _⟩ := ih1 hinv (append_ne_empty _ _ (by decide))
    obtain ⟨hg2, _⟩ := ih2 hg1.inv trivial
    exact ⟨good_trans env hg1 hg2, trivial⟩

theorem resolved_of_good (env : Env) {refs refs' : RefDB} (hg : Good env refs refs')
    (hr : Resolved env refs) : Resolved env refs' := by
  intro o e he hf ht hs
  rcases hg.res o e he hf ht hs with h | ⟨e0, he0, hf0, ht0⟩
  · exact h
  · have := hr o e0 he0 hf0 (by rw [ht0]; exact ht) (by rw [ht0]; exact hs)
    rw [ht0] at this
    exact hg.keep _ this

/-- A sequence of entries keeps the invariant on labels and the resolution of
targets. -/
theorem addEntries_good (env : Env) (hd1 : env.dflt.ftype = .F_STRING)
    (hd2 : env.dflt.ltype = .LNONE ∨ env.dflt.label ≠ "") (fuel : Nat) :
    ∀ (entries : List (Nat × String)) (refs refs' : RefDB),
      LabelInv refs → Resolved env refs → addEntries env fuel refs entries = some refs' →
      LabelInv refs' ∧ Resolved env refs' := by
  intro entries
  induction entries with
  | nil =>
    intro refs refs' hinv hres h
    simp only [addEntries, Option.some.injEq] at h
    subst h
    exact ⟨hinv, hres⟩
  | cons c rest ih =>
    intro refs refs' hinv hres h
    obtain ⟨a, name⟩ := c
    simp only [addEntries] at h
    cases hr : addEntry env fuel refs a name with
    | done refs1 n =>
      rw [hr] at h
      have hruns := run_runs env fuel _ refs refs1 n hr
      have hname : (if name = "" then "loc_" ++ env.HEX a else name) ≠ "" := by
        split_ifs with hn
        · exact append_ne_empty _ _ (by decide)
        · exact hn
      obtain ⟨hg, _⟩ := runs_good env hd1 hd2 _ refs refs1 hruns hinv hname
      exact ih refs1 refs' hg.inv (resolved_of_good env hg hres) h
    | aborted =>
      rw [hr] at h
      cases h
    | nofuel =>
      rw [hr] at h
      cases h

/-- Claim C12 as stated fails: on `danglingImage`, `addEntry(0x1000, "main")`
follows the branch at `0x1004` into the middle of the first instruction, where
it decodes `b 0x1008`; the target `0x1008` lies inside the image, but no
instruction can be decoded there, so offset 8 is no key. The record of that
branch, at offset 2, lies inside the four-byte record at offset 0; the sweep
of `makeCode` steps over it and a listing is returned. -/
theorem label_resolution_counterexample :
    ∃ refs n r out,
      addEntry (thumbEnv 0x1000 danglingImage) 9 RefDB.empty 0x1000 "main" = .done refs n ∧
      refs 2 = some r ∧ r.ftype = .F_TARGET ∧ r.target = 0x1008 ∧
      0x1008 < 0x1000 + (thumbEnv 0x1000 danglingImage).image.length ∧
      refs (sub64 r.target 0x1000) = none ∧
      makeCode (thumbEnv 0x1000 danglingImage) refs 11 = some out ∧ out ≠ "" :=
  ⟨_, _, _, _, rfl, rfl, by decide!, by decide!, by decide, by decide!, rfl, by decide!⟩

/-- When the sweep from `i` reaches an unresolved record, the loop of
`makeCode` returns the empty result for every fuel from some bound on. -/
theorem makeCodeLoop_gives_up (env : Env) (refs : RefDB) (i j : Nat) (r : RefElem)
    (hs : SweptFrom env refs i j) (hj : j < env.image.length) (hr : refs j = some r)
    (hu : unresolved env refs r) :
    ∀ (prev : reftype) (asem : String),
      ∃ bound, ∀ fuel, bound ≤ fuel → makeCodeLoop env refs fuel i prev asem = some "" := by
  induction hs with
  | here i =>
    intro prev asem
    refine ⟨1, ?_⟩
    intro fuel hf
    obtain ⟨n, rfl⟩ : ∃ n, fuel = n + 1 := ⟨fuel - 1, by omega⟩
    rw [makeCodeLoop]
    simp only [hj, if_true, contains_of_some hr, index_of_some hr, hu.1]
    rcases hu.2 with hnone | ⟨t, ht, hl⟩
    · simp only [contains_of_none hnone, Bool.false_eq_true, if_false]
    · simp only [contains_of_some ht, if_true, index_of_some ht, hl]
  | ref i j r' hlt hri hres _ ih =>
    intro prev asem
    cases hf' : r'.ftype with
    | F_STRING =>
      obtain ⟨b, hb⟩ := ih hj hr ((r'.type)) (_)
      refine ⟨b + 1, ?_⟩
      intro fuel hf
      obtain ⟨n, rfl⟩ : ∃ n, fuel = n + 1 := ⟨fuel - 1, by omega⟩
      rw [makeCodeLoop]
      simp only [hlt, if_true, contains_of_some hri, index_of_some hri, hf']
      exact hb n (by omega)
    | F_TARGET =>
      cases hrt : refs (sub64 r'.target env.base) with
      | none => exact absurd ⟨hf', Or.inl hrt⟩ hres
      | some t =>
        have hl : t.label ≠ "" := fun hl => hres ⟨hf', Or.inr ⟨t, hrt, hl⟩⟩
        obtain ⟨b, hb⟩ := ih hj hr ((r'.type)) (_)
        refine ⟨b + 1, ?_⟩
        intro fuel hf
        obtain ⟨n, rfl⟩ : ∃ n, fuel = n + 1 := ⟨fuel - 1, by omega⟩
        rw [makeCodeLoop]
        simp only [hlt, if_true, contains_of_some hri, index_of_some hri, hf',
          contains_of_some hrt, index_of_some hrt, hl, if_false]
        exact hb n (by omega)
  | raw i j hlt hri _ ih =>
    intro prev asem
    obtain ⟨b, hb⟩ := ih hj hr .RAW (_)
    refine ⟨b + 1, ?_⟩
    intro fuel hf
    obtain ⟨n, rfl⟩ : ∃ n, fuel = n + 1 := ⟨fuel - 1, by omega⟩
    rw [makeCodeLoop]
    simp only [hlt, if_true, contains_of_none hri, Bool.false_eq_true, if_false]
    exact hb n (by omega)

/-- Claim C12, amended. For a default-constructed `RefElem` whose format is
`F_STRING` and which has the kind `LNONE` or a non-empty label: after any
sequence of `addEntry` calls from an empty RefDB, every `F_TARGET` record whose
target is an address (below `2 ^ 64`) inside `[base, base + image.size)` at
which the decoder decodes an instruction has `target - base` as a key with a
non-empty label; and whenever the sweep of `makeCode` reaches an `F_TARGET`
record whose target, less `base`, is no key or a key with an empty label,
`makeCode` returns, and what it returns is the empty result: for every fuel
from some bound on the result is `some ""`, and no fuel gives another
result. -/
theorem addEntries_resolved (env : Env) (hd1 : env.dflt.ftype = .F_STRING)
    (hd2 : env.dflt.ltype = .LNONE ∨ env.dflt.label ≠ "") (fuel : Nat)
    (entries : List (Nat × String)) (refs : RefDB)
    (h : addEntries env fuel RefDB.empty entries = some refs) :
    (∀ o e, refs o = some e → e.ftype = .F_TARGET → e.target < 2 ^ 64 →
      env.base ≤ e.target → sub64 e.target env.base < env.image.length →
      (decodeAt env (sub64 e.target env.base)).isSome = true →
      ∃ e', refs (sub64 e.target env.base) = some e' ∧ e'.label ≠ "") ∧
    ((∃ j r, SweptFrom env refs 0 j ∧ j < env.image.length ∧ refs j = some r ∧
        unresolved env refs r) →
      (∃ bound, ∀ fuel', bound ≤ fuel' → makeCode env refs fuel' = some "") ∧
      ∀ fuel' out, makeCode env refs fuel' = some out → out = "") := by
  have hinv0 : LabelInv RefDB.empty := by
    intro o e he
    cases he
  have hres0 : Resolved env RefDB.empty := by
    intro o e he
    cases he
  obtain ⟨_, hres⟩ := addEntries_good env hd1 hd2 fuel entries RefDB.empty refs hinv0 hres0 h
  refine ⟨fun o e he hf ht hb hl hdec => hres o e he hf ht ⟨hb, hl, hdec⟩, ?_⟩
  rintro ⟨j, r, hs, hj, hr, hu⟩
  refine ⟨makeCodeLoop_gives_up env refs 0 j r hs hj hr hu .DATA asmHeader, ?_⟩
  intro fuel' out hout
  rcases makeCodeLoop_spec env refs fuel' 0 .DATA asmHeader out hout with
    ⟨ho, _⟩ | ⟨units, hsw, _⟩
  · exact ho
  · exact absurd hu (specSweep_resolved env refs fuel' 0 .DATA units hsw j r hs hj hr)

/-- Witness for C12 amended: the entry at `0x1000` on `unresolvedImage`. The
target `0x1004` of the `beq` is decoded and labelled `jump_1004`; at the target
`0x1006` of the `b` nothing can be decoded, the sweep of `makeCode` reaches the
record of the `b` at offset 2, and `makeCode` returns the empty result. -/
theorem addEntries_resolved_witness :
    ∃ refs, addEntries (thumbEnv 0x1000 unresolvedImage) 9 RefDB.empty [(0x1000, "main")] =
        some refs ∧
      (refs 0).map (fun e => (e.ftype, e.target)) = some (.F_TARGET, 0x1004) ∧
      (refs 4).map (fun e => e.label) = some "jump_1004" ∧
      (∃ j r, SweptFrom (thumbEnv 0x1000 unresolvedImage) refs 0 j ∧
        j < (thumbEnv 0x1000 unresolvedImage).image.length ∧ refs j = some r ∧
        unresolved (thumbEnv 0x1000 unresolvedImage) refs r) ∧
      makeCode (thumbEnv 0x1000 unresolvedImage) refs 9 = some "" ∧
      (∀ o e, refs o = some e → e.ftype = .F_TARGET → e.target < 2 ^ 64 →
        (thumbEnv 0x1000 unresolvedImage).base ≤ e.target →
        sub64 e.target (thumbEnv 0x1000 unresolvedImage).base <
          (thumbEnv 0x1000 unresolvedImage).image.length →
        (decodeAt (thumbEnv 0x1000 unresolvedImage)
          (sub64 e.target (thumbEnv 0x1000 unresolvedImage).base)).isSome = true →
        ∃ e', refs (sub64 e.target (thumbEnv 0x1000 unresolvedImage).base) = some e' ∧
          e'.label ≠ "") ∧
      ((∃ j r, SweptFrom (thumbEnv 0x1000 unresolvedImage) refs 0 j ∧
          j < (thumbEnv 0x1000 unresolvedImage).image.length ∧ refs j = some r ∧
          unresolved (thumbEnv 0x1000 unresolvedImage) refs r) →
        (∃ bound, ∀ fuel', bound ≤ fuel' →
          makeCode (thumbEnv 0x1000 unresolvedImage) refs fuel' = some "") ∧
        ∀ fuel' out, makeCode (thumbEnv 0x1000 unresolvedImage) refs fuel' = some out →
          out = "") :=
  ⟨_, rfl, by decide!, by decide!,
    ⟨2, _, SweptFrom.ref 0 2 _ (by decide) rfl (by decide!) (SweptFrom.here 2), by decide, rfl,
      by decide!⟩,
    by decide!,
    addEntries_resolved (thumbEnv 0x1000 unresolvedImage) rfl (Or.inl rfl) 9 [(0x1000, "main")]
      _ rfl⟩

end Reassemble
